import Mathlib

/-!
# Constant operators, input binding and output deletion (nlops/const.c), utilities (misc/misc.c)

A shallow embedding of `src/nlops/const.c` and of `quicksort`, `quickselect`, `bitcount`,
`long_mul_overflow_p` and `io_calc_size` of `src/misc/misc.c` of BART.

* Elements (`complex float`) are only moved by this file, never computed with, so an
  element is represented by its bit pattern.
* A buffer is a map from byte offsets (relative to its base pointer) to elements; the
  caller memory is a map from byte addresses to elements.  Output buffers are objects
  distinct from the caller source arrays.
* C arrays of `long` are lists, read with default `0`; for a well-formed call every read
  is in range.
* `assert` failures abort: functions that can abort return `Option`.
* In the utilities of `misc.c` an array access outside the array and an undefined
  division give `none`, loops are bounded by a fuel argument, and `long` arithmetic wraps
  to 64 bits.
-/

namespace Bart

/-! ## Memory model -/

/-- Bit pattern of one `complex float` element. -/
abbrev CFloat := Nat

/-- Size in bytes of a `complex float` element (`CFL_SIZE`). -/
def CFL_SIZE : Int := 8

/-- A buffer: the element stored at each byte offset from the base pointer. -/
abbrev Mem := Int → CFloat

/-- The caller memory: the element stored at each byte address. -/
abbrev Heap := Int → CFloat

/-- Contents of a freshly allocated buffer, before anything is written to it. -/
def fresh : Mem := fun _ => 0

/-- A counted C loop `for (j = 0; j < n; j++) s = body(j, s)`. -/
def for_loop {σ : Type} (body : Nat → σ → σ) : Nat → σ → σ
  | 0, s => s
  | n + 1, s => body n (for_loop body n s)

/-! ## Array engine primitives (num/multind.c), consumed contract -/

/-- Modelled from the spec: `md_calc_strides` of the array engine (not under src/), the
computed strides of a tensor with the given extents: axis `i` gets the running product of
the element size and the lower extents, and stride `0` where the extent is `1`. The
auxiliary loop carries the axis index and the running product. -/
def md_calc_strides_from (dims : List Int) : Nat → Nat → Int → List Int
  | 0, _, _ => []
  | n + 1, i, old =>
    (if dims.getD i 0 = 1 then 0 else old) ::
      md_calc_strides_from dims n (i + 1) (old * dims.getD i 0)

/-- Modelled from the spec: `md_calc_strides(D, str, dim, size)` of the array engine. -/
def md_calc_strides (D : Nat) (dim : List Int) (size : Int) : List Int :=
  md_calc_strides_from dim D 0 size

/-- Modelled from the spec: the macro `MD_STRIDES(N, dims, size)`, the computed strides. -/
def MD_STRIDES (N : Nat) (dims : List Int) (size : Int) : List Int :=
  md_calc_strides N dims size

/-- Modelled from the spec: `md_singleton_dims(D, dims)`, all extents `1`. -/
def md_singleton_dims (D : Nat) : List Int := List.replicate D 1

/-- Modelled from the spec: `md_singleton_strides(D, strs)` and the macro
`MD_SINGLETON_STRS(D)`, all strides `0`. -/
def md_singleton_strides (D : Nat) : List Int := List.replicate D 0

/-- Modelled from the spec: the macro `MD_SINGLETON_STRS(D)`. -/
def MD_SINGLETON_STRS (D : Nat) : List Int := md_singleton_strides D

/-- Modelled from the spec: `md_copy_dims(D, odims, idims)`, which overwrites the first `D`
entries of `odims` with those of `idims`. -/
def md_copy_dims (D : Nat) (odims idims : List Int) : List Int :=
  (List.range odims.length).map (fun k => if k < D then idims.getD k 0 else odims.getD k 0)

/-- Modelled from the spec: `md_copy_strides(D, ostrs, istrs)`, as `md_copy_dims`. -/
def md_copy_strides (D : Nat) (ostrs istrs : List Int) : List Int :=
  md_copy_dims D ostrs istrs

/-- Modelled from the spec: `md_check_equal_dims(N, dims1, dims2, ~0UL)`, whether the two
arrays agree on every one of the `N` axes (the flag mask selects all of them). -/
def md_check_equal_dims (N : Nat) (dims1 dims2 : List Int) : Bool :=
  (List.range N).all (fun k => dims1.getD k 0 == dims2.getD k 0)

/-- Modelled from the spec: the nested loops of the strided copy of the array engine
(`md_nary` under `md_copy2`): the outermost loop runs over the highest axis, and the
innermost body copies one element from byte offset `i` of the source to byte offset `o`
of the destination. -/
def md_copy2_loop (dim ostr istr : List Int) (src : Mem) : Nat → Int → Int → Mem → Mem
  | 0, o, i, dst => Function.update dst o (src i)
  | D + 1, o, i, dst =>
    for_loop (fun j acc =>
        md_copy2_loop dim ostr istr src D
          (o + (j : Int) * ostr.getD D 0) (i + (j : Int) * istr.getD D 0) acc)
      (dim.getD D 0).toNat dst

/-- Modelled from the spec: `md_copy2(D, dim, ostr, optr, istr, iptr, size)`, the strided
copy primitive of the array engine, for elements of size `CFL_SIZE`. -/
def md_copy2 (D : Nat) (dim ostr : List Int) (optr : Mem) (istr : List Int) (iptr : Mem) : Mem :=
  md_copy2_loop dim ostr istr iptr D 0 0 optr

/-- Modelled from the spec: `md_copy(D, dim, optr, iptr, size)`, the copy between two
buffers that both have the computed strides. -/
def md_copy (D : Nat) (dim : List Int) (optr iptr : Mem) : Mem :=
  md_copy2 D dim (MD_STRIDES D dim CFL_SIZE) optr (MD_STRIDES D dim CFL_SIZE) iptr

/-- Modelled from the spec: `md_zfill(D, dim, ptr, val)`, the broadcast-fill primitive: a
strided copy of the single element `val` (all source strides `0`) into a buffer with the
computed strides. -/
def md_zfill (D : Nat) (dim : List Int) (ptr : Mem) (val : CFloat) : Mem :=
  md_copy2 D dim (MD_STRIDES D dim CFL_SIZE) ptr (md_singleton_strides D) (fun _ => val)

/-- Modelled from the spec: `multiplace_move2(N, dims, strs, size, ptr)` of the residency
helper, which materialises the tensor once as an owned buffer with the computed strides. -/
def multiplace_move2 (N : Nat) (dims strs : List Int) (ptr : Mem) : Mem :=
  md_copy2 N dims (MD_STRIDES N dims CFL_SIZE) fresh strs ptr

/-- Modelled from the spec: `multiplace_read(arr, ref)` of the residency helper, a
read-only view of the materialised tensor. -/
def multiplace_read (arr : Mem) : Mem := arr

/-- Byte offset of the multi-index `p` under the strides `str`, over the first `D` axes. -/
def md_offset (str : List Int) (p : Nat → Int) : Nat → Int
  | 0 => 0
  | D + 1 => md_offset str p D + p D * str.getD D 0

/-- The multi-index `p` lies inside the extents `dim` on the first `D` axes. -/
def md_is_index (D : Nat) (dim : List Int) (p : Nat → Int) : Prop :=
  ∀ k, k < D → 0 ≤ p k ∧ p k < dim.getD k 0

instance md_is_index_decidable (D : Nat) (dim : List Int) (p : Nat → Int) :
    Decidable (md_is_index D dim p) := by
  unfold md_is_index; infer_instance

/-! ## Operator descriptors (nlops/nlop.h), consumed contract -/

/-- Shape/stride descriptor of one tensor argument as attached by `nlop_generic_create`:
rank and extents; the strides are the computed ones (see `iovec_s.strs`). -/
structure iovec_s where
  /-- Rank. -/
  N : Nat
  /-- Extents. -/
  dims : List Int

/-- Modelled from the spec: the strides of a descriptor. `nlop_generic_create`, the only
constructor used in const.c, receives extents only and attaches the computed strides. -/
def iovec_s.strs (iov : iovec_s) : List Int := md_calc_strides iov.N iov.dims CFL_SIZE

/-- Modelled from the spec: `iovec_check(iov, N, dims, strs)`, whether a descriptor has the
given rank and, axis by axis, the given extents (and with them the same computed strides). -/
def iovec_check (iov : iovec_s) (N : Nat) (dims : List Int) : Bool :=
  decide (iov.N = N) && md_check_equal_dims N iov.dims dims

/-- A derivative or adjoint entry: at a linearisation point (the caller memory and the
inputs of the operator) it maps a direction buffer to a result buffer. -/
abbrev nlop_der_fun_t := Heap → List Mem → Mem → Mem

/-- Forward callback of a node (`nlop_gen_fun_t`): it receives the argument buffers,
outputs first and then inputs, and returns them after the call. -/
abbrev nlop_gen_fun_t := Heap → List Mem → List Mem

/-- Operator descriptor (`struct nlop_s`): ordered input and output descriptors, the
forward evaluation (inputs and output buffers to the output buffers after the call) and
the derivative and adjoint entries per input and output (`none`: absent, zero Jacobian). -/
structure nlop_s where
  /-- Input descriptors, in order. -/
  domain : List iovec_s
  /-- Output descriptors, in order. -/
  codomain : List iovec_s
  /-- Forward evaluation. -/
  forward : Heap → List Mem → List Mem → List Mem
  /-- Derivative of output `o` with respect to input `i`, as `deriv i o`. -/
  deriv : Nat → Nat → Option nlop_der_fun_t
  /-- Adjoint of the derivative of output `o` with respect to input `i`, as `adjoint i o`. -/
  adjoint : Nat → Nat → Option nlop_der_fun_t

/-- Modelled from the spec: `nlop_get_nr_in_args`. -/
def nlop_get_nr_in_args (a : nlop_s) : Nat := a.domain.length

/-- Modelled from the spec: `nlop_get_nr_out_args`. -/
def nlop_get_nr_out_args (a : nlop_s) : Nat := a.codomain.length

/-- Modelled from the spec: `nlop_generic_domain(a, i)`, the descriptor of input `i`
(an index out of range is a fatal error). -/
def nlop_generic_domain (a : nlop_s) (i : Nat) : Option iovec_s := a.domain[i]?

/-- Modelled from the spec: `nlop_generic_codomain(a, o)`, the descriptor of output `o`. -/
def nlop_generic_codomain (a : nlop_s) (o : Nat) : Option iovec_s := a.codomain[o]?

/-- Modelled from the spec: `nlop_generic_create(OO, ON, odims, II, IN, idims, data,
forward, deriv, adjoint, ...)`, the general operator-construction entry point: arity,
per-argument extents, the forward callback of the node and its optional derivative and adjoint
tables (`none` for a `NULL` table). -/
def nlop_generic_create (OO ON : Nat) (odims : List (List Int)) (II IN : Nat)
    (idims : List (List Int)) (forward : nlop_gen_fun_t)
    (deriv adjoint : Option (Nat → Nat → nlop_der_fun_t)) : nlop_s :=
  { domain := (List.range II).map (fun k => ⟨IN, (idims.getD k []).take IN⟩)
    codomain := (List.range OO).map (fun k => ⟨ON, (odims.getD k []).take ON⟩)
    forward := fun heap ins outs => (forward heap (outs ++ ins)).take OO
    deriv := fun i o => if i < II ∧ o < OO then deriv.map (fun d => d i o) else none
    adjoint := fun i o => if i < II ∧ o < OO then adjoint.map (fun d => d i o) else none }

/-- Index of the `j`-th remaining port once port `p` has been removed. -/
def skip_port (p j : Nat) : Nat := if j < p then j else j + 1

/-- The argument list `l` with the buffer `x` placed at position `k`. -/
def insert_port (l : List Mem) (k : Nat) (x : Mem) : List Mem := l.take k ++ x :: l.drop k

/-- Modelled from the spec: the inputs seen by `b` inside the chain of output `o` of `a`
into input `i` of `b`, at the point `pt` of the chained operator: the inputs of `b` other
than `i` are taken from `pt`, and input `i` is output `o` of `a` evaluated at its part of
`pt`. -/
def nlop_chain2_point (a : nlop_s) (o : Nat) (i : Nat) (heap : Heap) (pt : List Mem) :
    List Mem :=
  insert_port (pt.drop a.domain.length) i
    ((a.forward heap (pt.take a.domain.length)
      (List.replicate a.codomain.length fresh)).getD o fresh)

/-- Modelled from the spec: the operator built by the chaining primitive of section 4.5
(nlops/chain.c is not under src/) from output `o` of `a` and input `i` of `b`. It has inputs
the inputs of `a` followed by those of `b` other than `i`, and outputs the outputs of `a`
other than `o` followed by those of `b`; forward runs
`a`, feeds its output `o` (an intermediate buffer) into input `i` of `b`, and runs `b`;
the derivative composes by the chain rule and the adjoint in the reverse order. -/
def nlop_chain2_result (a : nlop_s) (o : Nat) (b : nlop_s) (i : Nat) : nlop_s :=
  let II := a.domain.length
  let OO := a.codomain.length - 1
  { domain := a.domain ++ b.domain.eraseIdx i
    codomain := a.codomain.eraseIdx o ++ b.codomain
    forward := fun heap ins outs =>
      let ra := a.forward heap (ins.take II) (insert_port (outs.take OO) o fresh)
      let rb := b.forward heap (insert_port (ins.drop II) i (ra.getD o fresh)) (outs.drop OO)
      ra.eraseIdx o ++ rb
    deriv := fun ci co =>
      if ci < II then
        if co < OO then
          (a.deriv ci (skip_port o co)).map (fun f heap pt d => f heap (pt.take II) d)
        else
          match a.deriv ci o, b.deriv i (co - OO) with
          | some f, some g =>
            some (fun heap pt d =>
              g heap (nlop_chain2_point a o i heap pt) (f heap (pt.take II) d))
          | _, _ => none
      else
        if co < OO then none
        else
          (b.deriv (skip_port i (ci - II)) (co - OO)).map
            (fun g heap pt d => g heap (nlop_chain2_point a o i heap pt) d)
    adjoint := fun ci co =>
      if ci < II then
        if co < OO then
          (a.adjoint ci (skip_port o co)).map (fun f heap pt d => f heap (pt.take II) d)
        else
          match a.adjoint ci o, b.adjoint i (co - OO) with
          | some f, some g =>
            some (fun heap pt d =>
              f heap (pt.take II) (g heap (nlop_chain2_point a o i heap pt) d))
          | _, _ => none
      else
        if co < OO then none
        else
          (b.adjoint (skip_port i (ci - II)) (co - OO)).map
            (fun g heap pt d => g heap (nlop_chain2_point a o i heap pt) d) }

/-- Modelled from the spec: `nlop_chain2(a, o, b, i)`, the chaining primitive of section
4.5. Output `o` of `a` and input `i` of `b` must exist and have matching descriptors;
otherwise the call is fatal (`none`). -/
def nlop_chain2 (a : nlop_s) (o : Nat) (b : nlop_s) (i : Nat) : Option nlop_s :=
  match nlop_generic_codomain a o, nlop_generic_domain b i with
  | some co, some di =>
    if iovec_check di co.N co.dims then some (nlop_chain2_result a o b i) else none
  | _, _ => none

/-- Modelled from the spec: `nlop_free(op)` releases one reference to the operator; the
argument and the result are the number of references held. -/
def nlop_free (refs : Nat) : Nat := refs - 1

/-! ## The constant operator (const.c, lines 23-122) -/

/-- The node of a constant operator (`struct const_s`). `xn_ref` is the borrowed source
pointer (a byte address in the caller memory) and `xn_cop` the owned copy; `none` is
`NULL`. -/
structure const_s where
  /-- Rank. -/
  N : Nat
  /-- Extents (cloned). -/
  dims : List Int
  /-- Source strides (cloned). -/
  strs : List Int
  /-- Scalar value. -/
  val : CFloat
  /-- Borrowed reference. -/
  xn_ref : Option Int
  /-- Owned copy. -/
  xn_cop : Option Mem

/-- Forward callback `const_fun(data, N, dst)`: writes the constant into `dst[0]`. The
borrowed reference is read in the caller memory `heap` as it is at the time of the call. -/
def const_fun (data : const_s) (heap : Heap) (dst : List Mem) : List Mem :=
  match dst with
  | [] => []
  | dst0 :: rest =>
    match data.xn_ref with
    | some xn_ref =>
      md_copy2 data.N data.dims (MD_STRIDES data.N data.dims CFL_SIZE) dst0 data.strs
        (fun off => heap (xn_ref + off)) :: rest
    | none =>
      match data.xn_cop with
      | some xn_cop => md_copy data.N data.dims dst0 (multiplace_read xn_cop) :: rest
      | none => md_zfill data.N data.dims dst0 data.val :: rest

/-- The node built by `nlop_const_create2` (lines 80-100): `inp` is the source pointer
`in`, a valid reference into the caller memory `heap` as it is at construction. The
field `val` is left uninitialised by the C code outside the scalar case; it is never read
then and is `0` here. -/
def nlop_const_create2_data (N : Nat) (dims strs : List Int) (copy : Bool) (inp : Int)
    (heap : Heap) : const_s :=
  let data : const_s :=
    { N := N, dims := dims.take N, strs := strs.take N, val := 0, xn_ref := none,
      xn_cop := none }
  if md_check_equal_dims N (MD_SINGLETON_STRS N) strs then
    { data with val := md_copy 1 [1] (fun _ => data.val) (fun off => heap (inp + off)) 0 }
  else
    if copy then
      { data with xn_cop := some (multiplace_move2 N dims strs (fun off => heap (inp + off))) }
    else
      { data with xn_ref := some inp }

/-- Constructor `nlop_const_create2(N, dims, strs, copy, in)`: an operator with zero inputs
and one output whose forward callback is `const_fun` on the node built. -/
def nlop_const_create2 (N : Nat) (dims strs : List Int) (copy : Bool) (inp : Int)
    (heap : Heap) : nlop_s :=
  nlop_generic_create 1 N [dims] 0 0 []
    (const_fun (nlop_const_create2_data N dims strs copy inp heap)) none none

/-- Constructor `nlop_const_create(N, dims, copy, in)`: the source has the computed
strides. -/
def nlop_const_create (N : Nat) (dims : List Int) (copy : Bool) (inp : Int) (heap : Heap) :
    nlop_s :=
  nlop_const_create2 N dims (MD_STRIDES N dims CFL_SIZE) copy inp heap

/-! ## Input binding (const.c, lines 125-225) -/

/-- The loop `for (int k = lo; k < hi; k++) assert(1 == dims[k]);`: whether every assertion
holds. -/
def assert_singleton (lo hi : Nat) (dims : List Int) : Bool :=
  (List.range (hi - lo)).all (fun j => dims.getD (lo + j) 0 == 1)

/-- Input binding `nlop_set_input_const2(a, i, N, dims, strs, copy, in)`: `none` when an
assertion fails. `inp` is the pointer `in` into the caller memory `heap`. -/
def nlop_set_input_const2 (a : nlop_s) (i : Nat) (N : Nat) (dims strs : List Int)
    (copy : Bool) (inp : Int) (heap : Heap) : Option nlop_s :=
  let ai := nlop_get_nr_in_args a
  if i < ai then
    match nlop_generic_domain a i with
    | none => none
    | some iov =>
      let N_min := if N < iov.N then N else iov.N
      let N_max := if N > iov.N then N else iov.N
      let ndims := md_copy_dims N_min (md_singleton_dims N_max) dims
      let nstrs := md_copy_strides N_min (md_singleton_strides N_max) strs
      if assert_singleton N_min iov.N iov.dims && assert_singleton N_min N dims then
        let nlop_const := nlop_const_create2 iov.N ndims nstrs copy inp heap
        nlop_chain2 nlop_const 0 a i
      else none
  else none

/-- Input binding `nlop_set_input_const(a, i, N, dims, copy, in)` with computed strides. -/
def nlop_set_input_const (a : nlop_s) (i : Nat) (N : Nat) (dims : List Int)
    (copy : Bool) (inp : Int) (heap : Heap) : Option nlop_s :=
  nlop_set_input_const2 a i N dims (MD_STRIDES N dims CFL_SIZE) copy inp heap

/-- Destructive form `nlop_set_input_const_F2`: the result of `nlop_set_input_const2`, then
`nlop_free(a)`. `refs` is the number of references held on `a` before the call; the second
component is that number after it. -/
def nlop_set_input_const_F2 (a : nlop_s) (refs : Nat) (i : Nat) (N : Nat)
    (dims strs : List Int) (copy : Bool) (inp : Int) (heap : Heap) : Option (nlop_s × Nat) :=
  match nlop_set_input_const2 a i N dims strs copy inp heap with
  | none => none
  | some result => some (result, nlop_free refs)

/-- Destructive form `nlop_set_input_const_F`: the result of `nlop_set_input_const`, then
`nlop_free(a)`. -/
def nlop_set_input_const_F (a : nlop_s) (refs : Nat) (i : Nat) (N : Nat)
    (dims : List Int) (copy : Bool) (inp : Int) (heap : Heap) : Option (nlop_s × Nat) :=
  match nlop_set_input_const a i N dims copy inp heap with
  | none => none
  | some result => some (result, nlop_free refs)

/-- Scalar convenience form `nlop_set_input_scalar_F(a, i, val)`. The source pointer `&val`
refers to the by-value parameter, an object of its own that holds `val`. -/
def nlop_set_input_scalar_F (a : nlop_s) (refs : Nat) (i : Nat) (val : CFloat) :
    Option (nlop_s × Nat) :=
  match nlop_generic_domain a i with
  | none => none
  | some iov =>
    nlop_set_input_const_F2 a refs i iov.N iov.dims (MD_SINGLETON_STRS iov.N) true 0
      (fun _ => val)

/-- The shape of a supplied tensor (rank `N`, extents `dims`) is compatible with the input
descriptor `iov`: with `N_min = min(N, iov.N)`, the extents agree below `N_min` and every
axis from `N_min` on, on either side, is a singleton. -/
def shape_compatible (iov : iovec_s) (N : Nat) (dims : List Int) : Prop :=
  (∀ k, k < min N iov.N → dims.getD k 0 = iov.dims.getD k 0) ∧
  (∀ k, k < iov.N → min N iov.N ≤ k → iov.dims.getD k 0 = 1) ∧
  (∀ k, k < N → min N iov.N ≤ k → dims.getD k 0 = 1)

instance shape_compatible_decidable (iov : iovec_s) (N : Nat) (dims : List Int) :
    Decidable (shape_compatible iov N dims) := by
  unfold shape_compatible; infer_instance

/-! ## Output deletion (const.c, lines 229-298) -/

/-- Forward callback `del_out_fun`: does nothing. -/
def del_out_fun (_heap : Heap) (args : List Mem) : List Mem := args

/-- Constructor `nlop_del_out_create(N, dims)`: one input, zero outputs. -/
def nlop_del_out_create (N : Nat) (dims : List Int) : nlop_s :=
  nlop_generic_create 0 0 [] 1 N [dims] del_out_fun none none

/-- Output deletion `nlop_del_out(a, o)`: `none` when an assertion fails. -/
def nlop_del_out (a : nlop_s) (o : Nat) : Option nlop_s :=
  let ao := nlop_get_nr_out_args a
  if ao > o then
    match nlop_generic_codomain a o with
    | none => none
    | some codomain =>
      let nlop_del_out_op := nlop_del_out_create codomain.N codomain.dims
      nlop_chain2 a o nlop_del_out_op 0
  else none

/-- Destructive form `nlop_del_out_F`: the result of `nlop_del_out`, then `nlop_free(a)`. -/
def nlop_del_out_F (a : nlop_s) (refs : Nat) (o : Nat) : Option (nlop_s × Nat) :=
  match nlop_del_out a o with
  | none => none
  | some result => some (result, nlop_free refs)

/-- Product of the extents of the axes below `k`. -/
def md_calc_size (dims : List Int) : Nat → Int
  | 0 => 1
  | k + 1 => md_calc_size dims k * dims.getD k 0

/-- Product of `k` extents starting at axis `i`. -/
def md_prod_from (dims : List Int) (i : Nat) : Nat → Int
  | 0 => 1
  | k + 1 => dims.getD i 0 * md_prod_from dims (i + 1) k

/-- Position of the multi-index `p` in the enumeration of the first `D` axes, lowest axis
fastest. -/
def md_index_number (dims : List Int) (p : Nat → Int) : Nat → Int
  | 0 => 0
  | D + 1 => md_index_number dims p D + p D * md_calc_size dims D

/-! ## Example data -/

/-- An operator with one input and one output, both of rank `N` and extents `dims`, whose
forward callback copies the input buffer to the output buffer; it has no derivative. -/
def nlop_example (N : Nat) (dims : List Int) : nlop_s :=
  nlop_generic_create 1 N [dims] 1 N [dims]
    (fun _ args => match args with
      | [_, src] => [src, src]
      | other => other) none none

/-- A caller memory that holds the four elements `1, 2, 3, 4` contiguously from
address `0`. -/
def heap_1234 : Heap :=
  fun a => if a = 0 then 1 else if a = 8 then 2 else if a = 16 then 3 else if a = 24 then 4
    else 0

/-- The same memory after the caller has overwritten the array with `5, 6, 7, 8`. -/
def heap_5678 : Heap :=
  fun a => if a = 0 then 5 else if a = 8 then 6 else if a = 16 then 7 else if a = 24 then 8
    else 0

/-- The four elements of a contiguous rank-1 buffer of extent `4`. -/
def read4 (m : Mem) : List CFloat := [m 0, m 8, m 16, m 24]

/-- An operator with one input and two outputs of rank 1 and extent `4`: output `0` is the
input buffer, output `1` the input elements plus one; every derivative and adjoint entry is
the identity. -/
def nlop_example_two : nlop_s :=
  nlop_generic_create 2 1 [[4], [4]] 1 1 [[4]]
    (fun _ args => match args with
      | [_, _, src] => [src, fun x => src x + 1, src]
      | other => other)
    (some (fun _ _ _ _ d => d)) (some (fun _ _ _ _ d => d))

/-! ## Utilities of misc.c: arrays -/

/-- Read `arr[i]` in a C array held as a list: an index outside the array is undefined
behaviour (`none`). -/
def arr_get (arr : List Int) (i : Int) : Option Int :=
  if 0 ≤ i ∧ i < arr.length then some (arr.getD i.toNat 0) else none

/-- Write `arr[i] = v`: an index outside the array is undefined behaviour (`none`). -/
def arr_set (arr : List Int) (i : Int) (v : Int) : Option (List Int) :=
  if 0 ≤ i ∧ i < arr.length then some (arr.set i.toNat v) else none

/-- The element at index `p` of an array (`0` outside the array). -/
def arr_at (arr : List Int) (p : Int) : Int := arr.getD p.toNat 0

/-- The array with the elements at the indices `i` and `j` exchanged. -/
def arr_swap (arr : List Int) (i j : Int) : List Int :=
  (arr.set i.toNat (arr_at arr j)).set j.toNat (arr_at arr i)

/-! ## quicksort (misc.c, lines 319-355) -/

/-- The partition loop of `quicksort` (misc.c, lines 328-348), `ord`, `l` and `h` being the
loop state: it returns the state at loop exit. `fuel` bounds the number of iterations;
`none` means an access outside the array or that the bound was reached. -/
def quicksort_loop (cmp : Int → Int → Int) (pivot : Int) :
    Nat → List Int → Int → Int → Option (List Int × Int × Int)
  | 0, ord, l, h => if l ≤ h then none else some (ord, l, h)
  | fuel + 1, ord, l, h =>
    if l ≤ h then
      match arr_get ord l with
      | none => none
      | some x =>
        if cmp x pivot < 0 then quicksort_loop cmp pivot fuel ord (l + 1) h
        else
          match arr_get ord h with
          | none => none
          | some y =>
            if cmp y pivot > 0 then quicksort_loop cmp pivot fuel ord l (h - 1)
            else
              match arr_set ord l y with
              | none => none
              | some ord1 =>
                match arr_set ord1 h x with
                | none => none
                | some ord2 => quicksort_loop cmp pivot fuel ord2 (l + 1) (h - 1)
    else some (ord, l, h)

/-- Function `quicksort(N, ord, cmp)` (misc.c, lines 319-355) on an array of `N` ints; the
result is the array after the call. The recursive calls receive the sub-arrays
`ord[0 .. h]` and `ord[l .. N-1]`, and what they leave is written back in place. `fuel`
bounds the recursion depth and the iterations of the partition loop; `none` means an
access outside the array or that the bound was reached. -/
def quicksort (cmp : Int → Int → Int) : Nat → Int → List Int → Option (List Int)
  | 0, N, ord => if N < 2 then some ord else none
  | fuel + 1, N, ord =>
    if N < 2 then some ord
    else
      match arr_get ord (N.tdiv 2) with
      | none => none
      | some pivot =>
        match quicksort_loop cmp pivot (fuel + 1) ord 0 (N - 1) with
        | none => none
        | some (ord1, l, h) =>
          match (if h + 1 > 0 then
              (quicksort cmp fuel (h + 1) (ord1.take (h + 1).toNat)).map
                (fun s => s ++ ord1.drop (h + 1).toNat)
            else some ord1) with
          | none => none
          | some ord2 =>
            if N > l then
              (quicksort cmp fuel (N - l) (ord2.drop l.toNat)).map
                (fun s => ord2.take l.toNat ++ s)
            else some ord2

/-! ## quickselect (misc.c, lines 359-428) -/

/-- Modelled from the spec: the macro `SWAP(arr[i], arr[j])` (misc/misc.h, not under
src/), which exchanges two array elements through a temporary. -/
def SWAP (arr : List Int) (i j : Int) : Option (List Int) :=
  match arr_get arr i, arr_get arr j with
  | some x, some y =>
    match arr_set arr i y with
    | some arr1 => arr_set arr1 j x
    | none => none
  | _, _ => none

/-- The statement `if (arr[i] < arr[j]) SWAP(arr[i], arr[j]);` of `quickselect`. -/
def swap_if_lt (arr : List Int) (i j : Int) : Option (List Int) :=
  match arr_get arr i, arr_get arr j with
  | some x, some y => if x < y then SWAP arr i j else some arr
  | _, _ => none

/-- The scan `do i++; while (arr[i] > a);` of `quickselect`: the value of `i` after it. -/
def scan_up (arr : List Int) (a : Int) : Nat → Int → Option Int
  | 0, _ => none
  | fuel + 1, i =>
    match arr_get arr (i + 1) with
    | none => none
    | some x => if x > a then scan_up arr a fuel (i + 1) else some (i + 1)

/-- The scan `do j--; while (arr[j] < a);` of `quickselect`: the value of `j` after it. -/
def scan_down (arr : List Int) (a : Int) : Nat → Int → Option Int
  | 0, _ => none
  | fuel + 1, j =>
    match arr_get arr (j - 1) with
    | none => none
    | some x => if x < a then scan_down arr a fuel (j - 1) else some (j - 1)

/-- The inner loop of `quickselect` (misc.c, lines 408-417): the array and the values of
`i` and `j` at the `break`. `sf` bounds the iterations of each scan and the first argument
those of the loop. -/
def quickselect_partition (a : Int) (sf : Nat) :
    Nat → List Int → Int → Int → Option (List Int × Int × Int)
  | 0, _, _, _ => none
  | fuel + 1, arr, i, j =>
    match scan_up arr a sf i with
    | none => none
    | some i1 =>
      match scan_down arr a sf j with
      | none => none
      | some j1 =>
        if j1 < i1 then some (arr, i1, j1)
        else
          match SWAP arr i1 j1 with
          | none => none
          | some arr1 => quickselect_partition a sf fuel arr1 i1 j1

/-- The outer loop of `quickselect` (misc.c, lines 381-427) with the loop state `arr`,
`l`, `ir`: the returned value and the array at the `return`. `sf` bounds the iterations of
the inner loops and the first argument those of the outer loop; `none` means an access
outside the array or that a bound was reached. The elements are comparable values without
NaN, represented by integers. -/
def quickselect_loop (k : Int) (sf : Nat) : Nat → List Int → Int → Int → Option (Int × List Int)
  | 0, _, _, _ => none
  | fuel + 1, arr, l, ir =>
    if ir ≤ l + 1 then
      match (if ir = l + 1 then
          match arr_get arr ir, arr_get arr l with
          | some x, some y => if x > y then SWAP arr l ir else some arr
          | _, _ => none
        else some arr) with
      | none => none
      | some arr1 =>
        match arr_get arr1 k with
        | none => none
        | some v => some (v, arr1)
    else
      match SWAP arr ((l + ir).tdiv 2) (l + 1) with
      | none => none
      | some arr1 =>
        match swap_if_lt arr1 l ir with
        | none => none
        | some arr2 =>
          match swap_if_lt arr2 (l + 1) ir with
          | none => none
          | some arr3 =>
            match swap_if_lt arr3 l (l + 1) with
            | none => none
            | some arr4 =>
              match arr_get arr4 (l + 1) with
              | none => none
              | some a =>
                match quickselect_partition a sf sf arr4 (l + 1) ir with
                | none => none
                | some (arr5, i, j) =>
                  match arr_get arr5 j with
                  | none => none
                  | some x =>
                    match arr_set arr5 (l + 1) x with
                    | none => none
                    | some arr6 =>
                      match arr_set arr6 j a with
                      | none => none
                      | some arr7 =>
                        quickselect_loop k sf fuel arr7 (if j ≤ k then i else l)
                          (if j ≥ k then j - 1 else ir)

/-- Function `quickselect(arr, n, k)` (misc.c, lines 373-428): the returned value and the
array after the call. -/
def quickselect (fuel : Nat) (arr : List Int) (n k : Int) : Option (Int × List Int) :=
  quickselect_loop k fuel fuel arr 0 (n - 1)

/-- The array `arr2` is a rearrangement of `arr` inside the index range `lo .. hi`: it is
a permutation, agrees outside the range, and every element in the range comes from the
range. -/
def rearranged (arr arr2 : List Int) (lo hi : Int) : Prop :=
  arr2.length = arr.length ∧ arr2.Perm arr ∧
  (∀ p, 0 ≤ p → (p < lo ∨ hi < p) → arr_at arr2 p = arr_at arr p) ∧
  (∀ p, lo ≤ p → p ≤ hi → ∃ q, lo ≤ q ∧ q ≤ hi ∧ arr_at arr2 p = arr_at arr q)

/-- The element at index `k` is in its final place of the descending order: everything
before it is at least as large and everything after it at most as large. -/
def settled (arr : List Int) (k : Int) : Prop :=
  (∀ p, 0 ≤ p → p < k → arr_at arr k ≤ arr_at arr p) ∧
  (∀ q, k < q → q < arr.length → arr_at arr q ≤ arr_at arr k)

/-- Every element before index `l` is at least as large as every element from `l` on. -/
def split_at (arr : List Int) (l : Int) : Prop :=
  ∀ p q, 0 ≤ p → p < l → l ≤ q → q < arr.length → arr_at arr q ≤ arr_at arr p

/-! ## bitcount (misc.c, lines 630-638) -/

/-- Number of values of type `unsigned long` (64 bits). -/
def ULONG_MOD : Nat := 18446744073709551616

/-- The loop of `bitcount` (misc.c, lines 634-635), `flags` and `N` being the loop
variables: `fuel` bounds the number of iterations, and `none` means that the bound was
reached with the loop still running. Subtraction wraps as for `unsigned long`. -/
def bitcount_loop : Nat → Nat → Int → Option Int
  | 0, flags, N => if flags > 0 then none else some N
  | fuel + 1, flags, N =>
    if flags > 0 then
      bitcount_loop fuel (flags &&& ((flags + ULONG_MOD - 1) % ULONG_MOD)) (N + 1)
    else some N

/-- Function `bitcount(flags)` (misc.c, lines 630-638). -/
def bitcount (fuel : Nat) (flags : Nat) : Option Int := bitcount_loop fuel flags 0

/-- Population count of an `unsigned long`: the number of bit positions below 64 at which
the bit of `flags` is set. -/
def popcount (flags : Nat) : Nat := ((List.range 64).filter (fun i => flags.testBit i)).length

/-- Sum of the lowest `b` binary digits. -/
def popcount_bits : Nat → Nat → Nat
  | 0, _ => 0
  | b + 1, n => n % 2 + popcount_bits b (n / 2)

/-! ## io_calc_size and long_mul_overflow_p (misc.c, lines 654-681) -/

/-- Largest value of type `long` (64 bits). -/
def LONG_MAX : Int := 9223372036854775807

/-- Smallest value of type `long` (64 bits, two-complement). -/
def LONG_MIN : Int := -9223372036854775808

/-- The value of type `long` that a mathematical integer wraps to (two-complement). -/
def wrap_long (x : Int) : Int :=
  (x + 9223372036854775808) % 18446744073709551616 - 9223372036854775808

/-- Division of two `long` values in C: truncation toward zero; division by zero and
`LONG_MIN / -1` are undefined (`none`). -/
def long_div (a b : Int) : Option Int :=
  if b = 0 ∨ (a = LONG_MIN ∧ b = -1) then none else some (a.tdiv b)

/-- The short-circuit conjunction `c && rest` of C: `rest` is evaluated only when `c`
holds. -/
def and_then (c : Bool) (rest : Option Bool) : Option Bool := if c then rest else some false

/-- Predicate `long_mul_overflow_p(a, b)` (misc.c, lines 654-664); `none` when a division
is undefined. -/
def long_mul_overflow_p (a b : Int) : Option Bool := do
  let of := false
  let t1 ← and_then (decide (a > 0)) (and_then (decide (b > 0))
    ((long_div LONG_MAX b).map (fun q => decide (a > q))))
  let of := of || t1
  let t2 ← and_then (decide (a > 0)) (and_then (decide (b < 0))
    ((long_div LONG_MIN a).map (fun q => decide (b < q))))
  let of := of || t2
  let t3 ← and_then (decide (a < 0)) (and_then (decide (b > 0))
    ((long_div LONG_MIN b).map (fun q => decide (a < q))))
  let of := of || t3
  let t4 ← and_then (decide (a < 0)) (and_then (decide (b < 0))
    ((long_div LONG_MAX a).map (fun q => decide (b < q))))
  let of := of || t4
  return of

/-- Function `io_calc_size(D, dims, size)` (misc.c, lines 666-681). The pointer `dims + 1`
is the array without its first entry; `(long)size` and the product `a * b` wrap to type
`long`; `none` when `dims[0]` lies outside the array or a division of the overflow test
is undefined. -/
def io_calc_size : Nat → List Int → Nat → Option Int
  | 0, _, size => some (wrap_long size)
  | D + 1, dims, size =>
    match io_calc_size D (dims.drop 1) size with
    | none => none
    | some a =>
      match arr_get dims 0 with
      | none => none
      | some b =>
        if a < 0 ∨ b < 0 then some (-1)
        else
          match long_mul_overflow_p a b with
          | none => none
          | some true => some (-1)
          | some false => some (wrap_long (a * b))

/-- Every extent is non-negative and every suffix product
`size * dims[j] * ... * dims[D-1]` is at most `LONG_MAX`. -/
def io_size_fits (D : Nat) (dims : List Int) (size : Nat) : Prop :=
  (∀ k, k < D → 0 ≤ dims.getD k 0) ∧
  (∀ j, j < D → (size : Int) * md_prod_from dims j (D - j) ≤ LONG_MAX)

/-! ## Facts about the array engine model -/

theorem md_calc_strides_from_length (dims : List Int) (n i : Nat) (old : Int) :
    (md_calc_strides_from dims n i old).length = n := by
  induction n generalizing i old with
  | zero => rfl
  | succ n ih => simp [md_calc_strides_from, ih]

theorem md_prod_from_succ (dims : List Int) (i k : Nat) :
    md_prod_from dims i (k + 1) = md_prod_from dims i k * dims.getD (i + k) 0 := by
  induction k generalizing i with
  | zero => simp [md_prod_from]
  | succ k ih =>
    have h := ih (i + 1)
    have e : i + 1 + k = i + (k + 1) := by omega
    rw [e] at h
    calc md_prod_from dims i (k + 1 + 1)
        = dims.getD i 0 * md_prod_from dims (i + 1) (k + 1) := rfl
      _ = dims.getD i 0 * (md_prod_from dims (i + 1) k * dims.getD (i + (k + 1)) 0) := by rw [h]
      _ = (dims.getD i 0 * md_prod_from dims (i + 1) k) * dims.getD (i + (k + 1)) 0 := by ring
      _ = md_prod_from dims i (k + 1) * dims.getD (i + (k + 1)) 0 := rfl

theorem md_prod_from_zero (dims : List Int) (k : Nat) :
    md_prod_from dims 0 k = md_calc_size dims k := by
  induction k with
  | zero => rfl
  | succ k ih => rw [md_prod_from_succ, ih]; simp [md_calc_size]

theorem md_calc_strides_from_getD (dims : List Int) (n i k : Nat) (old : Int) (hk : k < n) :
    (md_calc_strides_from dims n i old).getD k 0 =
      if dims.getD (i + k) 0 = 1 then 0 else old * md_prod_from dims i k := by
  induction n generalizing i k old with
  | zero => omega
  | succ n ih =>
    cases k with
    | zero => simp [md_calc_strides_from, md_prod_from]
    | succ k =>
      have h := ih (i + 1) k (old * dims.getD i 0) (by omega)
      have e : i + 1 + k = i + (k + 1) := by omega
      rw [e] at h
      simp only [md_calc_strides_from, List.getD_cons_succ, h, md_prod_from]
      split <;> ring_nf

/-- The computed stride of axis `k`: `0` for a singleton axis, otherwise the element size
times the product of the lower extents. -/
theorem md_calc_strides_getD (D : Nat) (dims : List Int) (size : Int) (k : Nat) (hk : k < D) :
    (md_calc_strides D dims size).getD k 0 =
      if dims.getD k 0 = 1 then 0 else size * md_calc_size dims k := by
  unfold md_calc_strides
  rw [md_calc_strides_from_getD dims D 0 k size hk, md_prod_from_zero]
  simp

theorem md_offset_congr (str : List Int) (p q : Nat → Int) (D : Nat)
    (h : ∀ k, k < D → p k = q k) : md_offset str p D = md_offset str q D := by
  induction D with
  | zero => rfl
  | succ D ih =>
    simp only [md_offset]
    rw [ih (fun k hk => h k (by omega)), h D (by omega)]

theorem md_offset_update (str : List Int) (p : Nat → Int) (D : Nat) (v : Int) :
    md_offset str (Function.update p D v) D = md_offset str p D :=
  md_offset_congr str _ _ D (fun k hk => Function.update_noteq (by omega) v p)

theorem md_is_index_update (D : Nat) (dim : List Int) (p : Nat → Int) (v : Int)
    (hp : md_is_index D dim p) (h0 : 0 ≤ v) (h1 : v < dim.getD D 0) :
    md_is_index (D + 1) dim (Function.update p D v) := by
  intro k hk
  by_cases e : k = D
  · subst e; rw [Function.update_same]; exact ⟨h0, h1⟩
  · rw [Function.update_noteq e]; exact hp k (by omega)

theorem md_is_index_pred (D : Nat) (dim : List Int) (p : Nat → Int)
    (hp : md_is_index (D + 1) dim p) : md_is_index D dim p :=
  fun k hk => hp k (by omega)

/-- Frame property of the strided copy: an offset that no multi-index of the extents
addresses keeps its contents. -/
theorem md_copy2_loop_frame (dim ostr istr : List Int) (src : Mem) (D : Nat) :
    ∀ (o i : Int) (dst : Mem) (x : Int),
      (∀ p, md_is_index D dim p → x ≠ o + md_offset ostr p D) →
      md_copy2_loop dim ostr istr src D o i dst x = dst x := by
  induction D with
  | zero =>
    intro o i dst x h
    have hx : x ≠ o := by simpa [md_offset] using h (fun _ => 0) (fun k hk => by omega)
    simp [md_copy2_loop, Function.update_noteq hx]
  | succ D ih =>
    intro o i dst x h
    simp only [md_copy2_loop]
    have key : ∀ n : Nat, n ≤ (dim.getD D 0).toNat →
        for_loop (fun j acc => md_copy2_loop dim ostr istr src D
          (o + (j : Int) * ostr.getD D 0) (i + (j : Int) * istr.getD D 0) acc) n dst x
          = dst x := by
      intro n
      induction n with
      | zero => intro _; rfl
      | succ n ihn =>
        intro hn
        simp only [for_loop]
        rw [ih, ihn (by omega)]
        intro p hp hx
        have hlt : (n : Int) < dim.getD D 0 := by omega
        refine h (Function.update p D n) (md_is_index_update D dim p n hp (by omega) hlt) ?_
        simp only [md_offset, md_offset_update, Function.update_same]
        rw [hx]; ring
    exact key _ (le_refl _)

/-- Hit property of the strided copy: when distinct multi-indices have distinct destination
offsets, the destination element of the multi-index `p` holds the source element of `p`. -/
theorem md_copy2_loop_hit (dim ostr istr : List Int) (src : Mem) (D : Nat) :
    ∀ (o i : Int) (dst : Mem) (p : Nat → Int), md_is_index D dim p →
      (∀ q r, md_is_index D dim q → md_is_index D dim r →
        md_offset ostr q D = md_offset ostr r D → ∀ k, k < D → q k = r k) →
      md_copy2_loop dim ostr istr src D o i dst (o + md_offset ostr p D)
        = src (i + md_offset istr p D) := by
  induction D with
  | zero =>
    intro o i dst p _ _
    show Function.update dst o (src i) (o + 0) = src (i + 0)
    rw [add_zero, add_zero]
    exact Function.update_same o (src i) dst
  | succ D ih =>
    intro o i dst p hp hinj
    simp only [md_copy2_loop]
    have hpD := hp D (by omega)
    have hinjD : ∀ q r, md_is_index D dim q → md_is_index D dim r →
        md_offset ostr q D = md_offset ostr r D → ∀ k, k < D → q k = r k := by
      intro q r hq hr he k hk
      have := hinj (Function.update q D (p D)) (Function.update r D (p D))
        (md_is_index_update D dim q _ hq hpD.1 hpD.2)
        (md_is_index_update D dim r _ hr hpD.1 hpD.2)
        (by simp only [md_offset, md_offset_update, Function.update_same]; rw [he]) k (by omega)
      rwa [Function.update_noteq (by omega), Function.update_noteq (by omega)] at this
    have key : ∀ n : Nat, (p D).toNat < n → n ≤ (dim.getD D 0).toNat →
        for_loop (fun j acc => md_copy2_loop dim ostr istr src D
          (o + (j : Int) * ostr.getD D 0) (i + (j : Int) * istr.getD D 0) acc) n dst
          (o + md_offset ostr p (D + 1)) = src (i + md_offset istr p (D + 1)) := by
      intro n
      induction n with
      | zero => intro h; omega
      | succ n ihn =>
        intro h1 h2
        simp only [for_loop]
        by_cases e : (p D).toNat = n
        · have hn : (n : Int) = p D := by omega
          have e1 : o + md_offset ostr p (D + 1)
              = (o + (n : Int) * ostr.getD D 0) + md_offset ostr p D := by
            simp only [md_offset]; rw [hn]; ring
          have e2 : i + md_offset istr p (D + 1)
              = (i + (n : Int) * istr.getD D 0) + md_offset istr p D := by
            simp only [md_offset]; rw [hn]; ring
          rw [e1, e2]
          exact ih _ _ _ p (md_is_index_pred D dim p hp) hinjD
        · rw [md_copy2_loop_frame, ihn (by omega) (by omega)]
          intro q hq hx
          have hlt : (n : Int) < dim.getD D 0 := by omega
          have := hinj p (Function.update q D n) hp
            (md_is_index_update D dim q n hq (by omega) hlt)
            (by
              simp only [md_offset, md_offset_update, Function.update_same]
              simp only [md_offset] at hx
              linarith) D (by omega)
          simp only [Function.update_same] at this
          omega
    exact key _ (by omega) (le_refl _)

theorem md_index_number_bound (dims : List Int) (p : Nat → Int) (D : Nat)
    (hp : md_is_index D dims p) :
    0 ≤ md_index_number dims p D ∧ md_index_number dims p D < md_calc_size dims D := by
  induction D with
  | zero => simp [md_index_number, md_calc_size]
  | succ D ih =>
    obtain ⟨h0, h1⟩ := ih (md_is_index_pred D dims p hp)
    obtain ⟨hp0, hp1⟩ := hp D (by omega)
    simp only [md_index_number, md_calc_size]
    have hS : 0 < md_calc_size dims D := by omega
    constructor
    · positivity
    · nlinarith

theorem md_index_number_inj (dims : List Int) (p q : Nat → Int) (D : Nat)
    (hp : md_is_index D dims p) (hq : md_is_index D dims q)
    (h : md_index_number dims p D = md_index_number dims q D) : ∀ k, k < D → p k = q k := by
  induction D with
  | zero => intro k hk; omega
  | succ D ih =>
    obtain ⟨a0, a1⟩ := md_index_number_bound dims p D (md_is_index_pred D dims p hp)
    obtain ⟨b0, b1⟩ := md_index_number_bound dims q D (md_is_index_pred D dims q hq)
    simp only [md_index_number] at h
    have hD : p D = q D := by
      rcases lt_trichotomy (p D) (q D) with hlt | heq | hgt
      · exfalso
        have : (p D + 1) * md_calc_size dims D ≤ q D * md_calc_size dims D :=
          mul_le_mul_of_nonneg_right (by omega) (by omega)
        nlinarith
      · exact heq
      · exfalso
        have : (q D + 1) * md_calc_size dims D ≤ p D * md_calc_size dims D :=
          mul_le_mul_of_nonneg_right (by omega) (by omega)
        nlinarith
    rw [hD] at h
    intro k hk
    by_cases e : k = D
    · subst e; exact hD
    · exact ih (md_is_index_pred D dims p hp) (md_is_index_pred D dims q hq)
        (by linarith) k (by omega)

/-- Under the computed strides the byte offset of a multi-index is the element size times
its position in the enumeration. -/
theorem md_offset_calc_strides (N : Nat) (dims : List Int) (size : Int) (p : Nat → Int)
    (D : Nat) (hD : D ≤ N) (hp : md_is_index D dims p) :
    md_offset (md_calc_strides N dims size) p D = size * md_index_number dims p D := by
  induction D with
  | zero => simp [md_offset, md_index_number]
  | succ D ih =>
    obtain ⟨hp0, hp1⟩ := hp D (by omega)
    simp only [md_offset, md_index_number]
    rw [ih (by omega) (md_is_index_pred D dims p hp),
      md_calc_strides_getD N dims size D (by omega)]
    split
    · have : p D = 0 := by omega
      rw [this]; ring
    · ring

/-- Distinct multi-indices inside the extents have distinct offsets under the computed
strides. -/
theorem md_offset_calc_strides_inj (N : Nat) (dims : List Int) (size : Int) (hs : size ≠ 0)
    (D : Nat) (hD : D ≤ N) (q r : Nat → Int) (hq : md_is_index D dims q)
    (hr : md_is_index D dims r)
    (h : md_offset (md_calc_strides N dims size) q D
      = md_offset (md_calc_strides N dims size) r D) : ∀ k, k < D → q k = r k := by
  rw [md_offset_calc_strides N dims size q D hD hq,
    md_offset_calc_strides N dims size r D hD hr] at h
  exact md_index_number_inj dims q r D hq hr (mul_left_cancel₀ hs h)

/-- The strided copy into a buffer with the computed strides: the destination element of
every multi-index `p` inside the extents holds the source element of `p`. -/
theorem md_copy2_calc_strides (N : Nat) (dims istr : List Int) (dst src : Mem)
    (p : Nat → Int) (hp : md_is_index N dims p) :
    md_copy2 N dims (MD_STRIDES N dims CFL_SIZE) dst istr src
        (md_offset (MD_STRIDES N dims CFL_SIZE) p N)
      = src (md_offset istr p N) := by
  have h := md_copy2_loop_hit dims (MD_STRIDES N dims CFL_SIZE) istr src N 0 0 dst p hp
    (fun q r hq hr he =>
      md_offset_calc_strides_inj N dims CFL_SIZE (by decide) N (le_refl _) q r hq hr he)
  simpa [md_copy2] using h

/-! ## Facts about the constant operator -/

theorem getD_take_of_lt (l : List Int) (N k : Nat) (hk : k < N) :
    (l.take N).getD k 0 = l.getD k 0 := by
  simp [List.getD_eq_getElem?_getD, List.getElem?_take, hk]

theorem getD_replicate_of_lt (N k : Nat) (v : Int) (hk : k < N) :
    (List.replicate N v).getD k 0 = v := by
  simp [List.getD_eq_getElem?_getD, List.getElem?_replicate, hk]

theorem md_is_index_congr (D : Nat) (dim dim2 : List Int) (p : Nat → Int)
    (h : ∀ k, k < D → dim.getD k 0 = dim2.getD k 0) :
    md_is_index D dim p ↔ md_is_index D dim2 p := by
  constructor
  · intro hp k hk; rw [← h k hk]; exact hp k hk
  · intro hp k hk; rw [h k hk]; exact hp k hk

theorem md_offset_congr_strs (str str2 : List Int) (p : Nat → Int) (D : Nat)
    (h : ∀ k, k < D → str.getD k 0 = str2.getD k 0) :
    md_offset str p D = md_offset str2 p D := by
  induction D with
  | zero => rfl
  | succ D ih =>
    simp only [md_offset]
    rw [ih (fun k hk => h k (by omega)), h D (by omega)]

theorem md_calc_strides_from_congr (dims dims2 : List Int) (n i : Nat) (old : Int)
    (h : ∀ k, i ≤ k → k < i + n → dims.getD k 0 = dims2.getD k 0) :
    md_calc_strides_from dims n i old = md_calc_strides_from dims2 n i old := by
  induction n generalizing i old with
  | zero => rfl
  | succ n ih =>
    simp only [md_calc_strides_from]
    rw [h i (le_refl _) (by omega), ih (i + 1) _ (fun k h1 h2 => h k (by omega) (by omega))]

theorem md_calc_strides_congr (N : Nat) (dims dims2 : List Int) (size : Int)
    (h : ∀ k, k < N → dims.getD k 0 = dims2.getD k 0) :
    md_calc_strides N dims size = md_calc_strides N dims2 size :=
  md_calc_strides_from_congr dims dims2 N 0 size (fun k _ hk => h k (by omega))

theorem md_check_equal_dims_iff (N : Nat) (dims1 dims2 : List Int) :
    md_check_equal_dims N dims1 dims2 = true ↔
      ∀ k, k < N → dims1.getD k 0 = dims2.getD k 0 := by
  simp [md_check_equal_dims, List.all_eq_true]

/-- The scalar test of `nlop_const_create2` succeeds exactly when every supplied stride
is zero. -/
theorem singleton_strs_iff (N : Nat) (strs : List Int) :
    md_check_equal_dims N (MD_SINGLETON_STRS N) strs = true ↔
      ∀ k, k < N → strs.getD k 0 = 0 := by
  rw [md_check_equal_dims_iff]
  constructor
  · intro h k hk
    have := h k hk
    rw [MD_SINGLETON_STRS, md_singleton_strides, getD_replicate_of_lt N k 0 hk] at this
    exact this.symm
  · intro h k hk
    rw [MD_SINGLETON_STRS, md_singleton_strides, getD_replicate_of_lt N k 0 hk, h k hk]

theorem md_offset_zero_strs (str : List Int) (p : Nat → Int) (D : Nat)
    (h : ∀ k, k < D → str.getD k 0 = 0) : md_offset str p D = 0 := by
  induction D with
  | zero => rfl
  | succ D ih =>
    simp only [md_offset]
    rw [ih (fun k hk => h k (by omega)), h D (by omega)]
    ring

/-- The element captured by value in the scalar case is `in[0]`. -/
theorem md_copy_one (d s : Mem) : md_copy 1 [1] d s 0 = s 0 := by
  have e : md_copy 1 [1] d s = Function.update d 0 (s 0) := by
    simp only [md_copy, md_copy2, md_copy2_loop]
    show Function.update d (0 + ((0 : Nat) : Int) * _) (s (0 + ((0 : Nat) : Int) * _)) = _
    simp only [Nat.cast_zero, zero_mul, add_zero]
  rw [e, Function.update_same]

/-- Value written by the forward callback of the node built by `nlop_const_create2`: the
destination element of every multi-index inside the extents holds the source element of
that multi-index, read in the memory at construction (`heap`) in the scalar and copy
cases, and in the memory at the call (`hc`) in the reference case. -/
theorem const_fun_value (N : Nat) (dims strs : List Int) (copy : Bool) (inp : Int)
    (heap hc : Heap) (dst : Mem) (rest : List Mem) (p : Nat → Int)
    (hp : md_is_index N dims p) :
    ∃ out, const_fun (nlop_const_create2_data N dims strs copy inp heap) hc (dst :: rest)
        = out :: rest ∧
      out (md_offset (MD_STRIDES N (dims.take N) CFL_SIZE) p N)
        = (if md_check_equal_dims N (MD_SINGLETON_STRS N) strs || copy then heap else hc)
            (inp + md_offset strs p N) := by
  have hdim : ∀ k, k < N → (dims.take N).getD k 0 = dims.getD k 0 :=
    fun k hk => getD_take_of_lt dims N k hk
  have hstr : ∀ k, k < N → (strs.take N).getD k 0 = strs.getD k 0 :=
    fun k hk => getD_take_of_lt strs N k hk
  have hp2 : md_is_index N (dims.take N) p := (md_is_index_congr N _ _ p hdim).2 hp
  by_cases hz : md_check_equal_dims N (MD_SINGLETON_STRS N) strs = true
  · refine ⟨md_zfill N (dims.take N) dst
      (md_copy 1 [1] (fun _ => 0) (fun off => heap (inp + off)) 0), ?_, ?_⟩
    · simp only [const_fun, nlop_const_create2_data, hz, if_true]
    · rw [md_zfill, md_copy2_calc_strides N _ _ _ _ p hp2, md_copy_one]
      simp only [hz, Bool.true_or, if_true]
      rw [md_offset_zero_strs strs p N ((singleton_strs_iff N strs).1 hz)]
  · cases copy with
    | true =>
      refine ⟨md_copy N (dims.take N) dst (multiplace_read
        (multiplace_move2 N dims strs (fun off => heap (inp + off)))), ?_, ?_⟩
      · simp only [const_fun, nlop_const_create2_data, hz, if_true]
        rfl
      · rw [md_copy, md_copy2_calc_strides N _ _ _ _ p hp2, multiplace_read,
          multiplace_move2]
        have e : MD_STRIDES N (dims.take N) CFL_SIZE = MD_STRIDES N dims CFL_SIZE :=
          md_calc_strides_congr N _ _ CFL_SIZE hdim
        rw [e, md_copy2_calc_strides N dims strs fresh _ p hp]
        simp
    | false =>
      refine ⟨md_copy2 N (dims.take N) (MD_STRIDES N (dims.take N) CFL_SIZE) dst
        (strs.take N) (fun off => hc (inp + off)), ?_, ?_⟩
      · simp only [const_fun, nlop_const_create2_data, hz]
        rfl
      · rw [md_copy2_calc_strides N _ _ _ _ p hp2, md_offset_congr_strs _ strs p N hstr]
        simp [hz]

theorem const_fun_cons (data : const_s) (hc : Heap) (dst : Mem) (rest : List Mem) :
    const_fun data hc (dst :: rest) = (const_fun data hc [dst]).getD 0 fresh :: rest := by
  cases h1 : data.xn_ref <;> cases h2 : data.xn_cop <;> simp [const_fun, h1, h2]

/-- The forward evaluation of a constant operator runs `const_fun` on the node built at
construction. -/
theorem nlop_const_create2_forward (N : Nat) (dims strs : List Int) (copy : Bool) (inp : Int)
    (heap hc : Heap) (ins outs : List Mem) :
    (nlop_const_create2 N dims strs copy inp heap).forward hc ins outs
      = (const_fun (nlop_const_create2_data N dims strs copy inp heap) hc (outs ++ ins)).take 1 :=
  rfl

theorem nlop_const_create2_codomain (N : Nat) (dims strs : List Int) (copy : Bool) (inp : Int)
    (heap : Heap) :
    (nlop_const_create2 N dims strs copy inp heap).codomain = [⟨N, dims.take N⟩] := rfl

theorem nlop_const_create2_domain (N : Nat) (dims strs : List Int) (copy : Bool) (inp : Int)
    (heap : Heap) :
    (nlop_const_create2 N dims strs copy inp heap).domain = [] := rfl

/-- Forward apply of a constant operator on one output buffer: the element of every
multi-index inside the extents, addressed with the strides of the output descriptor. -/
theorem nlop_const_create2_apply (N : Nat) (dims strs : List Int) (copy : Bool) (inp : Int)
    (heap hc : Heap) (dst : Mem) (p : Nat → Int) (hp : md_is_index N dims p) :
    ∃ out, (nlop_const_create2 N dims strs copy inp heap).forward hc [] [dst] = [out] ∧
      out (md_offset (iovec_s.mk N (dims.take N)).strs p N)
        = (if md_check_equal_dims N (MD_SINGLETON_STRS N) strs || copy then heap else hc)
            (inp + md_offset strs p N) := by
  obtain ⟨out, h1, h2⟩ := const_fun_value N dims strs copy inp heap hc dst [] p hp
  refine ⟨out, ?_, h2⟩
  rw [nlop_const_create2_forward]
  simp [h1]

theorem const_fun_heap_indep (data : const_s) (h : data.xn_ref = none) (hc hc2 : Heap)
    (args : List Mem) : const_fun data hc args = const_fun data hc2 args := by
  cases args with
  | nil => rfl
  | cons d rest => simp only [const_fun, h]

theorem nlop_const_create2_data_copy_xn_ref (N : Nat) (dims strs : List Int) (inp : Int)
    (heap : Heap) : (nlop_const_create2_data N dims strs true inp heap).xn_ref = none := by
  by_cases hz : md_check_equal_dims N (MD_SINGLETON_STRS N) strs = true <;>
    simp [nlop_const_create2_data, hz]

theorem strides_take (N : Nat) (dims : List Int) :
    (iovec_s.mk N (dims.take N)).strs = MD_STRIDES N dims CFL_SIZE :=
  md_calc_strides_congr N _ _ CFL_SIZE (fun k hk => getD_take_of_lt dims N k hk)

/-! ## Facts about input binding and output deletion -/

theorem assert_singleton_iff (lo hi : Nat) (dims : List Int) :
    assert_singleton lo hi dims = true ↔ ∀ k, lo ≤ k → k < hi → dims.getD k 0 = 1 := by
  simp only [assert_singleton, List.all_eq_true, List.mem_range, beq_iff_eq]
  constructor
  · intro h k h1 h2
    have := h (k - lo) (by omega)
    rwa [show lo + (k - lo) = k by omega] at this
  · intro h j hj
    exact h (lo + j) (by omega) (by omega)

theorem N_min_eq (N M : Nat) : (if N < M then N else M) = min N M := by
  split <;> omega

theorem N_max_eq (N M : Nat) : (if N > M then N else M) = max N M := by
  split <;> omega

theorem nlop_generic_domain_lt (a : nlop_s) (i : Nat) (iov : iovec_s)
    (h : nlop_generic_domain a i = some iov) : i < nlop_get_nr_in_args a := by
  unfold nlop_generic_domain at h
  unfold nlop_get_nr_in_args
  by_contra hn
  rw [List.getElem?_eq_none (by omega)] at h
  exact Option.noConfusion h

/-- The body of `nlop_set_input_const2` once input `i` has been looked up. -/
theorem nlop_set_input_const2_eq (a : nlop_s) (i N : Nat) (dims strs : List Int) (copy : Bool)
    (inp : Int) (heap : Heap) (iov : iovec_s) (h : nlop_generic_domain a i = some iov) :
    nlop_set_input_const2 a i N dims strs copy inp heap =
      if assert_singleton (min N iov.N) iov.N iov.dims && assert_singleton (min N iov.N) N dims
      then
        nlop_chain2
          (nlop_const_create2 iov.N
            (md_copy_dims (min N iov.N) (md_singleton_dims (max N iov.N)) dims)
            (md_copy_strides (min N iov.N) (md_singleton_strides (max N iov.N)) strs)
            copy inp heap) 0 a i
      else none := by
  have hi := nlop_generic_domain_lt a i iov h
  simp only [nlop_set_input_const2, hi, if_true, h, N_min_eq, N_max_eq]

theorem nlop_chain2_result_domain (a : nlop_s) (o : Nat) (b : nlop_s) (i : Nat) :
    (nlop_chain2_result a o b i).domain = a.domain ++ b.domain.eraseIdx i := rfl

theorem nlop_chain2_result_codomain (a : nlop_s) (o : Nat) (b : nlop_s) (i : Nat) :
    (nlop_chain2_result a o b i).codomain = a.codomain.eraseIdx o ++ b.codomain := rfl

theorem nlop_chain2_result_forward (a : nlop_s) (o : Nat) (b : nlop_s) (i : Nat)
    (heap : Heap) (ins outs : List Mem) :
    (nlop_chain2_result a o b i).forward heap ins outs =
      (a.forward heap (ins.take a.domain.length)
          (insert_port (outs.take (a.codomain.length - 1)) o fresh)).eraseIdx o ++
        b.forward heap
          (insert_port (ins.drop a.domain.length) i
            ((a.forward heap (ins.take a.domain.length)
              (insert_port (outs.take (a.codomain.length - 1)) o fresh)).getD o fresh))
          (outs.drop (a.codomain.length - 1)) := rfl

theorem nlop_chain2_result_deriv_left (a : nlop_s) (o : Nat) (b : nlop_s) (i ci co : Nat)
    (h1 : ci < a.domain.length) (h2 : co < a.codomain.length - 1) :
    (nlop_chain2_result a o b i).deriv ci co =
      (a.deriv ci (skip_port o co)).map
        (fun f => fun heap pt d => f heap (pt.take a.domain.length) d) := by
  simp only [nlop_chain2_result, h1, h2, if_true]

theorem nlop_chain2_result_adjoint_left (a : nlop_s) (o : Nat) (b : nlop_s) (i ci co : Nat)
    (h1 : ci < a.domain.length) (h2 : co < a.codomain.length - 1) :
    (nlop_chain2_result a o b i).adjoint ci co =
      (a.adjoint ci (skip_port o co)).map
        (fun f => fun heap pt d => f heap (pt.take a.domain.length) d) := by
  simp only [nlop_chain2_result, h1, h2, if_true]

theorem nlop_del_out_create_domain (N : Nat) (dims : List Int) :
    (nlop_del_out_create N dims).domain = [⟨N, dims.take N⟩] := rfl

theorem nlop_del_out_create_codomain (N : Nat) (dims : List Int) :
    (nlop_del_out_create N dims).codomain = [] := rfl

theorem nlop_del_out_create_forward (N : Nat) (dims : List Int) (heap : Heap)
    (ins outs : List Mem) : (nlop_del_out_create N dims).forward heap ins outs = [] := rfl

theorem nlop_generic_codomain_of_lt (a : nlop_s) (o : Nat) (h : o < nlop_get_nr_out_args a) :
    ∃ co, nlop_generic_codomain a o = some co := by
  unfold nlop_get_nr_out_args at h
  exact ⟨a.codomain[o], by simp [nlop_generic_codomain, h]⟩

theorem iovec_check_take (N : Nat) (dims : List Int) :
    iovec_check ⟨N, dims.take N⟩ N dims = true := by
  simp only [iovec_check, decide_True, Bool.true_and]
  rw [md_check_equal_dims_iff]
  exact fun k hk => getD_take_of_lt dims N k hk

/-- Output deletion succeeds on every existing output, and its result is the chain of `a`
into the sink. -/
theorem nlop_del_out_eq (a : nlop_s) (o : Nat) (co : iovec_s)
    (h : nlop_generic_codomain a o = some co) :
    nlop_del_out a o = some (nlop_chain2_result a o (nlop_del_out_create co.N co.dims) 0) := by
  have ho : nlop_get_nr_out_args a > o := by
    unfold nlop_generic_codomain at h
    unfold nlop_get_nr_out_args
    by_contra hn
    rw [List.getElem?_eq_none (by omega)] at h
    exact Option.noConfusion h
  have hd : nlop_generic_domain (nlop_del_out_create co.N co.dims) 0
      = some ⟨co.N, co.dims.take co.N⟩ := rfl
  simp only [nlop_del_out, ho, if_true, h, nlop_chain2, hd, iovec_check_take]

theorem nlop_chain2_some (a : nlop_s) (o : Nat) (b : nlop_s) (i : Nat) (r : nlop_s)
    (h : nlop_chain2 a o b i = some r) : r = nlop_chain2_result a o b i := by
  unfold nlop_chain2 at h
  split at h
  · split at h
    · exact (Option.some.inj h).symm
    · exact Option.noConfusion h
  · exact Option.noConfusion h

/-- A successful input binding is the chain of the constant operator into input `i`. -/
theorem nlop_set_input_const2_some (a : nlop_s) (i N : Nat) (dims strs : List Int)
    (copy : Bool) (inp : Int) (heap : Heap) (r : nlop_s)
    (h : nlop_set_input_const2 a i N dims strs copy inp heap = some r) :
    ∃ iov, nlop_generic_domain a i = some iov ∧
      r = nlop_chain2_result
        (nlop_const_create2 iov.N
          (md_copy_dims (min N iov.N) (md_singleton_dims (max N iov.N)) dims)
          (md_copy_strides (min N iov.N) (md_singleton_strides (max N iov.N)) strs)
          copy inp heap) 0 a i := by
  cases hdom : nlop_generic_domain a i with
  | none =>
    exfalso
    simp only [nlop_set_input_const2, hdom] at h
    split at h <;> exact Option.noConfusion h
  | some iov =>
    refine ⟨iov, rfl, ?_⟩
    rw [nlop_set_input_const2_eq a i N dims strs copy inp heap iov hdom] at h
    split at h
    · exact nlop_chain2_some _ _ _ _ r h
    · exact Option.noConfusion h

theorem md_copy_dims_getD (D : Nat) (odims idims : List Int) (k : Nat)
    (hk : k < odims.length) :
    (md_copy_dims D odims idims).getD k 0
      = if k < D then idims.getD k 0 else odims.getD k 0 := by
  simp [md_copy_dims, List.getD_eq_getElem?_getD, List.getElem?_map, List.getElem?_range hk]

theorem md_offset_trunc (str : List Int) (p : Nat → Int) (m D : Nat) (hm : m ≤ D)
    (h : ∀ k, m ≤ k → k < D → p k * str.getD k 0 = 0) :
    md_offset str p D = md_offset str p m := by
  induction D with
  | zero =>
    have : m = 0 := by omega
    rw [this]
  | succ D ih =>
    by_cases e : m = D + 1
    · rw [e]
    · simp only [md_offset]
      rw [ih (by omega) (fun k h1 h2 => h k h1 (by omega)), h D (by omega) (by omega)]
      ring

/-- The extents and strides handed to `nlop_const_create2` by `nlop_set_input_const2`. -/
theorem reconciled_getD (N M : Nat) (dims strs : List Int) (k : Nat) (hk : k < M) :
    (md_copy_dims (min N M) (md_singleton_dims (max N M)) dims).getD k 0
        = (if k < min N M then dims.getD k 0 else 1) ∧
      (md_copy_strides (min N M) (md_singleton_strides (max N M)) strs).getD k 0
        = (if k < min N M then strs.getD k 0 else 0) := by
  have hk2 : k < max N M := by omega
  constructor
  · rw [md_copy_dims_getD _ _ _ _ (by simp [md_singleton_dims, hk2])]
    simp only [md_singleton_dims, getD_replicate_of_lt _ _ _ hk2]
  · rw [md_copy_strides, md_copy_dims_getD _ _ _ _ (by simp [md_singleton_strides, hk2])]
    simp only [md_singleton_strides, getD_replicate_of_lt _ _ _ hk2]

/-- With a compatible shape, input binding succeeds and is the chain of the constant
operator into input `i`. -/
theorem nlop_set_input_const2_compatible (a : nlop_s) (i N : Nat) (dims strs : List Int)
    (copy : Bool) (inp : Int) (heap : Heap) (iov : iovec_s)
    (hiov : nlop_generic_domain a i = some iov) (hc : shape_compatible iov N dims) :
    nlop_set_input_const2 a i N dims strs copy inp heap =
      some (nlop_chain2_result
        (nlop_const_create2 iov.N
          (md_copy_dims (min N iov.N) (md_singleton_dims (max N iov.N)) dims)
          (md_copy_strides (min N iov.N) (md_singleton_strides (max N iov.N)) strs)
          copy inp heap) 0 a i) := by
  obtain ⟨h1, h2, h3⟩ := hc
  rw [nlop_set_input_const2_eq a i N dims strs copy inp heap iov hiov]
  have ha1 : assert_singleton (min N iov.N) iov.N iov.dims = true :=
    (assert_singleton_iff _ _ _).2 (fun k hk1 hk2 => h2 k hk2 hk1)
  have ha2 : assert_singleton (min N iov.N) N dims = true :=
    (assert_singleton_iff _ _ _).2 (fun k hk1 hk2 => h3 k hk2 hk1)
  have hcod : nlop_generic_codomain
      (nlop_const_create2 iov.N
        (md_copy_dims (min N iov.N) (md_singleton_dims (max N iov.N)) dims)
        (md_copy_strides (min N iov.N) (md_singleton_strides (max N iov.N)) strs)
        copy inp heap) 0
      = some ⟨iov.N, (md_copy_dims (min N iov.N) (md_singleton_dims (max N iov.N)) dims).take
          iov.N⟩ := rfl
  have hchk : iovec_check iov iov.N
      ((md_copy_dims (min N iov.N) (md_singleton_dims (max N iov.N)) dims).take iov.N)
      = true := by
    simp only [iovec_check, decide_True, Bool.true_and]
    rw [md_check_equal_dims_iff]
    intro k hk
    rw [getD_take_of_lt _ _ _ hk, (reconciled_getD N iov.N dims strs k hk).1]
    split
    · rename_i hlt; exact (h1 k hlt).symm
    · rename_i hge; exact h2 k hk (by omega)
  simp only [ha1, ha2, Bool.and_self, if_true, nlop_chain2, hcod, hiov, hchk]

/-- Forward evaluation of a constant operator chained into input `i` of `a`: `a` is run on
the remaining inputs with the buffer written by the constant operator as input `i`. -/
theorem nlop_chain2_result_const_forward (N : Nat) (dims strs : List Int) (copy : Bool)
    (inp : Int) (heap hc : Heap) (a : nlop_s) (i : Nat) (ins outs : List Mem) :
    (nlop_chain2_result (nlop_const_create2 N dims strs copy inp heap) 0 a i).forward hc
        ins outs
      = a.forward hc
          (insert_port ins i
            ((const_fun (nlop_const_create2_data N dims strs copy inp heap) hc [fresh]).getD 0
              fresh)) outs := by
  rw [nlop_chain2_result_forward, nlop_const_create2_domain, nlop_const_create2_codomain,
    nlop_const_create2_forward]
  simp only [List.length_nil, List.length_singleton, Nat.sub_self, List.take_zero,
    List.drop_zero, insert_port, List.nil_append, List.append_nil, List.take_nil,
    List.drop_nil]
  rw [const_fun_cons _ hc fresh []]
  generalize (const_fun (nlop_const_create2_data N dims strs copy inp heap) hc [fresh]).getD 0
    fresh = V
  simp

/-- The extents handed to the constant operator agree with the declared ones. -/
theorem reconciled_dims_getD (N : Nat) (dims strs : List Int) (iov : iovec_s)
    (hc : shape_compatible iov N dims) (k : Nat) (hk : k < iov.N) :
    (md_copy_dims (min N iov.N) (md_singleton_dims (max N iov.N)) dims).getD k 0
      = iov.dims.getD k 0 := by
  obtain ⟨h1, h2, _⟩ := hc
  rw [(reconciled_getD N iov.N dims strs k hk).1]
  split
  · rename_i hlt; exact h1 k hlt
  · rename_i hge; exact (h2 k hk (by omega)).symm

/-- The offset of a multi-index under the reconciled strides is its offset under the
supplied strides. -/
theorem reconciled_offset (N : Nat) (dims strs : List Int) (iov : iovec_s)
    (hc : shape_compatible iov N dims) (p : Nat → Int) (hp : md_is_index N dims p) :
    md_offset (md_copy_strides (min N iov.N) (md_singleton_strides (max N iov.N)) strs) p iov.N
      = md_offset strs p N := by
  obtain ⟨_, _, h3⟩ := hc
  rw [md_offset_trunc _ p (min N iov.N) iov.N (by omega) (fun k hk1 hk2 => by
      rw [(reconciled_getD N iov.N dims strs k hk2).2, if_neg (by omega)]; ring),
    md_offset_trunc strs p (min N iov.N) N (by omega) (fun k hk1 hk2 => by
      have hd := h3 k hk2 hk1
      have := hp k hk2
      rw [hd] at this
      have : p k = 0 := by omega
      rw [this]; ring)]
  exact md_offset_congr_strs _ _ p _ (fun k hk => by
    rw [(reconciled_getD N iov.N dims strs k (by omega)).2, if_pos hk])

/-- The buffer written by the constant operator of an input binding holds the supplied
tensor in the declared layout of the input: in the scalar and copy cases the tensor as it
is in the memory at construction (`heap`), in the reference case as it is in the memory
at the call (`hc`). -/
theorem reconciled_value (N : Nat) (dims strs : List Int) (copy : Bool) (inp : Int)
    (heap hc : Heap) (iov : iovec_s) (hcomp : shape_compatible iov N dims) (p : Nat → Int)
    (hp1 : md_is_index iov.N iov.dims p) (hp2 : md_is_index N dims p) :
    (const_fun (nlop_const_create2_data iov.N
        (md_copy_dims (min N iov.N) (md_singleton_dims (max N iov.N)) dims)
        (md_copy_strides (min N iov.N) (md_singleton_strides (max N iov.N)) strs)
        copy inp heap) hc [fresh]).getD 0 fresh (md_offset iov.strs p iov.N)
      = (if md_check_equal_dims iov.N (MD_SINGLETON_STRS iov.N)
            (md_copy_strides (min N iov.N) (md_singleton_strides (max N iov.N)) strs) || copy
          then heap else hc) (inp + md_offset strs p N) := by
  have hd := reconciled_dims_getD N dims strs iov hcomp
  have hp3 : md_is_index iov.N
      (md_copy_dims (min N iov.N) (md_singleton_dims (max N iov.N)) dims) p :=
    (md_is_index_congr iov.N _ _ p hd).2 hp1
  obtain ⟨out, h1, h2⟩ := const_fun_value iov.N _
    (md_copy_strides (min N iov.N) (md_singleton_strides (max N iov.N)) strs) copy inp heap hc
    fresh [] p hp3
  have hs : MD_STRIDES iov.N
      ((md_copy_dims (min N iov.N) (md_singleton_dims (max N iov.N)) dims).take iov.N) CFL_SIZE
      = iov.strs :=
    md_calc_strides_congr iov.N _ _ CFL_SIZE (fun k hk => by
      rw [getD_take_of_lt _ _ _ hk, hd k hk])
  rw [h1, ← hs]
  show out _ = _
  rw [h2, reconciled_offset N dims strs iov hcomp p hp2]

/-- On all-singleton extents the strided copy moves exactly one element. -/
theorem md_copy2_loop_singleton (dim ostr istr : List Int) (src : Mem) (D : Nat)
    (h : ∀ k, k < D → dim.getD k 0 = 1) :
    ∀ (o i : Int) (dst : Mem),
      md_copy2_loop dim ostr istr src D o i dst = Function.update dst o (src i) := by
  induction D with
  | zero => intro o i dst; rfl
  | succ D ih =>
    intro o i dst
    simp only [md_copy2_loop]
    rw [h D (by omega)]
    show md_copy2_loop dim ostr istr src D (o + ((0 : Nat) : Int) * _)
      (i + ((0 : Nat) : Int) * _) dst = _
    rw [ih (fun k hk => h k (by omega))]
    simp only [Nat.cast_zero, zero_mul, add_zero]

theorem md_copy2_singleton (D : Nat) (dim ostr istr : List Int) (dst src : Mem)
    (h : ∀ k, k < D → dim.getD k 0 = 1) :
    md_copy2 D dim ostr dst istr src = Function.update dst 0 (src 0) :=
  md_copy2_loop_singleton dim ostr istr src D h 0 0 dst

/-- Forward callback of a constant node of all-singleton extents: one element is written
at offset `0`. -/
theorem const_fun_singleton (N : Nat) (dims strs : List Int) (copy : Bool) (inp : Int)
    (heap hc : Heap) (dst : Mem) (h : ∀ k, k < N → dims.getD k 0 = 1) :
    const_fun (nlop_const_create2_data N dims strs copy inp heap) hc [dst]
      = [Function.update dst 0
          ((if md_check_equal_dims N (MD_SINGLETON_STRS N) strs || copy then heap else hc)
            inp)] := by
  have h2 : ∀ k, k < N → (dims.take N).getD k 0 = 1 :=
    fun k hk => by rw [getD_take_of_lt dims N k hk]; exact h k hk
  by_cases hz : md_check_equal_dims N (MD_SINGLETON_STRS N) strs = true
  · simp only [const_fun, nlop_const_create2_data, hz, if_true, Bool.true_or]
    rw [md_zfill, md_copy2_singleton N _ _ _ _ _ h2, md_copy_one]
    simp
  · cases copy with
    | true =>
      simp only [const_fun, nlop_const_create2_data, hz]
      show [md_copy N (dims.take N) dst (multiplace_read (multiplace_move2 N dims strs _))] = _
      rw [md_copy, md_copy2_singleton N _ _ _ _ _ h2, multiplace_read, multiplace_move2,
        md_copy2_singleton N _ _ _ _ _ h]
      simp
    | false =>
      simp only [const_fun, nlop_const_create2_data, hz]
      show [md_copy2 N (dims.take N) _ dst _ _] = _
      rw [md_copy2_singleton N _ _ _ _ _ h2]
      simp [hz]

theorem shape_compatible_self (iov : iovec_s) : shape_compatible iov iov.N iov.dims :=
  ⟨fun _ _ => rfl, fun k h1 h2 => by omega, fun k h1 h2 => by omega⟩

theorem shape_compatible_singleton (iov : iovec_s)
    (h : ∀ k, k < iov.N → iov.dims.getD k 0 = 1) :
    shape_compatible iov iov.N (md_singleton_dims iov.N) :=
  ⟨fun k hk => by
      rw [md_singleton_dims, getD_replicate_of_lt _ _ _ (by omega), h k (by omega)],
    fun k h1 h2 => by omega, fun k h1 h2 => by omega⟩

/-! ## The claims -/

/-- C3: the forward apply of the operator returned by `nlop_const_create2(N, dims, strs,
copy, in)` writes, for every multi-index `p` inside `dims`, to the destination element at
`p`, addressed with the strides of the output descriptor, the source element found at `p`
under the supplied source strides `strs` (whatever these are). -/
theorem nlop_const_create2_strided_copy (N : Nat) (dims strs : List Int) (copy : Bool)
    (inp : Int) (heap : Heap) (dst : Mem) (p : Nat → Int) (hp : md_is_index N dims p) :
    ∃ iov out,
      nlop_generic_codomain (nlop_const_create2 N dims strs copy inp heap) 0 = some iov ∧
      (nlop_const_create2 N dims strs copy inp heap).forward heap [] [dst] = [out] ∧
      out (md_offset iov.strs p N) = heap (inp + md_offset strs p N) := by
  obtain ⟨out, h1, h2⟩ := nlop_const_create2_apply N dims strs copy inp heap heap dst p hp
  refine ⟨⟨N, dims.take N⟩, out, rfl, h1, ?_⟩
  rw [h2]
  split <;> rfl

/-- Witness of C3: a 2x3 tensor read from a transposed (row-major) source. -/
theorem nlop_const_create2_strided_copy_witness :
    md_is_index 2 [2, 3] (fun k => if k = 0 then 1 else 2) ∧
    ∃ iov out,
      nlop_generic_codomain
        (nlop_const_create2 2 [2, 3] [24, 8] false 0 (fun a => (a / 8).toNat + 100)) 0
          = some iov ∧
      (nlop_const_create2 2 [2, 3] [24, 8] false 0 (fun a => (a / 8).toNat + 100)).forward
        (fun a => (a / 8).toNat + 100) [] [fresh] = [out] ∧
      out (md_offset iov.strs (fun k => if k = 0 then 1 else 2) 2)
        = (fun a => (a / 8).toNat + 100)
            (0 + md_offset [24, 8] (fun k => if k = 0 then 1 else 2) 2) :=
  ⟨by decide,
    nlop_const_create2_strided_copy 2 [2, 3] [24, 8] false 0 (fun a => (a / 8).toNat + 100)
      fresh (fun k => if k = 0 then 1 else 2) (by decide)⟩

/-- C4: the node built by `nlop_const_create2` holds exactly one representation, chosen at
construction: the scalar value (`xn_ref` and `xn_cop` both null, `val` the element
`in[0]`) if and only if every supplied stride is zero; otherwise the owned copy (`xn_cop`
set, `xn_ref` null) if `copy` is true and the borrowed reference (`xn_ref` set to `in`,
`xn_cop` null) if not. The two pointers are never both set, and every forward apply of the
operator runs on the node as it was built: no operation replaces it. -/
theorem nlop_const_create2_representation (N : Nat) (dims strs : List Int) (copy : Bool)
    (inp : Int) (heap : Heap) :
    (((nlop_const_create2_data N dims strs copy inp heap).xn_ref = none ∧
        (nlop_const_create2_data N dims strs copy inp heap).xn_cop = none)
      ↔ ∀ k, k < N → strs.getD k 0 = 0) ∧
    ((∀ k, k < N → strs.getD k 0 = 0) →
      (nlop_const_create2_data N dims strs copy inp heap).val = heap inp) ∧
    (¬ (∀ k, k < N → strs.getD k 0 = 0) → copy = true →
      (nlop_const_create2_data N dims strs copy inp heap).xn_cop
          = some (multiplace_move2 N dims strs (fun off => heap (inp + off))) ∧
        (nlop_const_create2_data N dims strs copy inp heap).xn_ref = none) ∧
    (¬ (∀ k, k < N → strs.getD k 0 = 0) → copy = false →
      (nlop_const_create2_data N dims strs copy inp heap).xn_ref = some inp ∧
        (nlop_const_create2_data N dims strs copy inp heap).xn_cop = none) ∧
    ¬ ((nlop_const_create2_data N dims strs copy inp heap).xn_ref.isSome = true ∧
        (nlop_const_create2_data N dims strs copy inp heap).xn_cop.isSome = true) ∧
    (∀ (hc : Heap) (ins outs : List Mem),
      (nlop_const_create2 N dims strs copy inp heap).forward hc ins outs
        = (const_fun (nlop_const_create2_data N dims strs copy inp heap) hc
            (outs ++ ins)).take 1) := by
  have hiff := singleton_strs_iff N strs
  by_cases hz : md_check_equal_dims N (MD_SINGLETON_STRS N) strs = true
  · have hall := hiff.1 hz
    refine ⟨?_, ?_, ?_, ?_, ?_, fun _ _ _ => rfl⟩
    · simp only [nlop_const_create2_data, hz, if_true]
      exact ⟨fun _ => hall, fun _ => by simp⟩
    · intro _
      simp only [nlop_const_create2_data, hz, if_true]
      rw [md_copy_one]; simp
    · intro h; exact absurd hall h
    · intro h; exact absurd hall h
    · simp [nlop_const_create2_data, hz]
  · have hall : ¬ (∀ k, k < N → strs.getD k 0 = 0) := fun h => hz (hiff.2 h)
    cases copy with
    | true =>
      refine ⟨?_, ?_, ?_, ?_, ?_, fun _ _ _ => rfl⟩
      · simp only [nlop_const_create2_data, hz]
        exact ⟨fun h => absurd h.2 (by simp), fun h => absurd h hall⟩
      · intro h; exact absurd h hall
      · intro _ _; simp [nlop_const_create2_data, hz]
      · intro _ h; exact absurd h (by decide)
      · simp [nlop_const_create2_data, hz]
    | false =>
      refine ⟨?_, ?_, ?_, ?_, ?_, fun _ _ _ => rfl⟩
      · simp only [nlop_const_create2_data, hz]
        exact ⟨fun h => absurd h.1 (by simp), fun h => absurd h hall⟩
      · intro h; exact absurd h hall
      · intro _ h; exact absurd h (by decide)
      · intro _ _; simp [nlop_const_create2_data, hz]
      · simp [nlop_const_create2_data, hz]

/-- C5 (copy isolation): after `nlop_const_create2(N, dims, strs, true, S)` no later state
`heap2` of the caller memory changes any forward apply: its result is the one obtained
with the memory as it was at construction (`heap`), and the element of every multi-index
inside `dims` is the one the source held at construction. -/
theorem nlop_const_create2_copy_isolation (N : Nat) (dims strs : List Int) (inp : Int)
    (heap heap2 : Heap) (dst : Mem) (p : Nat → Int) (hp : md_is_index N dims p) :
    (∀ ins outs, (nlop_const_create2 N dims strs true inp heap).forward heap2 ins outs
        = (nlop_const_create2 N dims strs true inp heap).forward heap ins outs) ∧
    ∃ out, (nlop_const_create2 N dims strs true inp heap).forward heap2 [] [dst] = [out] ∧
      out (md_offset (MD_STRIDES N dims CFL_SIZE) p N) = heap (inp + md_offset strs p N) := by
  constructor
  · intro ins outs
    rw [nlop_const_create2_forward, nlop_const_create2_forward,
      const_fun_heap_indep _ (nlop_const_create2_data_copy_xn_ref N dims strs inp heap)
        heap2 heap]
  · obtain ⟨out, h1, h2⟩ := nlop_const_create2_apply N dims strs true inp heap heap2 dst p hp
    refine ⟨out, h1, ?_⟩
    rw [← strides_take, h2]
    simp

/-- Witness of C5: `S = [1, 2, 3, 4]` is copied at construction; after the caller has
overwritten it with `[5, 6, 7, 8]` the forward apply still yields `[1, 2, 3, 4]`. -/
theorem nlop_const_create2_copy_isolation_witness :
    md_is_index 1 [4] (fun _ => 2) ∧
    ((nlop_const_create2 1 [4] [8] true 0 heap_1234).forward heap_5678 [] [fresh]).map read4
      = [[1, 2, 3, 4]] ∧
    ((∀ ins outs, (nlop_const_create2 1 [4] [8] true 0 heap_1234).forward heap_5678 ins outs
        = (nlop_const_create2 1 [4] [8] true 0 heap_1234).forward heap_1234 ins outs) ∧
    ∃ out, (nlop_const_create2 1 [4] [8] true 0 heap_1234).forward heap_5678 [] [fresh]
        = [out] ∧
      out (md_offset (MD_STRIDES 1 [4] CFL_SIZE) (fun _ => 2) 1)
        = heap_1234 (0 + md_offset [8] (fun _ => 2) 1)) :=
  ⟨by decide, by decide,
    nlop_const_create2_copy_isolation 1 [4] [8] 0 heap_1234 heap_5678 fresh (fun _ => 2)
      (by decide)⟩

/-- C6 (live aliasing): when some supplied stride is non-zero, the operator built by
`nlop_const_create2(N, dims, strs, false, S)` yields at each forward apply the contents the
caller memory holds at the time of the call (`heap2`), not those at construction. -/
theorem nlop_const_create2_live_aliasing (N : Nat) (dims strs : List Int) (inp : Int)
    (heap heap2 : Heap) (dst : Mem) (p : Nat → Int)
    (hs : ∃ k, k < N ∧ strs.getD k 0 ≠ 0) (hp : md_is_index N dims p) :
    ∃ out, (nlop_const_create2 N dims strs false inp heap).forward heap2 [] [dst] = [out] ∧
      out (md_offset (MD_STRIDES N dims CFL_SIZE) p N) = heap2 (inp + md_offset strs p N) := by
  obtain ⟨out, h1, h2⟩ := nlop_const_create2_apply N dims strs false inp heap heap2 dst p hp
  refine ⟨out, h1, ?_⟩
  have hz : ¬ md_check_equal_dims N (MD_SINGLETON_STRS N) strs = true := by
    intro h
    obtain ⟨k, hk, hne⟩ := hs
    exact hne ((singleton_strs_iff N strs).1 h k hk)
  rw [← strides_take, h2]
  simp [hz]

/-- Witness of C6: `S = [1, 2, 3, 4]` is referenced; after the caller has overwritten it
with `[5, 6, 7, 8]` the forward apply yields `[5, 6, 7, 8]`. -/
theorem nlop_const_create2_live_aliasing_witness :
    (∃ k, k < 1 ∧ [(8 : Int)].getD k 0 ≠ 0) ∧ md_is_index 1 [4] (fun _ => 2) ∧
    ((nlop_const_create2 1 [4] [8] false 0 heap_1234).forward heap_5678 [] [fresh]).map read4
      = [[5, 6, 7, 8]] ∧
    ∃ out, (nlop_const_create2 1 [4] [8] false 0 heap_1234).forward heap_5678 [] [fresh]
        = [out] ∧
      out (md_offset (MD_STRIDES 1 [4] CFL_SIZE) (fun _ => 2) 1)
        = heap_5678 (0 + md_offset [8] (fun _ => 2) 1) :=
  ⟨⟨0, by decide, by decide⟩, by decide, by decide,
    nlop_const_create2_live_aliasing 1 [4] [8] 0 heap_1234 heap_5678 fresh (fun _ => 2)
      ⟨0, by decide, by decide⟩ (by decide)⟩

/-- C7: rank reconciliation is fatal. With `N_min = min(N, rank of input i)`, whenever some
axis `k` with `N_min <= k < rank of input i` has a declared extent other than `1`, or some
axis `k` with `N_min <= k < N` has a supplied extent `dims[k]` other than `1`,
`nlop_set_input_const2` aborts on an assertion and returns no operator. -/
theorem nlop_set_input_const2_rank_fatal (a : nlop_s) (i N : Nat) (dims strs : List Int)
    (copy : Bool) (inp : Int) (heap : Heap) (iov : iovec_s)
    (hiov : nlop_generic_domain a i = some iov)
    (hbad : (∃ k, min N iov.N ≤ k ∧ k < iov.N ∧ iov.dims.getD k 0 ≠ 1) ∨
      (∃ k, min N iov.N ≤ k ∧ k < N ∧ dims.getD k 0 ≠ 1)) :
    nlop_set_input_const2 a i N dims strs copy inp heap = none := by
  rw [nlop_set_input_const2_eq a i N dims strs copy inp heap iov hiov]
  have hf : (assert_singleton (min N iov.N) iov.N iov.dims &&
      assert_singleton (min N iov.N) N dims) = false := by
    rcases hbad with ⟨k, h1, h2, h3⟩ | ⟨k, h1, h2, h3⟩
    · have : assert_singleton (min N iov.N) iov.N iov.dims = false := by
        rw [← Bool.not_eq_true, assert_singleton_iff]
        exact fun h => h3 (h k h1 h2)
      rw [this, Bool.false_and]
    · have : assert_singleton (min N iov.N) N dims = false := by
        rw [← Bool.not_eq_true, assert_singleton_iff]
        exact fun h => h3 (h k h1 h2)
      rw [this, Bool.and_false]
  rw [hf]
  rfl

/-- Witness of C7: a rank-1 tensor of extent `2` cannot be bound to an input of extents
`2 x 3`: the extra declared axis has extent `3`. -/
theorem nlop_set_input_const2_rank_fatal_witness :
    (nlop_generic_domain (nlop_example 2 [2, 3]) 0 = some ⟨2, [2, 3]⟩ ∧
      ((∃ k, min 1 (iovec_s.mk 2 [2, 3]).N ≤ k ∧ k < (iovec_s.mk 2 [2, 3]).N ∧
          (iovec_s.mk 2 [2, 3]).dims.getD k 0 ≠ 1) ∨
        (∃ k, min 1 (iovec_s.mk 2 [2, 3]).N ≤ k ∧ k < 1 ∧ [(2 : Int)].getD k 0 ≠ 1))) ∧
    nlop_set_input_const2 (nlop_example 2 [2, 3]) 0 1 [2] [8] false 0 heap_1234 = none :=
  ⟨⟨rfl, Or.inl ⟨1, by decide, by decide, by decide⟩⟩,
    nlop_set_input_const2_rank_fatal (nlop_example 2 [2, 3]) 0 1 [2] [8] false 0 heap_1234
      ⟨2, [2, 3]⟩ rfl (Or.inl ⟨1, by decide, by decide, by decide⟩)⟩

/-- C10: for every operator `a` with `m` outputs and every `o < m`, `nlop_del_out(a, o)`
returns an operator whose inputs are exactly those of `a` (same number, order and
descriptors) and whose outputs are the outputs of `a` other than `o`, `m - 1` of them, in
their original order. -/
theorem nlop_del_out_interface (a : nlop_s) (o : Nat) (ho : o < nlop_get_nr_out_args a) :
    ∃ r, nlop_del_out a o = some r ∧
      r.domain = a.domain ∧
      nlop_get_nr_in_args r = nlop_get_nr_in_args a ∧
      r.codomain = a.codomain.eraseIdx o ∧
      nlop_get_nr_out_args r = nlop_get_nr_out_args a - 1 := by
  obtain ⟨co, hco⟩ := nlop_generic_codomain_of_lt a o ho
  refine ⟨_, nlop_del_out_eq a o co hco, ?_, ?_, ?_, ?_⟩
  · rw [nlop_chain2_result_domain, nlop_del_out_create_domain]
    simp
  · rw [nlop_get_nr_in_args, nlop_chain2_result_domain, nlop_del_out_create_domain]
    simp [nlop_get_nr_in_args]
  · rw [nlop_chain2_result_codomain, nlop_del_out_create_codomain]
    simp
  · unfold nlop_get_nr_out_args at ho
    rw [nlop_get_nr_out_args, nlop_chain2_result_codomain, nlop_del_out_create_codomain]
    simp [nlop_get_nr_out_args, List.length_eraseIdx, ho]

/-- Witness of C10: deleting the only output of the example operator. -/
theorem nlop_del_out_interface_witness :
    0 < nlop_get_nr_out_args (nlop_example 1 [4]) ∧
    ∃ r, nlop_del_out (nlop_example 1 [4]) 0 = some r ∧
      r.domain = (nlop_example 1 [4]).domain ∧
      nlop_get_nr_in_args r = nlop_get_nr_in_args (nlop_example 1 [4]) ∧
      r.codomain = (nlop_example 1 [4]).codomain.eraseIdx 0 ∧
      nlop_get_nr_out_args r = nlop_get_nr_out_args (nlop_example 1 [4]) - 1 :=
  ⟨by decide, nlop_del_out_interface (nlop_example 1 [4]) 0 (by decide)⟩

/-- C9: a successful `nlop_set_input_const2(a, i, ...)` on an operator with `n` inputs
returns an operator with exactly `n - 1` inputs, the inputs of `a` other than `i` in their
original order and with their original descriptors, and with the same outputs (number,
order and descriptors) as `a`. -/
theorem nlop_set_input_const2_interface (a : nlop_s) (i N : Nat) (dims strs : List Int)
    (copy : Bool) (inp : Int) (heap : Heap) (r : nlop_s)
    (h : nlop_set_input_const2 a i N dims strs copy inp heap = some r) :
    i < nlop_get_nr_in_args a ∧
    r.domain = a.domain.eraseIdx i ∧
    nlop_get_nr_in_args r = nlop_get_nr_in_args a - 1 ∧
    r.codomain = a.codomain ∧
    nlop_get_nr_out_args r = nlop_get_nr_out_args a := by
  obtain ⟨iov, hdom, hr⟩ := nlop_set_input_const2_some a i N dims strs copy inp heap r h
  have hi := nlop_generic_domain_lt a i iov hdom
  have hd : r.domain = a.domain.eraseIdx i := by
    rw [hr, nlop_chain2_result_domain, nlop_const_create2_domain]; simp
  have hc : r.codomain = a.codomain := by
    rw [hr, nlop_chain2_result_codomain, nlop_const_create2_codomain]; simp
  refine ⟨hi, hd, ?_, hc, ?_⟩
  · unfold nlop_get_nr_in_args at hi ⊢
    rw [hd, List.length_eraseIdx]
    simp [hi]
  · unfold nlop_get_nr_out_args
    rw [hc]

/-- Witness of C9: binding the only input of the example operator to `[1, 2, 3, 4]`. -/
theorem nlop_set_input_const2_interface_witness :
    ∃ r, nlop_set_input_const2 (nlop_example 1 [4]) 0 1 [4] [8] true 0 heap_1234 = some r ∧
      (0 < nlop_get_nr_in_args (nlop_example 1 [4]) ∧
      r.domain = (nlop_example 1 [4]).domain.eraseIdx 0 ∧
      nlop_get_nr_in_args r = nlop_get_nr_in_args (nlop_example 1 [4]) - 1 ∧
      r.codomain = (nlop_example 1 [4]).codomain ∧
      nlop_get_nr_out_args r = nlop_get_nr_out_args (nlop_example 1 [4])) :=
  ⟨nlop_chain2_result (nlop_const_create2 1 [4] [8] true 0 heap_1234) 0 (nlop_example 1 [4]) 0,
    by rfl,
    nlop_set_input_const2_interface (nlop_example 1 [4]) 0 1 [4] [8] true 0 heap_1234 _
      (by rfl)⟩

/-- C2: for every operator `a` and every output index `o` below its number of outputs,
`nlop_del_out(a, o)` is an operator whose forward outputs are those of `a` evaluated on the
same inputs (output `o` going to an intermediate buffer), with output `o` removed and the
others in the same order; the derivative and the adjoint of the `j`-th remaining output
with respect to every input are those of the corresponding output of `a`. -/
theorem nlop_del_out_preserves (a : nlop_s) (o : Nat) (ho : o < nlop_get_nr_out_args a) :
    ∃ r, nlop_del_out a o = some r ∧
      (∀ (heap : Heap) (ins outs : List Mem),
        ins.length = nlop_get_nr_in_args a → outs.length = nlop_get_nr_out_args a - 1 →
        r.forward heap ins outs
          = (a.forward heap ins (insert_port outs o fresh)).eraseIdx o) ∧
      (∀ (i j : Nat) (heap : Heap) (pt : List Mem) (d : Mem),
        i < nlop_get_nr_in_args a → j < nlop_get_nr_out_args a - 1 →
        pt.length = nlop_get_nr_in_args a →
        (r.deriv i j).map (fun f => f heap pt d)
            = (a.deriv i (skip_port o j)).map (fun f => f heap pt d) ∧
          (r.adjoint i j).map (fun f => f heap pt d)
            = (a.adjoint i (skip_port o j)).map (fun f => f heap pt d)) := by
  obtain ⟨co, hco⟩ := nlop_generic_codomain_of_lt a o ho
  refine ⟨_, nlop_del_out_eq a o co hco, ?_, ?_⟩
  · intro heap ins outs hi ho2
    unfold nlop_get_nr_in_args at hi
    unfold nlop_get_nr_out_args at ho2
    rw [nlop_chain2_result_forward, nlop_del_out_create_forward, List.append_nil,
      List.take_of_length_le (le_of_eq hi), List.take_of_length_le (le_of_eq ho2)]
  · intro i j heap pt d hi hj hpt
    unfold nlop_get_nr_in_args at hi hpt
    unfold nlop_get_nr_out_args at hj
    have ht : pt.take a.domain.length = pt := List.take_of_length_le (le_of_eq hpt)
    constructor
    · rw [nlop_chain2_result_deriv_left a o _ 0 i j hi hj, Option.map_map]
      cases a.deriv i (skip_port o j) <;> simp [ht]
    · rw [nlop_chain2_result_adjoint_left a o _ 0 i j hi hj, Option.map_map]
      cases a.adjoint i (skip_port o j) <;> simp [ht]

/-- Witness of C2: deleting output `0` of the two-output example leaves its output `1`
(the input plus one) as the only output. -/
theorem nlop_del_out_preserves_witness :
    0 < nlop_get_nr_out_args nlop_example_two ∧
    (nlop_del_out nlop_example_two 0).map
        (fun r => (r.forward heap_1234 [heap_1234] [fresh]).map read4) = some [[2, 3, 4, 5]] ∧
    ∃ r, nlop_del_out nlop_example_two 0 = some r ∧
      (∀ (heap : Heap) (ins outs : List Mem),
        ins.length = nlop_get_nr_in_args nlop_example_two →
        outs.length = nlop_get_nr_out_args nlop_example_two - 1 →
        r.forward heap ins outs
          = (nlop_example_two.forward heap ins (insert_port outs 0 fresh)).eraseIdx 0) ∧
      (∀ (i j : Nat) (heap : Heap) (pt : List Mem) (d : Mem),
        i < nlop_get_nr_in_args nlop_example_two →
        j < nlop_get_nr_out_args nlop_example_two - 1 →
        pt.length = nlop_get_nr_in_args nlop_example_two →
        (r.deriv i j).map (fun f => f heap pt d)
            = (nlop_example_two.deriv i (skip_port 0 j)).map (fun f => f heap pt d) ∧
          (r.adjoint i j).map (fun f => f heap pt d)
            = (nlop_example_two.adjoint i (skip_port 0 j)).map (fun f => f heap pt d)) :=
  ⟨by decide, by decide, nlop_del_out_preserves nlop_example_two 0 (by decide)⟩

/-- C1: for every operator `a`, every input `i` of `a` (with descriptor `iov`) and every
value tensor (rank `N`, extents `dims`, strides `strs`, at `in`) whose shape is compatible
with input `i`, `nlop_set_input_const2(a, i, N, dims, strs, copy, in)` returns an operator
whose forward evaluation on the remaining inputs equals the forward evaluation of `a` on
the same inputs with input `i` set to the value: a buffer `V` that holds, in the declared
layout of input `i`, the element of the tensor at every multi-index. -/
theorem nlop_set_input_const2_forward (a : nlop_s) (i N : Nat) (dims strs : List Int)
    (copy : Bool) (inp : Int) (heap : Heap) (iov : iovec_s)
    (hiov : nlop_generic_domain a i = some iov) (hcomp : shape_compatible iov N dims) :
    ∃ r V, nlop_set_input_const2 a i N dims strs copy inp heap = some r ∧
      (∀ p, md_is_index iov.N iov.dims p → md_is_index N dims p →
        V (md_offset iov.strs p iov.N) = heap (inp + md_offset strs p N)) ∧
      (∀ ins outs, r.forward heap ins outs = a.forward heap (insert_port ins i V) outs) := by
  refine ⟨_, _, nlop_set_input_const2_compatible a i N dims strs copy inp heap iov hiov hcomp,
    ?_, fun ins outs => nlop_chain2_result_const_forward _ _ _ copy inp heap heap a i ins outs⟩
  intro p hp1 hp2
  rw [reconciled_value N dims strs copy inp heap heap iov hcomp p hp1 hp2]
  split <;> rfl

/-- Witness of C1: the only input of the example operator (which copies its input to its
output) is bound to the tensor `[1, 2, 3, 4]`; the bound operator outputs `[1, 2, 3, 4]`. -/
theorem nlop_set_input_const2_forward_witness :
    (nlop_generic_domain (nlop_example 1 [4]) 0 = some ⟨1, [4]⟩ ∧
      shape_compatible ⟨1, [4]⟩ 1 [4]) ∧
    (nlop_set_input_const2 (nlop_example 1 [4]) 0 1 [4] [8] false 0 heap_1234).map
        (fun r => (r.forward heap_1234 [] [fresh]).map read4) = some [[1, 2, 3, 4]] ∧
    ∃ r V, nlop_set_input_const2 (nlop_example 1 [4]) 0 1 [4] [8] false 0 heap_1234 = some r ∧
      (∀ p, md_is_index (iovec_s.mk 1 [4]).N (iovec_s.mk 1 [4]).dims p → md_is_index 1 [4] p →
        V (md_offset (iovec_s.mk 1 [4]).strs p (iovec_s.mk 1 [4]).N)
          = heap_1234 (0 + md_offset [8] p 1)) ∧
      (∀ ins outs, r.forward heap_1234 ins outs
        = (nlop_example 1 [4]).forward heap_1234 (insert_port ins 0 V) outs) :=
  ⟨⟨rfl, by decide⟩, by decide,
    nlop_set_input_const2_forward (nlop_example 1 [4]) 0 1 [4] [8] false 0 heap_1234 ⟨1, [4]⟩
      rfl (by decide)⟩

/-- C8, as stated, fails: on the example operator whose input has extents `[2]`, the scalar
form returns an operator (which broadcasts the value `7` over the whole input, so that the
output is `[7, 7]`), while the general form applied to a tensor with all-singleton extents
holding `7` aborts, whatever the rank `0`, `1` or `2` of that tensor. -/
theorem nlop_set_input_scalar_F_counterexample :
    (nlop_set_input_scalar_F (nlop_example 1 [2]) 1 0 7).map
        (fun r => (r.1.forward heap_1234 [] [fresh]).map (fun m => [m 0, m 8]))
      = some [[7, 7]] ∧
    (nlop_set_input_const_F2 (nlop_example 1 [2]) 1 0 1 (md_singleton_dims 1)
        (MD_SINGLETON_STRS 1) true 0 (fun _ => 7)).isSome = false ∧
    (nlop_set_input_const_F2 (nlop_example 1 [2]) 1 0 0 (md_singleton_dims 0)
        (MD_SINGLETON_STRS 0) true 0 (fun _ => 7)).isSome = false ∧
    (nlop_set_input_const_F2 (nlop_example 1 [2]) 1 0 2 (md_singleton_dims 2)
        (MD_SINGLETON_STRS 2) true 0 (fun _ => 7)).isSome = false := by
  refine ⟨?_, ?_, ?_, ?_⟩ <;> decide

/-- C8, amended: for every operator `a` and every input `i` whose declared extents are all
`1`, the operator returned by `nlop_set_input_scalar_F(a, i, val)` has forward outputs
identical to those of the operator obtained by binding input `i` through
`nlop_set_input_const_F2` to the tensor of the same rank with all-singleton extents that
holds `val` (whatever its strides and the copy flag); both forms release one reference
to `a`. -/
theorem nlop_set_input_scalar_F_singleton (a : nlop_s) (refs i : Nat) (val : CFloat)
    (iov : iovec_s) (strs : List Int) (copy : Bool) (inp : Int) (heap hc : Heap)
    (hiov : nlop_generic_domain a i = some iov)
    (hone : ∀ k, k < iov.N → iov.dims.getD k 0 = 1)
    (hv : heap inp = val) (hvc : hc inp = val) :
    ∃ r1 r2, nlop_set_input_scalar_F a refs i val = some (r1, nlop_free refs) ∧
      nlop_set_input_const_F2 a refs i iov.N (md_singleton_dims iov.N) strs copy inp heap
        = some (r2, nlop_free refs) ∧
      ∀ ins outs, r1.forward hc ins outs = r2.forward hc ins outs := by
  have hc1 := shape_compatible_self iov
  have hc2 := shape_compatible_singleton iov hone
  refine ⟨nlop_chain2_result
      (nlop_const_create2 iov.N
        (md_copy_dims (min iov.N iov.N) (md_singleton_dims (max iov.N iov.N)) iov.dims)
        (md_copy_strides (min iov.N iov.N) (md_singleton_strides (max iov.N iov.N))
          (MD_SINGLETON_STRS iov.N)) true 0 (fun _ => val)) 0 a i,
    nlop_chain2_result
      (nlop_const_create2 iov.N
        (md_copy_dims (min iov.N iov.N) (md_singleton_dims (max iov.N iov.N))
          (md_singleton_dims iov.N))
        (md_copy_strides (min iov.N iov.N) (md_singleton_strides (max iov.N iov.N)) strs)
        copy inp heap) 0 a i, ?_, ?_, ?_⟩
  · simp only [nlop_set_input_scalar_F, hiov, nlop_set_input_const_F2]
    rw [nlop_set_input_const2_compatible a i iov.N iov.dims _ true 0 _ iov hiov hc1]
  · simp only [nlop_set_input_const_F2]
    rw [nlop_set_input_const2_compatible a i iov.N _ strs copy inp heap iov hiov hc2]
  · intro ins outs
    have hd1 : ∀ k, k < iov.N →
        (md_copy_dims (min iov.N iov.N) (md_singleton_dims (max iov.N iov.N)) iov.dims).getD
          k 0 = 1 := by
      intro k hk
      rw [reconciled_dims_getD iov.N iov.dims (MD_SINGLETON_STRS iov.N) iov hc1 k hk]
      exact hone k hk
    have hd2 : ∀ k, k < iov.N →
        (md_copy_dims (min iov.N iov.N) (md_singleton_dims (max iov.N iov.N))
          (md_singleton_dims iov.N)).getD k 0 = 1 := by
      intro k hk
      rw [reconciled_dims_getD iov.N (md_singleton_dims iov.N) strs iov hc2 k hk]
      exact hone k hk
    rw [nlop_chain2_result_const_forward, nlop_chain2_result_const_forward,
      const_fun_singleton iov.N _ _ true 0 _ hc fresh hd1,
      const_fun_singleton iov.N _ _ copy inp heap hc fresh hd2]
    have e1 : (if (md_check_equal_dims iov.N (MD_SINGLETON_STRS iov.N)
          (md_copy_strides (min iov.N iov.N) (md_singleton_strides (max iov.N iov.N))
            (MD_SINGLETON_STRS iov.N)) || true) = true then (fun _ => val) else hc) (0 : Int)
        = val := by simp
    have e2 : (if (md_check_equal_dims iov.N (MD_SINGLETON_STRS iov.N)
          (md_copy_strides (min iov.N iov.N) (md_singleton_strides (max iov.N iov.N)) strs)
            || copy) = true then heap else hc) inp = val := by
      split
      · exact hv
      · exact hvc
    rw [e1, e2]

/-- Witness of the amended C8: an operator whose input has the single extent `1`. -/
theorem nlop_set_input_scalar_F_singleton_witness :
    (nlop_generic_domain (nlop_example 1 [1]) 0 = some ⟨1, [1]⟩ ∧
      (∀ k, k < (iovec_s.mk 1 [1]).N → (iovec_s.mk 1 [1]).dims.getD k 0 = 1) ∧
      heap_1234 16 = 3 ∧ heap_1234 16 = 3) ∧
    ∃ r1 r2, nlop_set_input_scalar_F (nlop_example 1 [1]) 1 0 3 = some (r1, nlop_free 1) ∧
      nlop_set_input_const_F2 (nlop_example 1 [1]) 1 0 (iovec_s.mk 1 [1]).N
          (md_singleton_dims (iovec_s.mk 1 [1]).N) [8] false 16 heap_1234
        = some (r2, nlop_free 1) ∧
      ∀ ins outs, r1.forward heap_1234 ins outs = r2.forward heap_1234 ins outs :=
  ⟨⟨rfl, by decide, by decide, by decide⟩,
    nlop_set_input_scalar_F_singleton (nlop_example 1 [1]) 1 0 3 ⟨1, [1]⟩ [8] false 16
      heap_1234 heap_1234 rfl (by decide) (by decide) (by decide)⟩

/-! ## Further facts about the constant operator and input binding -/

theorem nlop_chain2_some_check (a : nlop_s) (o : Nat) (b : nlop_s) (i : Nat) (r : nlop_s)
    (h : nlop_chain2 a o b i = some r) :
    ∃ co di, nlop_generic_codomain a o = some co ∧ nlop_generic_domain b i = some di ∧
      iovec_check di co.N co.dims = true := by
  unfold nlop_chain2 at h
  split at h
  · rename_i co di hco hdi
    split at h
    · rename_i hchk
      exact ⟨co, di, hco, hdi, hchk⟩
    · exact Option.noConfusion h
  · exact Option.noConfusion h

theorem iovec_check_iff (iov : iovec_s) (N : Nat) (dims : List Int) :
    iovec_check iov N dims = true ↔
      iov.N = N ∧ ∀ k, k < N → iov.dims.getD k 0 = dims.getD k 0 := by
  simp only [iovec_check, Bool.and_eq_true, decide_eq_true_eq, md_check_equal_dims_iff]

/-- The computed strides of all-singleton extents are all zero. -/
theorem md_calc_strides_singleton (N : Nat) (dims : List Int) (size : Int)
    (h : ∀ k, k < N → dims.getD k 0 = 1) :
    ∀ k, k < N → (MD_STRIDES N dims size).getD k 0 = 0 := by
  intro k hk
  rw [MD_STRIDES, md_calc_strides_getD N dims size k hk, if_pos (h k hk)]

theorem nlop_const_create2_deriv (N : Nat) (dims strs : List Int) (copy : Bool) (inp : Int)
    (heap : Heap) (i o : Nat) :
    (nlop_const_create2 N dims strs copy inp heap).deriv i o = none ∧
      (nlop_const_create2 N dims strs copy inp heap).adjoint i o = none := by
  constructor <;> simp [nlop_const_create2, nlop_generic_create]

/-- C11: `nlop_const_create2` and `nlop_const_create` return an operator with zero inputs
and exactly one output, whose rank is `N` and whose extents are those of `dims`; its
forward evaluation is the callback `const_fun`, and every derivative and adjoint entry is
absent. -/
theorem nlop_const_create2_descriptor (N : Nat) (dims strs : List Int) (copy : Bool)
    (inp : Int) (heap : Heap) :
    (nlop_get_nr_in_args (nlop_const_create2 N dims strs copy inp heap) = 0 ∧
      nlop_get_nr_out_args (nlop_const_create2 N dims strs copy inp heap) = 1 ∧
      (∃ iov, nlop_generic_codomain (nlop_const_create2 N dims strs copy inp heap) 0
          = some iov ∧ iov.N = N ∧ ∀ k, k < N → iov.dims.getD k 0 = dims.getD k 0) ∧
      (∀ hc ins outs, (nlop_const_create2 N dims strs copy inp heap).forward hc ins outs
        = (const_fun (nlop_const_create2_data N dims strs copy inp heap) hc
            (outs ++ ins)).take 1) ∧
      (∀ i o, (nlop_const_create2 N dims strs copy inp heap).deriv i o = none ∧
        (nlop_const_create2 N dims strs copy inp heap).adjoint i o = none)) ∧
    (nlop_get_nr_in_args (nlop_const_create N dims copy inp heap) = 0 ∧
      nlop_get_nr_out_args (nlop_const_create N dims copy inp heap) = 1 ∧
      (∃ iov, nlop_generic_codomain (nlop_const_create N dims copy inp heap) 0
          = some iov ∧ iov.N = N ∧ ∀ k, k < N → iov.dims.getD k 0 = dims.getD k 0) ∧
      (∀ hc ins outs, (nlop_const_create N dims copy inp heap).forward hc ins outs
        = (const_fun (nlop_const_create2_data N dims (MD_STRIDES N dims CFL_SIZE) copy inp
            heap) hc (outs ++ ins)).take 1) ∧
      (∀ i o, (nlop_const_create N dims copy inp heap).deriv i o = none ∧
        (nlop_const_create N dims copy inp heap).adjoint i o = none)) := by
  refine ⟨⟨rfl, rfl, ⟨⟨N, dims.take N⟩, rfl, rfl, fun k hk => getD_take_of_lt dims N k hk⟩,
      fun _ _ _ => rfl, fun i o => nlop_const_create2_deriv N dims strs copy inp heap i o⟩,
    ⟨rfl, rfl, ⟨⟨N, dims.take N⟩, rfl, rfl, fun k hk => getD_take_of_lt dims N k hk⟩,
      fun _ _ _ => rfl, fun i o => nlop_const_create2_deriv N dims _ copy inp heap i o⟩⟩

/-- C12: for every successful call of `nlop_set_input_const2`, the constant operator that
is built and chained before `a` at port `i` matches the declared input `i` of `a`: the
rank, the extents and the strides of its output descriptor are those of input `i`. -/
theorem nlop_set_input_const2_const_matches (a : nlop_s) (i N : Nat) (dims strs : List Int)
    (copy : Bool) (inp : Int) (heap : Heap) (r : nlop_s)
    (h : nlop_set_input_const2 a i N dims strs copy inp heap = some r) :
    ∃ iov co, nlop_generic_domain a i = some iov ∧
      r = nlop_chain2_result
        (nlop_const_create2 iov.N
          (md_copy_dims (min N iov.N) (md_singleton_dims (max N iov.N)) dims)
          (md_copy_strides (min N iov.N) (md_singleton_strides (max N iov.N)) strs)
          copy inp heap) 0 a i ∧
      nlop_generic_codomain
        (nlop_const_create2 iov.N
          (md_copy_dims (min N iov.N) (md_singleton_dims (max N iov.N)) dims)
          (md_copy_strides (min N iov.N) (md_singleton_strides (max N iov.N)) strs)
          copy inp heap) 0 = some co ∧
      co.N = iov.N ∧
      (∀ k, k < iov.N → co.dims.getD k 0 = iov.dims.getD k 0) ∧
      co.strs = iov.strs := by
  obtain ⟨iov, hdom, hr⟩ := nlop_set_input_const2_some a i N dims strs copy inp heap r h
  rw [nlop_set_input_const2_eq a i N dims strs copy inp heap iov hdom] at h
  split at h
  · obtain ⟨co, di, hco, hdi, hchk⟩ := nlop_chain2_some_check _ _ _ _ r h
    rw [hdom] at hdi
    have hdi2 : iov = di := Option.some.inj hdi
    subst hdi2
    obtain ⟨hN, hd⟩ := (iovec_check_iff iov co.N co.dims).1 hchk
    have hd2 : ∀ k, k < iov.N → co.dims.getD k 0 = iov.dims.getD k 0 :=
      fun k hk => (hd k (by omega)).symm
    refine ⟨iov, co, hdom, hr, hco, hN.symm, hd2, ?_⟩
    unfold iovec_s.strs
    rw [← hN]
    exact md_calc_strides_congr iov.N _ _ CFL_SIZE hd2
  · exact Option.noConfusion h

/-- Witness of C12: binding the input of the example operator to `[1, 2, 3, 4]`. -/
theorem nlop_set_input_const2_const_matches_witness :
    ∃ iov co, nlop_generic_domain (nlop_example 1 [4]) 0 = some iov ∧
      nlop_chain2_result (nlop_const_create2 1 [4] [8] true 0 heap_1234) 0
          (nlop_example 1 [4]) 0
        = nlop_chain2_result
          (nlop_const_create2 iov.N
            (md_copy_dims (min 1 iov.N) (md_singleton_dims (max 1 iov.N)) [4])
            (md_copy_strides (min 1 iov.N) (md_singleton_strides (max 1 iov.N)) [8])
            true 0 heap_1234) 0 (nlop_example 1 [4]) 0 ∧
      nlop_generic_codomain
        (nlop_const_create2 iov.N
          (md_copy_dims (min 1 iov.N) (md_singleton_dims (max 1 iov.N)) [4])
          (md_copy_strides (min 1 iov.N) (md_singleton_strides (max 1 iov.N)) [8])
          true 0 heap_1234) 0 = some co ∧
      co.N = iov.N ∧
      (∀ k, k < iov.N → co.dims.getD k 0 = iov.dims.getD k 0) ∧
      co.strs = iov.strs :=
  nlop_set_input_const2_const_matches (nlop_example 1 [4]) 0 1 [4] [8] true 0 heap_1234
    (nlop_chain2_result (nlop_const_create2 1 [4] [8] true 0 heap_1234) 0
      (nlop_example 1 [4]) 0) (by rfl)

/-- C13: shapes are never silently coerced when binding. Whenever the supplied extent
`dims[k]` differs from the extent declared for input `i` of `a` on some axis `k` below
`N_min = min(N, rank of input i)`, `nlop_set_input_const2` aborts (on one of its own
assertions or on the shape check of the chaining) and returns no operator. -/
theorem nlop_set_input_const2_extent_fatal (a : nlop_s) (i N : Nat) (dims strs : List Int)
    (copy : Bool) (inp : Int) (heap : Heap) (iov : iovec_s)
    (hiov : nlop_generic_domain a i = some iov)
    (hbad : ∃ k, k < min N iov.N ∧ dims.getD k 0 ≠ iov.dims.getD k 0) :
    nlop_set_input_const2 a i N dims strs copy inp heap = none := by
  cases hres : nlop_set_input_const2 a i N dims strs copy inp heap with
  | none => rfl
  | some r =>
    exfalso
    rw [nlop_set_input_const2_eq a i N dims strs copy inp heap iov hiov] at hres
    split at hres
    · obtain ⟨co, di, hco, hdi, hchk⟩ := nlop_chain2_some_check _ _ _ _ r hres
      rw [hiov] at hdi
      have hdi2 : iov = di := Option.some.inj hdi
      subst hdi2
      have hco2 : co = ⟨iov.N,
          (md_copy_dims (min N iov.N) (md_singleton_dims (max N iov.N)) dims).take iov.N⟩ :=
        (Option.some.inj hco).symm
      obtain ⟨_, hd⟩ := (iovec_check_iff iov co.N co.dims).1 hchk
      obtain ⟨k, hk, hne⟩ := hbad
      have hkN : k < iov.N := by omega
      have := hd k (by rw [hco2]; exact hkN)
      rw [hco2] at this
      simp only at this
      rw [getD_take_of_lt _ _ _ hkN, (reconciled_getD N iov.N dims strs k hkN).1,
        if_pos hk] at this
      exact hne this.symm
    · exact Option.noConfusion hres

/-- Witness of C13: a tensor of extent `3` cannot be bound to an input of extent `4`. -/
theorem nlop_set_input_const2_extent_fatal_witness :
    (nlop_generic_domain (nlop_example 1 [4]) 0 = some ⟨1, [4]⟩ ∧
      ∃ k, k < min 1 (iovec_s.mk 1 [4]).N ∧
        [(3 : Int)].getD k 0 ≠ (iovec_s.mk 1 [4]).dims.getD k 0) ∧
    nlop_set_input_const2 (nlop_example 1 [4]) 0 1 [3] [8] true 0 heap_1234 = none :=
  ⟨⟨rfl, 0, by decide, by decide⟩,
    nlop_set_input_const2_extent_fatal (nlop_example 1 [4]) 0 1 [3] [8] true 0 heap_1234
      ⟨1, [4]⟩ rfl ⟨0, by decide, by decide⟩⟩

/-- C14: the destructive forms `nlop_set_input_const_F2`, `nlop_set_input_const_F` and
`nlop_del_out_F` return the operator of the non-destructive `nlop_set_input_const2`,
`nlop_set_input_const` and `nlop_del_out` (and abort when these abort); in addition they
release one reference to `a` after the result is built: of `refs` references held before
the call, `refs - 1` are left, exactly one fewer. The non-destructive forms do not take
part in the reference count. -/
theorem destructive_forms_release_once (a : nlop_s) (refs i N : Nat) (dims strs : List Int)
    (copy : Bool) (inp : Int) (heap : Heap) (o : Nat) :
    nlop_set_input_const_F2 a refs i N dims strs copy inp heap
        = (nlop_set_input_const2 a i N dims strs copy inp heap).map (fun r => (r, refs - 1)) ∧
      nlop_set_input_const_F a refs i N dims copy inp heap
        = (nlop_set_input_const a i N dims copy inp heap).map (fun r => (r, refs - 1)) ∧
      nlop_del_out_F a refs o = (nlop_del_out a o).map (fun r => (r, refs - 1)) ∧
      (0 < refs → nlop_free refs + 1 = refs) := by
  refine ⟨?_, ?_, ?_, ?_⟩
  · unfold nlop_set_input_const_F2
    cases nlop_set_input_const2 a i N dims strs copy inp heap <;> rfl
  · unfold nlop_set_input_const_F
    cases nlop_set_input_const a i N dims copy inp heap <;> rfl
  · unfold nlop_del_out_F
    cases nlop_del_out a o <;> rfl
  · intro h
    unfold nlop_free
    omega

/-- C16: when every supplied stride is zero, `nlop_const_create2` captures the element
`in[0]` by value at construction whatever the copy flag is (both pointers stay null):
every forward apply fills every position of `dims` with the captured value and does not
depend on the caller memory at the time of the call (`heap2`), even when `copy` is false.
The case covers the computed strides of all-singleton extents, which are all zero. -/
theorem nlop_const_create2_scalar_capture (N : Nat) (dims strs : List Int) (copy : Bool)
    (inp : Int) (heap heap2 : Heap) (dst : Mem) (p : Nat → Int)
    (hz : ∀ k, k < N → strs.getD k 0 = 0) (hp : md_is_index N dims p) :
    (nlop_const_create2_data N dims strs copy inp heap).val = heap inp ∧
    (nlop_const_create2_data N dims strs copy inp heap).xn_ref = none ∧
    (nlop_const_create2_data N dims strs copy inp heap).xn_cop = none ∧
    (∀ ins outs, (nlop_const_create2 N dims strs copy inp heap).forward heap2 ins outs
        = (nlop_const_create2 N dims strs copy inp heap).forward heap ins outs) ∧
    (∃ out, (nlop_const_create2 N dims strs copy inp heap).forward heap2 [] [dst] = [out] ∧
      out (md_offset (MD_STRIDES N dims CFL_SIZE) p N) = heap inp) ∧
    ((∀ k, k < N → dims.getD k 0 = 1) →
      ∀ k, k < N → (MD_STRIDES N dims CFL_SIZE).getD k 0 = 0) := by
  have hchk := (singleton_strs_iff N strs).2 hz
  have hval : (nlop_const_create2_data N dims strs copy inp heap).val = heap inp := by
    simp only [nlop_const_create2_data, hchk, if_true]
    rw [md_copy_one]; simp
  have href : (nlop_const_create2_data N dims strs copy inp heap).xn_ref = none := by
    simp only [nlop_const_create2_data, hchk, if_true]
  have hcop : (nlop_const_create2_data N dims strs copy inp heap).xn_cop = none := by
    simp only [nlop_const_create2_data, hchk, if_true]
  refine ⟨hval, href, hcop, ?_, ?_, md_calc_strides_singleton N dims CFL_SIZE⟩
  · intro ins outs
    rw [nlop_const_create2_forward, nlop_const_create2_forward,
      const_fun_heap_indep _ href heap2 heap]
  · obtain ⟨out, h1, h2⟩ :=
      nlop_const_create2_apply N dims strs copy inp heap heap2 dst p hp
    refine ⟨out, h1, ?_⟩
    rw [← strides_take, h2, md_offset_zero_strs strs p N hz]
    simp [hchk]

/-- Witness of C16: all-singleton extents `1 x 1` with their computed strides and `copy`
false; the element `1` is captured, and after the caller has overwritten it with `5` the
forward apply still yields `1`.  -/
theorem nlop_const_create2_scalar_capture_witness :
    ((∀ k, k < 2 → (MD_STRIDES 2 [1, 1] CFL_SIZE).getD k 0 = 0) ∧
      md_is_index 2 [1, 1] (fun _ => 0)) ∧
    ((nlop_const_create2 2 [1, 1] (MD_STRIDES 2 [1, 1] CFL_SIZE) false 0 heap_1234).forward
        heap_5678 [] [fresh]).map (fun m => m 0) = [1] ∧
    ((nlop_const_create2 0 [] [] false 0 heap_1234).forward heap_5678 [] [fresh]).map
        (fun m => m 0) = [1] ∧
    ((nlop_const_create2_data 2 [1, 1] (MD_STRIDES 2 [1, 1] CFL_SIZE) false 0 heap_1234).val
        = heap_1234 0 ∧
    (nlop_const_create2_data 2 [1, 1] (MD_STRIDES 2 [1, 1] CFL_SIZE) false 0 heap_1234).xn_ref
        = none ∧
    (nlop_const_create2_data 2 [1, 1] (MD_STRIDES 2 [1, 1] CFL_SIZE) false 0 heap_1234).xn_cop
        = none ∧
    (∀ ins outs,
      (nlop_const_create2 2 [1, 1] (MD_STRIDES 2 [1, 1] CFL_SIZE) false 0 heap_1234).forward
          heap_5678 ins outs
        = (nlop_const_create2 2 [1, 1] (MD_STRIDES 2 [1, 1] CFL_SIZE) false 0
            heap_1234).forward heap_1234 ins outs) ∧
    (∃ out,
      (nlop_const_create2 2 [1, 1] (MD_STRIDES 2 [1, 1] CFL_SIZE) false 0 heap_1234).forward
          heap_5678 [] [fresh] = [out] ∧
      out (md_offset (MD_STRIDES 2 [1, 1] CFL_SIZE) (fun _ => 0) 2) = heap_1234 0) ∧
    ((∀ k, k < 2 → [(1 : Int), 1].getD k 0 = 1) →
      ∀ k, k < 2 → (MD_STRIDES 2 [1, 1] CFL_SIZE).getD k 0 = 0)) :=
  ⟨⟨by decide, by decide⟩, by decide, by decide,
    nlop_const_create2_scalar_capture 2 [1, 1] (MD_STRIDES 2 [1, 1] CFL_SIZE) false 0
      heap_1234 heap_5678 fresh (fun _ => 0) (by decide) (by decide)⟩

/-! ## long_mul_overflow_p and io_calc_size -/

theorem long_div_pos (a b : Int) (hb : 0 < b) : long_div a b = some (a.tdiv b) := by
  unfold long_div
  rw [if_neg]
  rintro (h | ⟨_, h⟩) <;> omega

theorem long_div_neg (a b : Int) (ha : a ≠ LONG_MIN) (hb : b < 0) :
    long_div a b = some (a.tdiv b) := by
  unfold long_div
  rw [if_neg]
  rintro (h | ⟨h, _⟩)
  · omega
  · exact ha h

theorem tdiv_max_pos (b : Int) (hb : 0 < b) (a : Int) :
    a > LONG_MAX.tdiv b ↔ LONG_MAX < a * b := by
  rw [Int.tdiv_eq_ediv (by decide) (le_of_lt hb)]
  exact Int.ediv_lt_iff_lt_mul hb

theorem tdiv_min_pos (a : Int) (ha : 0 < a) (b : Int) :
    b < LONG_MIN.tdiv a ↔ a * b < LONG_MIN := by
  have e : LONG_MIN = -9223372036854775808 := rfl
  rw [e, Int.neg_tdiv, Int.tdiv_eq_ediv (by decide) (le_of_lt ha)]
  have h := @Int.ediv_lt_iff_lt_mul 9223372036854775808 (-b) a ha
  constructor
  · intro hlt
    have := h.1 (by omega)
    nlinarith
  · intro hlt
    have := h.2 (by nlinarith)
    omega

theorem tdiv_max_neg (a : Int) (ha : a < 0) (b : Int) :
    b < LONG_MAX.tdiv a ↔ LONG_MAX < a * b := by
  have e : a = -(-a) := by ring
  rw [e, Int.tdiv_neg, Int.tdiv_eq_ediv (by decide) (by omega)]
  have h := @Int.ediv_lt_iff_lt_mul LONG_MAX (-b) (-a) (by omega)
  constructor
  · intro hlt
    have := h.1 (by omega)
    nlinarith
  · intro hlt
    have := h.2 (by nlinarith)
    omega

theorem long_mul_overflow_p_eq (a b : Int) (ha : LONG_MIN ≤ a) (hb : LONG_MIN ≤ b) :
    long_mul_overflow_p a b = some (decide (a * b < LONG_MIN ∨ LONG_MAX < a * b)) := by
  have hmin : LONG_MIN = -9223372036854775808 := rfl
  have hmax : LONG_MAX = 9223372036854775807 := rfl
  rcases lt_trichotomy a 0 with ha0 | ha0 | ha0 <;> rcases lt_trichotomy b 0 with hb0 | hb0 | hb0
  · -- a < 0, b < 0
    have h1 : ¬ (a > 0) := by omega
    have h3 : ¬ (b > 0) := by omega
    have hp : 0 < a * b := mul_pos_of_neg_of_neg ha0 hb0
    simp only [long_mul_overflow_p, and_then, h1, h3, ha0, hb0, decide_True, decide_False,
      if_true, long_div_neg LONG_MAX a (by decide) ha0, Option.map_some', Bool.false_or,
      Option.pure_def, Option.bind_eq_bind, Option.some_bind, Bool.false_eq_true, if_false,
      Option.some.injEq, decide_eq_decide, tdiv_max_neg a ha0 b]
    constructor
    · intro h; exact Or.inr h
    · rintro (h | h)
      · omega
      · exact h
  · -- a < 0, b = 0
    subst hb0
    have h1 : ¬ (a > 0) := by omega
    simp only [long_mul_overflow_p, and_then, h1, ha0, decide_True, decide_False,
      if_true, Option.map_some', Bool.false_or, lt_self_iff_false, gt_iff_lt,
      Option.pure_def, Option.bind_eq_bind, Option.some_bind, Bool.false_eq_true, if_false,
      Option.some.injEq, mul_zero, Bool.or_self]
    rw [hmin, hmax]; decide
  · -- a < 0, b > 0
    have h1 : ¬ (a > 0) := by omega
    have h3 : ¬ (b < 0) := by omega
    have hp : a * b < 0 := mul_neg_of_neg_of_pos ha0 hb0
    simp only [long_mul_overflow_p, and_then, h1, h3, ha0, hb0, decide_True, decide_False,
      if_true, long_div_pos LONG_MIN b hb0, Option.map_some', Bool.false_or, gt_iff_lt,
      Option.pure_def, Option.bind_eq_bind, Option.some_bind, Bool.false_eq_true, if_false,
      Option.some.injEq, decide_eq_decide, Bool.or_false, tdiv_min_pos b hb0 a]
    rw [mul_comm b a]
    constructor
    · intro h; exact Or.inl h
    · rintro (h | h)
      · exact h
      · omega
  · -- a = 0
    subst ha0
    simp only [long_mul_overflow_p, and_then, decide_True, decide_False, lt_self_iff_false,
      gt_iff_lt, if_true, Option.map_some', Bool.false_or,
      Option.pure_def, Option.bind_eq_bind, Option.some_bind, Bool.false_eq_true, if_false,
      Option.some.injEq, zero_mul, Bool.or_self]
    rw [hmin, hmax]; decide
  · subst ha0
    simp only [long_mul_overflow_p, and_then, decide_True, decide_False, lt_self_iff_false,
      gt_iff_lt, if_true, Option.map_some', Bool.false_or,
      Option.pure_def, Option.bind_eq_bind, Option.some_bind, Bool.false_eq_true, if_false,
      Option.some.injEq, zero_mul, Bool.or_self]
    rw [hmin, hmax]; decide
  · subst ha0
    simp only [long_mul_overflow_p, and_then, decide_True, decide_False, lt_self_iff_false,
      gt_iff_lt, if_true, Option.map_some', Bool.false_or,
      Option.pure_def, Option.bind_eq_bind, Option.some_bind, Bool.false_eq_true, if_false,
      Option.some.injEq, zero_mul, Bool.or_self]
    rw [hmin, hmax]; decide
  · -- a > 0, b < 0
    have h1 : ¬ (a < 0) := by omega
    have h3 : ¬ (b > 0) := by omega
    have hp : a * b < 0 := mul_neg_of_pos_of_neg ha0 hb0
    simp only [long_mul_overflow_p, and_then, h1, h3, ha0, hb0, decide_True, decide_False,
      if_true, long_div_pos LONG_MIN a ha0, Option.map_some', Bool.false_or, gt_iff_lt,
      Option.pure_def, Option.bind_eq_bind, Option.some_bind, Bool.false_eq_true, if_false,
      Option.some.injEq, decide_eq_decide, Bool.or_false, tdiv_min_pos a ha0 b]
    constructor
    · intro h; exact Or.inl h
    · rintro (h | h)
      · exact h
      · omega
  · -- a > 0, b = 0
    subst hb0
    have h1 : ¬ (a < 0) := by omega
    simp only [long_mul_overflow_p, and_then, h1, ha0, decide_True, decide_False,
      if_true, Option.map_some', Bool.false_or, lt_self_iff_false, gt_iff_lt,
      Option.pure_def, Option.bind_eq_bind, Option.some_bind, Bool.false_eq_true, if_false,
      Option.some.injEq, mul_zero, Bool.or_self]
    rw [hmin, hmax]; decide
  · -- a > 0, b > 0
    have h1 : ¬ (a < 0) := by omega
    have h3 : ¬ (b < 0) := by omega
    have hp : 0 < a * b := mul_pos ha0 hb0
    simp only [long_mul_overflow_p, and_then, h1, h3, ha0, hb0, decide_True, decide_False,
      if_true, long_div_pos LONG_MAX b hb0, Option.map_some', Bool.false_or, gt_iff_lt,
      Option.pure_def, Option.bind_eq_bind, Option.some_bind, Bool.false_eq_true, if_false,
      Option.some.injEq, decide_eq_decide, Bool.or_false]
    have := tdiv_max_pos b hb0 a
    simp only [gt_iff_lt] at this
    rw [this]
    constructor
    · intro h; exact Or.inr h
    · rintro (h | h)
      · omega
      · exact h

theorem getD_drop_one (dims : List Int) (k : Nat) :
    (dims.drop 1).getD k 0 = dims.getD (k + 1) 0 := by
  simp [List.getD_eq_getElem?_getD, List.getElem?_drop, Nat.add_comm]

theorem md_prod_from_drop_one (dims : List Int) (i n : Nat) :
    md_prod_from (dims.drop 1) i n = md_prod_from dims (i + 1) n := by
  induction n generalizing i with
  | zero => rfl
  | succ n ih => simp only [md_prod_from, ih, getD_drop_one]

theorem wrap_long_eq (x : Int) (h1 : LONG_MIN ≤ x) (h2 : x ≤ LONG_MAX) : wrap_long x = x := by
  unfold wrap_long
  unfold LONG_MIN at h1
  unfold LONG_MAX at h2
  omega

theorem io_size_fits_succ (D : Nat) (dims : List Int) (size : Nat) :
    io_size_fits (D + 1) dims size ↔
      0 ≤ dims.getD 0 0 ∧ io_size_fits D (dims.drop 1) size ∧
        (size : Int) * (dims.getD 0 0 * md_prod_from dims 1 D) ≤ LONG_MAX := by
  unfold io_size_fits
  constructor
  · rintro ⟨h1, h2⟩
    refine ⟨h1 0 (by omega), ⟨fun k hk => ?_, fun j hj => ?_⟩, ?_⟩
    · rw [getD_drop_one]; exact h1 (k + 1) (by omega)
    · rw [md_prod_from_drop_one]
      have := h2 (j + 1) (by omega)
      rwa [show D + 1 - (j + 1) = D - j by omega] at this
    · have := h2 0 (by omega)
      simpa [md_prod_from] using this
  · rintro ⟨h0, ⟨h1, h2⟩, h3⟩
    constructor
    · intro k hk
      cases k with
      | zero => exact h0
      | succ k => rw [← getD_drop_one]; exact h1 k (by omega)
    · intro j hj
      cases j with
      | zero => simpa [md_prod_from] using h3
      | succ j =>
        have := h2 j (by omega)
        rw [md_prod_from_drop_one] at this
        rwa [show D + 1 - (j + 1) = D - j by omega]

/-- Result of `io_calc_size`: the exact product when it fits, `-1` otherwise; the call
never hits an undefined division. -/
theorem io_calc_size_spec (D : Nat) : ∀ (dims : List Int) (size : Nat),
    (size : Int) ≤ LONG_MAX → D ≤ dims.length →
    (∀ k, k < D → LONG_MIN ≤ dims.getD k 0 ∧ dims.getD k 0 ≤ LONG_MAX) →
    ∃ r, io_calc_size D dims size = some r ∧
      (0 ≤ r ↔ io_size_fits D dims size) ∧
      (io_size_fits D dims size → r = (size : Int) * md_prod_from dims 0 D) ∧
      (¬ io_size_fits D dims size → r = -1) ∧
      r ≤ LONG_MAX := by
  induction D with
  | zero =>
    intro dims size hs _ _
    have hfit : io_size_fits 0 dims size :=
      ⟨fun k hk => absurd hk (by omega), fun j hj => absurd hj (by omega)⟩
    have hw : wrap_long (size : Int) = size :=
      wrap_long_eq _ (by unfold LONG_MIN; omega) hs
    refine ⟨size, ?_, ?_, ?_, ?_, hs⟩
    · simp only [io_calc_size, hw]
    · exact ⟨fun _ => hfit, fun _ => by omega⟩
    · intro _; simp [md_prod_from]
    · intro h; exact absurd hfit h
  | succ D ih =>
    intro dims size hs hD hr
    have hread : arr_get dims 0 = some (dims.getD 0 0) := by
      unfold arr_get
      rw [if_pos ⟨le_refl _, by omega⟩]
      rfl
    obtain ⟨a, ha, hiff, hgood, hbad, hmax⟩ := ih (dims.drop 1) size hs
      (by rw [List.length_drop]; omega)
      (fun k hk => by rw [getD_drop_one]; exact hr (k + 1) (by omega))
    have hsucc := io_size_fits_succ D dims size
    have hb := hr 0 (by omega)
    by_cases hfit : io_size_fits D (dims.drop 1) size
    · have ha0 : 0 ≤ a := hiff.2 hfit
      have hav : a = (size : Int) * md_prod_from dims 1 D := by
        rw [hgood hfit, md_prod_from_drop_one]
      by_cases hb0 : dims.getD 0 0 < 0
      · have hnot : ¬ io_size_fits (D + 1) dims size := fun h => by
          have := (hsucc.1 h).1; omega
        refine ⟨-1, ?_, ?_, ?_, ?_, by unfold LONG_MAX; omega⟩
        · simp only [io_calc_size, ha, hread, hb0, or_true, if_true]
        · exact ⟨fun h => by omega, fun h => absurd h hnot⟩
        · intro h; exact absurd h hnot
        · intro _; rfl
      · have hov := long_mul_overflow_p_eq a (dims.getD 0 0)
          (by unfold LONG_MIN; omega) hb.1
        have hab : 0 ≤ a * dims.getD 0 0 := mul_nonneg ha0 (by omega)
        have hprod : (size : Int) * (dims.getD 0 0 * md_prod_from dims 1 D)
            = a * dims.getD 0 0 := by rw [hav]; ring
        have hcond : ¬ (a < 0 ∨ dims.getD 0 0 < 0) := by omega
        by_cases hbig : LONG_MAX < a * dims.getD 0 0
        · have hnot : ¬ io_size_fits (D + 1) dims size := fun h => by
            have := (hsucc.1 h).2.2; rw [hprod] at this; omega
          have hd : decide (a * dims.getD 0 0 < LONG_MIN ∨ LONG_MAX < a * dims.getD 0 0)
              = true := decide_eq_true (Or.inr hbig)
          refine ⟨-1, ?_, ?_, ?_, ?_, by unfold LONG_MAX; omega⟩
          · simp only [io_calc_size, ha, hread, hcond, if_false, hov, hd]
          · exact ⟨fun h => by omega, fun h => absurd h hnot⟩
          · intro h; exact absurd h hnot
          · intro _; rfl
        · have hyes : io_size_fits (D + 1) dims size :=
            hsucc.2 ⟨by omega, hfit, by rw [hprod]; omega⟩
          have hd : decide (a * dims.getD 0 0 < LONG_MIN ∨ LONG_MAX < a * dims.getD 0 0)
              = false := by
            have : ¬ (a * dims.getD 0 0 < LONG_MIN) := by unfold LONG_MIN; omega
            exact decide_eq_false (fun h => h.elim this hbig)
          have hw : wrap_long (a * dims.getD 0 0) = a * dims.getD 0 0 :=
            wrap_long_eq _ (by unfold LONG_MIN; omega) (by omega)
          refine ⟨a * dims.getD 0 0, ?_, ?_, ?_, ?_, by omega⟩
          · simp only [io_calc_size, ha, hread, hcond, if_false, hov, hd, hw]
          · exact ⟨fun _ => hyes, fun _ => hab⟩
          · intro _
            rw [← hprod]
            simp [md_prod_from]
          · intro h; exact absurd hyes h
    · have ha1 : a = -1 := hbad hfit
      have hnot : ¬ io_size_fits (D + 1) dims size := fun h => hfit (hsucc.1 h).2.1
      refine ⟨-1, ?_, ?_, ?_, ?_, by unfold LONG_MAX; omega⟩
      · have : a < 0 := by omega
        simp only [io_calc_size, ha, hread, this, true_or, if_true]
      · exact ⟨fun h => by omega, fun h => absurd h hnot⟩
      · intro h; exact absurd h hnot
      · intro _; rfl

/-- C20: for all values `a` and `b` of type `long`, `long_mul_overflow_p(a, b)` returns
true if and only if the exact integer product `a * b` lies outside
`[LONG_MIN, LONG_MAX]`; the result is defined, that is, no division by zero and no
`LONG_MIN / -1` is evaluated. -/
theorem long_mul_overflow_p_correct (a b : Int) (ha : LONG_MIN ≤ a ∧ a ≤ LONG_MAX)
    (hb : LONG_MIN ≤ b ∧ b ≤ LONG_MAX) :
    long_mul_overflow_p a b = some (decide (a * b < LONG_MIN ∨ LONG_MAX < a * b)) :=
  long_mul_overflow_p_eq a b ha.1 hb.1

/-- Witness of C20: `LONG_MIN * -1` overflows, and `3 * 4` does not. -/
theorem long_mul_overflow_p_correct_witness :
    ((LONG_MIN ≤ LONG_MIN ∧ LONG_MIN ≤ LONG_MAX) ∧ (LONG_MIN ≤ (-1 : Int) ∧ (-1 : Int) ≤ LONG_MAX)) ∧
    long_mul_overflow_p LONG_MIN (-1) = some true ∧
    long_mul_overflow_p 3 4 = some false ∧
    long_mul_overflow_p LONG_MIN (-1)
      = some (decide (LONG_MIN * -1 < LONG_MIN ∨ LONG_MAX < LONG_MIN * -1)) :=
  ⟨by decide, by decide, by decide,
    long_mul_overflow_p_correct LONG_MIN (-1) (by decide) (by decide)⟩

/-- C18: for every `D`, array `dims` of `D` extents of type `long` and element size at
most `LONG_MAX`, `io_calc_size(D, dims, size)` returns a value (no undefined division) that is
never wrapped: it is non-negative if and only if every extent is non-negative and every
suffix product `size * dims[j] * ... * dims[D-1]` is at most `LONG_MAX`, and it is then
the exact product `size * dims[0] * ... * dims[D-1]`; in every other case it is `-1`. -/
theorem io_calc_size_exact (D : Nat) (dims : List Int) (size : Nat)
    (hs : (size : Int) ≤ LONG_MAX) (hD : dims.length = D)
    (hr : ∀ k, k < D → LONG_MIN ≤ dims.getD k 0 ∧ dims.getD k 0 ≤ LONG_MAX) :
    ∃ r, io_calc_size D dims size = some r ∧
      (0 ≤ r ↔ io_size_fits D dims size) ∧
      (io_size_fits D dims size → r = (size : Int) * md_prod_from dims 0 D) ∧
      (¬ io_size_fits D dims size → r = -1) := by
  obtain ⟨r, h1, h2, h3, h4, _⟩ := io_calc_size_spec D dims size hs (le_of_eq hD.symm) hr
  exact ⟨r, h1, h2, h3, h4⟩

/-- Witness of C18: `3 x 4` elements of size `8` take `96` bytes; a product beyond
`LONG_MAX` and a negative extent give `-1`. -/
theorem io_calc_size_exact_witness :
    (((8 : Nat) : Int) ≤ LONG_MAX ∧ [(3 : Int), 4].length = 2 ∧
      ∀ k, k < 2 → LONG_MIN ≤ [(3 : Int), 4].getD k 0 ∧ [(3 : Int), 4].getD k 0 ≤ LONG_MAX) ∧
    io_calc_size 2 [3, 4] 8 = some 96 ∧
    io_calc_size 2 [4611686018427387904, 4] 8 = some (-1) ∧
    io_calc_size 2 [0, 4611686018427387904] 8 = some (-1) ∧
    io_calc_size 2 [4611686018427387904, 0] 8 = some 0 ∧
    io_calc_size 1 [-3] 8 = some (-1) ∧
    ∃ r, io_calc_size 2 [3, 4] 8 = some r ∧
      (0 ≤ r ↔ io_size_fits 2 [3, 4] 8) ∧
      (io_size_fits 2 [3, 4] 8 → r = ((8 : Nat) : Int) * md_prod_from [3, 4] 0 2) ∧
      (¬ io_size_fits 2 [3, 4] 8 → r = -1) :=
  ⟨⟨by decide, by decide, by decide⟩, by decide, by decide, by decide, by decide, by decide,
    io_calc_size_exact 2 [3, 4] 8 (by decide) (by decide) (by decide)⟩

/-! ## bitcount -/

theorem popcount_bits_eq (b : Nat) : ∀ n : Nat,
    ((List.range b).filter (fun i => n.testBit i)).length = popcount_bits b n := by
  induction b with
  | zero => intro n; rfl
  | succ b ih =>
    intro n
    rw [List.range_succ_eq_map, List.filter_cons, List.filter_map]
    have e : ((fun i => n.testBit i) ∘ Nat.succ) = (fun i => (n / 2).testBit i) := by
      funext i; simp [Nat.testBit_succ]
    rw [e]
    simp only [popcount_bits]
    rcases Nat.mod_two_eq_zero_or_one n with h | h
    · simp [Nat.testBit_zero, h, ih]
    · simp [Nat.testBit_zero, h, ih]; omega

theorem and_pred_mod_two (n : Nat) (hn : 0 < n) : (n &&& (n - 1)) % 2 = 0 := by
  have h := Nat.testBit_and n (n - 1) 0
  simp only [Nat.testBit_zero] at h
  rcases Nat.mod_two_eq_zero_or_one (n &&& (n - 1)) with h0 | h1
  · exact h0
  · exfalso
    rw [h1] at h
    simp only [decide_True] at h
    have := h.symm
    simp only [Bool.and_eq_true, decide_eq_true_eq] at this
    omega

/-- Clearing the lowest set bit removes exactly one set bit. -/
theorem popcount_bits_and_pred (b : Nat) : ∀ n : Nat, 0 < n → n < 2 ^ b →
    popcount_bits b (n &&& (n - 1)) + 1 = popcount_bits b n := by
  induction b with
  | zero => intro n h1 h2; simp at h2; omega
  | succ b ih =>
    intro n h1 h2
    simp only [popcount_bits]
    rw [and_pred_mod_two n h1, Nat.and_div_two]
    rcases Nat.mod_two_eq_zero_or_one n with h | h
    · have e : (n - 1) / 2 = n / 2 - 1 := by omega
      rw [e, h]
      have := ih (n / 2) (by omega) (by rw [pow_succ] at h2; omega)
      omega
    · have e : (n - 1) / 2 = n / 2 := by omega
      rw [e, h, Nat.and_self]
      omega

theorem popcount_and_pred (n : Nat) (h1 : 0 < n) (h2 : n < ULONG_MOD) :
    popcount (n &&& (n - 1)) + 1 = popcount n := by
  unfold popcount
  rw [popcount_bits_eq, popcount_bits_eq]
  exact popcount_bits_and_pred 64 n h1 h2

theorem popcount_zero : popcount 0 = 0 := by decide

/-- The loop of `bitcount` runs exactly `popcount flags` times and adds that number to
`N`. -/
theorem bitcount_loop_eq (fuel : Nat) : ∀ (flags : Nat) (N : Int), flags < ULONG_MOD →
    bitcount_loop fuel flags N
      = if popcount flags ≤ fuel then some (N + (popcount flags : Int)) else none := by
  induction fuel with
  | zero =>
    intro flags N hlt
    by_cases h : flags > 0
    · have := popcount_and_pred flags h hlt
      simp only [bitcount_loop, h, if_true]
      rw [if_neg (by omega)]
    · have : flags = 0 := by omega
      subst this
      simp [bitcount_loop, popcount_zero]
  | succ fuel ih =>
    intro flags N hlt
    by_cases h : flags > 0
    · have hp := popcount_and_pred flags h hlt
      have e : (flags + ULONG_MOD - 1) % ULONG_MOD = flags - 1 := by
        unfold ULONG_MOD at hlt ⊢; omega
      have hle : flags &&& (flags - 1) < ULONG_MOD :=
        lt_of_le_of_lt Nat.and_le_left hlt
      simp only [bitcount_loop, h, if_true, e]
      rw [ih _ _ hle]
      by_cases hf : popcount (flags &&& (flags - 1)) ≤ fuel
      · rw [if_pos hf, if_pos (by omega), ← hp]
        push_cast; ring_nf
      · rw [if_neg hf, if_neg (by omega)]
    · have : flags = 0 := by omega
      subst this
      simp [bitcount_loop, popcount_zero]

theorem popcount_le (flags : Nat) : popcount flags ≤ 64 := by
  unfold popcount
  have := List.length_filter_le (fun i => flags.testBit i) (List.range 64)
  simpa using this

/-- C19: for every `unsigned long` value `flags`, the loop of `bitcount(flags)` runs
exactly once per set bit: with a bound of `fuel` iterations it ends if and only if
`popcount flags ≤ fuel`, and it then returns the population count of `flags`. The
population count is at most `64`, so the call terminates, and `bitcount(0) = 0`. -/
theorem bitcount_popcount (flags fuel : Nat) (h : flags < ULONG_MOD) :
    bitcount fuel flags
        = (if popcount flags ≤ fuel then some (popcount flags : Int) else none) ∧
      popcount flags ≤ 64 ∧
      (64 ≤ fuel → bitcount fuel flags = some (popcount flags : Int)) ∧
      bitcount fuel 0 = some 0 := by
  have h1 : bitcount fuel flags
      = (if popcount flags ≤ fuel then some (popcount flags : Int) else none) := by
    unfold bitcount
    rw [bitcount_loop_eq fuel flags 0 h]
    simp
  have h2 := popcount_le flags
  refine ⟨h1, h2, fun hf => ?_, ?_⟩
  · rw [h1, if_pos (by omega)]
  · unfold bitcount
    rw [bitcount_loop_eq fuel 0 0 (by decide), popcount_zero]
    simp

/-- Witness of C19: `11` is `1011` in binary and has three bits set. -/
theorem bitcount_popcount_witness :
    (11 : Nat) < ULONG_MOD ∧ bitcount 64 11 = some 3 ∧ bitcount 3 11 = some 3 ∧
    bitcount 2 11 = none ∧ popcount 11 = 3 ∧
    (bitcount 64 11 = (if popcount 11 ≤ 64 then some (popcount 11 : Int) else none) ∧
      popcount 11 ≤ 64 ∧
      (64 ≤ 64 → bitcount 64 11 = some (popcount 11 : Int)) ∧
      bitcount 64 0 = some 0) :=
  ⟨by decide, by decide, by decide, by decide, by decide,
    bitcount_popcount 11 64 (by decide)⟩

/-! ## quicksort -/

theorem arr_get_of_lt (arr : List Int) (i : Int) (h0 : 0 ≤ i) (h1 : i < arr.length) :
    arr_get arr i = some (arr_at arr i) := by
  unfold arr_get arr_at
  rw [if_pos ⟨h0, h1⟩]

theorem arr_set_of_lt (arr : List Int) (i v : Int) (h0 : 0 ≤ i) (h1 : i < arr.length) :
    arr_set arr i v = some (arr.set i.toNat v) := by
  unfold arr_set
  rw [if_pos ⟨h0, h1⟩]

theorem arr_at_set (arr : List Int) (i v p : Int) (h0 : 0 ≤ i) (h1 : i < arr.length)
    (hp : 0 ≤ p) : arr_at (arr.set i.toNat v) p = if p = i then v else arr_at arr p := by
  unfold arr_at
  rw [List.getD_eq_getElem?_getD, List.getD_eq_getElem?_getD, List.getElem?_set]
  by_cases e : p = i
  · subst e
    rw [if_pos rfl, if_pos rfl, if_pos (by omega)]
    rfl
  · rw [if_neg (by omega), if_neg e]

theorem arr_swap_length (arr : List Int) (i j : Int) :
    (arr_swap arr i j).length = arr.length := by
  simp [arr_swap]

theorem arr_at_swap (arr : List Int) (i j p : Int) (hi0 : 0 ≤ i) (hi1 : i < arr.length)
    (hj0 : 0 ≤ j) (hj1 : j < arr.length) (hp : 0 ≤ p) :
    arr_at (arr_swap arr i j) p
      = if p = j then arr_at arr i else if p = i then arr_at arr j else arr_at arr p := by
  unfold arr_swap
  rw [arr_at_set _ j _ p hj0 (by simpa using hj1) hp, arr_at_set _ i _ p hi0 hi1 hp]

theorem arr_at_eq_getElem (arr : List Int) (n : Nat) (h : n < arr.length) :
    arr_at arr (n : Int) = arr[n] := by
  unfold arr_at
  rw [Int.toNat_ofNat, List.getD_eq_getElem?_getD, List.getElem?_eq_getElem h]
  rfl

/-- Exchanging two elements gives a permutation. -/
theorem arr_swap_perm (arr : List Int) (i j : Int) (hi0 : 0 ≤ i) (hi1 : i < arr.length)
    (hj0 : 0 ≤ j) (hj1 : j < arr.length) : (arr_swap arr i j).Perm arr := by
  have hi : i.toNat < arr.length := by omega
  have hj : j.toNat < arr.length := by omega
  have ei : arr_at arr i = arr[i.toNat] := by
    have := arr_at_eq_getElem arr i.toNat hi
    rwa [Int.toNat_of_nonneg hi0] at this
  have ej : arr_at arr j = arr[j.toNat] := by
    have := arr_at_eq_getElem arr j.toNat hj
    rwa [Int.toNat_of_nonneg hj0] at this
  rw [List.perm_iff_count]
  intro a
  have hu : (if (arr[i.toNat] == a) = true then 1 else 0) ≤ List.count a arr :=
    List.boole_getElem_le_countP (fun x => x == a) arr i.toNat hi
  have hv : (if (arr[j.toNat] == a) = true then 1 else 0) ≤ List.count a arr :=
    List.boole_getElem_le_countP (fun x => x == a) arr j.toNat hj
  unfold arr_swap
  rw [List.count_set _ _ _ _ (by simpa using hj), List.count_set _ _ _ _ hi, ei, ej]
  by_cases e : i.toNat = j.toNat
  · simp only [e, List.getElem_set_self] at hu hv ⊢
    generalize (if (arr[j.toNat] == a) = true then 1 else 0) = v at *
    omega
  · rw [List.getElem_set_ne e]
    generalize (if (arr[j.toNat] == a) = true then 1 else 0) = v at *
    generalize (if (arr[i.toNat] == a) = true then 1 else 0) = u at *
    omega

theorem arr_at_mem (arr : List Int) (p : Int) (h0 : 0 ≤ p) (h1 : p < arr.length) :
    arr_at arr p ∈ arr := by
  have hp : p.toNat < arr.length := by omega
  have := arr_at_eq_getElem arr p.toNat hp
  rw [Int.toNat_of_nonneg h0] at this
  rw [this]
  exact List.getElem_mem hp

/-- Postcondition of the partition loop of `quicksort`. -/
theorem quicksort_loop_spec (cmp : Int → Int → Int) (pivot : Int) (U : Int → Prop)
    (hpU : U pivot)
    (hanti : ∀ a b, U a → U b → (cmp a b < 0 ↔ 0 < cmp b a))
    (ord0 : List Int) (fuel : Nat) :
    ∀ (ord : List Int) (l h : Int),
      ord.Perm ord0 → (∀ x, x ∈ ord0 → U x) →
      0 ≤ l → h < ord.length → l ≤ h + 2 → h - l + 1 < fuel →
      (∀ p, 0 ≤ p → p < l → cmp (arr_at ord p) pivot ≤ 0) →
      (∀ p, h < p → p < ord.length → cmp pivot (arr_at ord p) ≤ 0) →
      ((∃ m, l ≤ m ∧ m ≤ h ∧ arr_at ord m = pivot) ∨ (1 ≤ l ∧ h + 2 ≤ ord.length)) →
      ∃ ord2 l2 h2, quicksort_loop cmp pivot fuel ord l h = some (ord2, l2, h2) ∧
        ord2.Perm ord0 ∧ h2 < l2 ∧ l2 ≤ h2 + 2 ∧ 1 ≤ l2 ∧ h2 + 2 ≤ ord2.length ∧
        (∀ p, 0 ≤ p → p < l2 → cmp (arr_at ord2 p) pivot ≤ 0) ∧
        (∀ p, h2 < p → p < ord2.length → cmp pivot (arr_at ord2 p) ≤ 0) := by
  induction fuel with
  | zero =>
    intro ord l h hperm hU hl hh hlh hf hlo hhi hprog
    have hgt : ¬ l ≤ h := by omega
    refine ⟨ord, l, h, ?_, hperm, by omega, hlh, ?_, ?_, hlo, hhi⟩
    · simp only [quicksort_loop, hgt, if_false]
    · rcases hprog with ⟨m, h1, h2, _⟩ | ⟨h1, _⟩ <;> omega
    · rcases hprog with ⟨m, h1, h2, _⟩ | ⟨_, h2⟩ <;> omega
  | succ fuel ih =>
    intro ord l h hperm hU hl hh hlh hf hlo hhi hprog
    have hcc : cmp pivot pivot = 0 := by
      have := hanti pivot pivot hpU hpU
      omega
    by_cases hle : l ≤ h
    · have hl1 : l < ord.length := by omega
      have hh0 : 0 ≤ h := by omega
      have hxU : U (arr_at ord l) := hU _ (hperm.mem_iff.1 (arr_at_mem ord l hl hl1))
      have hyU : U (arr_at ord h) := hU _ (hperm.mem_iff.1 (arr_at_mem ord h hh0 hh))
      by_cases hx : cmp (arr_at ord l) pivot < 0
      · -- l++
        obtain ⟨ord2, l2, h2, hr, hrest⟩ := ih ord (l + 1) h hperm hU (by omega) hh
          (by omega) (by push_cast at hf ⊢; omega)
          (fun p hp0 hp1 => by
            by_cases e : p = l
            · subst e; omega
            · exact hlo p hp0 (by omega))
          hhi
          (by
            rcases hprog with ⟨m, h1, h2, h3⟩ | h
            · left
              refine ⟨m, ?_, h2, h3⟩
              by_contra hc
              have : m = l := by omega
              subst this
              rw [h3, hcc] at hx
              omega
            · right; omega)
        refine ⟨ord2, l2, h2, ?_, hrest⟩
        simp only [quicksort_loop, hle, if_true, arr_get_of_lt ord l hl hl1, hx, hr]
      · by_cases hy : cmp (arr_at ord h) pivot > 0
        · -- h--
          obtain ⟨ord2, l2, h2, hr, hrest⟩ := ih ord l (h - 1) hperm hU hl (by omega)
            (by omega) (by push_cast at hf ⊢; omega) hlo
            (fun p hp0 hp1 => by
              by_cases e : p = h
              · subst e
                have := (hanti pivot (arr_at ord p) hpU hyU).2 hy
                omega
              · exact hhi p (by omega) hp1)
            (by
              rcases hprog with ⟨m, h1, h2, h3⟩ | h
              · left
                refine ⟨m, h1, ?_, h3⟩
                by_contra hc
                have : m = h := by omega
                subst this
                rw [h3, hcc] at hy
                omega
              · right; omega)
          refine ⟨ord2, l2, h2, ?_, hrest⟩
          simp only [quicksort_loop, hle, if_true, arr_get_of_lt ord l hl hl1, hx, if_false,
            arr_get_of_lt ord h hh0 hh, hy, hr]
        · -- swap
          have hlen : (arr_swap ord l h).length = ord.length := arr_swap_length ord l h
          have hat : ∀ p, 0 ≤ p → arr_at (arr_swap ord l h) p
              = if p = h then arr_at ord l else if p = l then arr_at ord h else arr_at ord p :=
            fun p hp => arr_at_swap ord l h p hl hl1 hh0 hh hp
          obtain ⟨ord2, l2, h2, hr, hrest⟩ := ih (arr_swap ord l h) (l + 1) (h - 1)
            ((arr_swap_perm ord l h hl hl1 hh0 hh).trans hperm) hU (by omega)
            (by rw [hlen]; omega) (by omega) (by push_cast at hf ⊢; omega)
            (fun p hp0 hp1 => by
              rw [hat p hp0]
              by_cases e1 : p = h
              · have : p = l := by omega
                subst this
                rw [if_pos e1]
                rw [← e1] at hy
                omega
              · rw [if_neg e1]
                by_cases e2 : p = l
                · rw [if_pos e2]; omega
                · rw [if_neg e2]; exact hlo p hp0 (by omega))
            (fun p hp0 hp1 => by
              rw [hlen] at hp1
              have hp2 : 0 ≤ p := by omega
              rw [hat p hp2]
              by_cases e1 : p = h
              · rw [if_pos e1]
                have := (hanti (arr_at ord l) pivot hxU hpU)
                omega
              · rw [if_neg e1]
                by_cases e2 : p = l
                · have : p = h := by omega
                  exact absurd this e1
                · rw [if_neg e2]; exact hhi p (by omega) hp1)
            (by right; rw [hlen]; omega)
          refine ⟨ord2, l2, h2, ?_, hrest⟩
          have hs1 : arr_set ord l (arr_at ord h) = some (ord.set l.toNat (arr_at ord h)) :=
            arr_set_of_lt ord l _ hl hl1
          have hs2 : arr_set (ord.set l.toNat (arr_at ord h)) h (arr_at ord l)
              = some (arr_swap ord l h) :=
            arr_set_of_lt _ h _ hh0 (by simpa using hh)
          simp only [quicksort_loop, hle, if_true, arr_get_of_lt ord l hl hl1, hx, if_false,
            arr_get_of_lt ord h hh0 hh, hy, hs1, hs2, hr]
    · refine ⟨ord, l, h, ?_, hperm, by omega, hlh, ?_, ?_, hlo, hhi⟩
      · simp only [quicksort_loop, hle, if_false]
      · rcases hprog with ⟨m, h1, h2, _⟩ | ⟨h1, _⟩ <;> omega
      · rcases hprog with ⟨m, h1, h2, _⟩ | ⟨_, h2⟩ <;> omega

theorem mem_take_arr_at (arr : List Int) (a : Nat) (x : Int) (h : x ∈ arr.take a) :
    ∃ p : Int, 0 ≤ p ∧ p < a ∧ p < arr.length ∧ x = arr_at arr p := by
  obtain ⟨n, hn, hx⟩ := List.mem_iff_getElem.1 h
  have hn2 : n < a ∧ n < arr.length := by
    rw [List.length_take] at hn; omega
  refine ⟨n, by omega, by omega, by omega, ?_⟩
  rw [arr_at_eq_getElem arr n hn2.2, ← hx, List.getElem_take]

theorem mem_drop_arr_at (arr : List Int) (a : Nat) (x : Int) (h : x ∈ arr.drop a) :
    ∃ p : Int, (a : Int) ≤ p ∧ p < arr.length ∧ x = arr_at arr p := by
  obtain ⟨n, hn, hx⟩ := List.mem_iff_getElem.1 h
  have hn2 : a + n < arr.length := by
    rw [List.length_drop] at hn; omega
  refine ⟨(a + n : Nat), by omega, by omega, ?_⟩
  rw [arr_at_eq_getElem arr (a + n) hn2, ← hx, List.getElem_drop]

theorem mem_take_drop_arr_at (arr : List Int) (a k : Nat) (x : Int)
    (h : x ∈ (arr.drop a).take k) :
    ∃ p : Int, (a : Int) ≤ p ∧ p < a + k ∧ p < arr.length ∧ x = arr_at arr p := by
  obtain ⟨n, hn, hx⟩ := List.mem_iff_getElem.1 h
  have hn2 : n < k ∧ a + n < arr.length := by
    rw [List.length_take, List.length_drop] at hn; omega
  refine ⟨(a + n : Nat), by omega, by omega, by omega, ?_⟩
  rw [arr_at_eq_getElem arr (a + n) hn2.2, ← hx, List.getElem_take, List.getElem_drop]

theorem take_mid_drop (arr : List Int) (a b : Nat) (hab : a ≤ b) :
    arr.take a ++ ((arr.drop a).take (b - a) ++ arr.drop b) = arr := by
  have e : arr.drop b = (arr.drop a).drop (b - a) := by
    rw [List.drop_drop]; congr 1; omega
  rw [e, List.take_append_drop, List.take_append_drop]

/-- Result of `quicksort` for a comparator that is a total preorder on a set `U` that
contains the array elements: a sorted permutation, reached with a fuel of `N + 1`. -/
theorem quicksort_spec (cmp : Int → Int → Int) (U : Int → Prop)
    (hanti : ∀ a b, U a → U b → (cmp a b < 0 ↔ 0 < cmp b a))
    (htrans : ∀ a b c, U a → U b → U c → cmp a b ≤ 0 → cmp b c ≤ 0 → cmp a c ≤ 0)
    (fuel : Nat) :
    ∀ (N : Int) (ord : List Int), (ord.length : Int) = N → N + 1 ≤ fuel →
      (∀ x, x ∈ ord → U x) →
      ∃ res, quicksort cmp fuel N ord = some res ∧ res.Perm ord ∧
        res.Pairwise (fun a b => cmp a b ≤ 0) := by
  induction fuel with
  | zero => intro N ord hN hf _; omega
  | succ fuel ih =>
    intro N ord hN hf hU
    by_cases hsmall : N < 2
    · refine ⟨ord, ?_, List.Perm.refl _, ?_⟩
      · simp only [quicksort, hsmall, if_true]
      · match ord, hN with
        | [], _ => exact List.Pairwise.nil
        | [x], _ => exact List.pairwise_singleton _ _
        | x :: y :: t, hN => simp at hN; omega
    · have hN0 : 0 ≤ N := by omega
      have hdiv : N.tdiv 2 = N / 2 := Int.tdiv_eq_ediv hN0 (by decide)
      have hm0 : 0 ≤ N / 2 := by omega
      have hm1 : N / 2 < ord.length := by omega
      have hpU : U (arr_at ord (N / 2)) := hU _ (arr_at_mem ord _ hm0 hm1)
      obtain ⟨ord1, l, h, hloop, hperm, hhl, hlh, hl1, hh2, hlo, hhi⟩ :=
        quicksort_loop_spec cmp (arr_at ord (N / 2)) U hpU hanti ord (fuel + 1) ord 0 (N - 1)
          (List.Perm.refl _) hU (le_refl _) (by omega) (by omega)
          (by push_cast at hf ⊢; omega)
          (fun p h0 h1 => by omega) (fun p h0 h1 => by omega)
          (Or.inl ⟨N / 2, by omega, by omega, rfl⟩)
      have hlen1 : (ord1.length : Int) = N := by rw [hperm.length_eq]; exact hN
      have hU1 : ∀ x, x ∈ ord1 → U x := fun x hx => hU x (hperm.mem_iff.1 hx)
      -- left recursive call
      have hleft : ∃ L, (if h + 1 > 0 then
              (quicksort cmp fuel (h + 1) (ord1.take (h + 1).toNat)).map
                (fun s => s ++ ord1.drop (h + 1).toNat)
            else some ord1) = some (L ++ ord1.drop (h + 1).toNat) ∧
          L.Perm (ord1.take (h + 1).toNat) ∧ L.Pairwise (fun a b => cmp a b ≤ 0) := by
        by_cases hpos : h + 1 > 0
        · obtain ⟨L, hq, hp, hs⟩ := ih (h + 1) (ord1.take (h + 1).toNat)
            (by rw [List.length_take]; omega) (by push_cast at hf; omega)
            (fun x hx => hU1 x (List.mem_of_mem_take hx))
          exact ⟨L, by rw [if_pos hpos, hq]; rfl, hp, hs⟩
        · have e : (h + 1).toNat = 0 := by omega
          refine ⟨[], ?_, ?_, List.Pairwise.nil⟩
          · rw [if_neg hpos, e]; simp
          · rw [e]; simp
      obtain ⟨L, hL, hLp, hLs⟩ := hleft
      have hLlen : L.length = (h + 1).toNat := by
        rw [hLp.length_eq, List.length_take]; omega
      have hab : (h + 1).toNat ≤ l.toNat := by omega
      have hdrop : (L ++ ord1.drop (h + 1).toNat).drop l.toNat = ord1.drop l.toNat := by
        rw [List.drop_append_eq_append_drop, List.drop_of_length_le (by omega), hLlen,
          List.nil_append, List.drop_drop]
        congr 1; omega
      have htake : (L ++ ord1.drop (h + 1).toNat).take l.toNat
          = L ++ (ord1.drop (h + 1).toNat).take (l.toNat - (h + 1).toNat) := by
        rw [List.take_append_eq_append_take, List.take_of_length_le (by omega), hLlen]
      -- right recursive call
      have hright : ∃ R, (if N > l then
              (quicksort cmp fuel (N - l) ((L ++ ord1.drop (h + 1).toNat).drop l.toNat)).map
                (fun s => (L ++ ord1.drop (h + 1).toNat).take l.toNat ++ s)
            else some (L ++ ord1.drop (h + 1).toNat))
            = some (L ++ ((ord1.drop (h + 1).toNat).take (l.toNat - (h + 1).toNat) ++ R)) ∧
          R.Perm (ord1.drop l.toNat) ∧ R.Pairwise (fun a b => cmp a b ≤ 0) := by
        by_cases hpos : N > l
        · obtain ⟨R, hq, hp, hs⟩ := ih (N - l) (ord1.drop l.toNat)
            (by rw [List.length_drop]; omega) (by push_cast at hf; omega)
            (fun x hx => hU1 x (List.mem_of_mem_drop hx))
          refine ⟨R, ?_, hp, hs⟩
          rw [if_pos hpos, hdrop, hq, htake]
          simp
        · have e : ord1.drop l.toNat = [] := List.drop_of_length_le (by omega)
          refine ⟨[], ?_, by rw [e], List.Pairwise.nil⟩
          rw [if_neg hpos, List.append_nil]
          congr 2
          rw [List.take_of_length_le]
          rw [List.length_drop]; omega
      obtain ⟨R, hR, hRp, hRs⟩ := hright
      refine ⟨L ++ ((ord1.drop (h + 1).toNat).take (l.toNat - (h + 1).toNat) ++ R), ?_, ?_, ?_⟩
      · simp only [quicksort, hsmall, if_false, hdiv, arr_get_of_lt ord (N / 2) hm0 hm1,
          hloop, hL, hR]
      · refine List.Perm.trans ?_ hperm
        have := take_mid_drop ord1 (h + 1).toNat l.toNat hab
        conv_rhs => rw [← this]
        exact hLp.append (List.Perm.append (List.Perm.refl _) hRp)
      · -- sortedness
        have hLlo : ∀ x, x ∈ L → U x ∧ cmp x (arr_at ord (N / 2)) ≤ 0 := by
          intro x hx
          have hx1 := hLp.mem_iff.1 hx
          obtain ⟨p, hp0, hp1, hp2, hxe⟩ := mem_take_arr_at ord1 _ x hx1
          exact ⟨hU1 x (List.mem_of_mem_take hx1), by rw [hxe]; exact hlo p hp0 (by omega)⟩
        have hMboth : ∀ x, x ∈ (ord1.drop (h + 1).toNat).take (l.toNat - (h + 1).toNat) →
            U x ∧ cmp x (arr_at ord (N / 2)) ≤ 0 ∧ cmp (arr_at ord (N / 2)) x ≤ 0 := by
          intro x hx
          obtain ⟨p, hp0, hp1, hp2, hxe⟩ := mem_take_drop_arr_at ord1 _ _ x hx
          refine ⟨hU1 x (List.mem_of_mem_drop (List.mem_of_mem_take hx)), ?_, ?_⟩
          · rw [hxe]; exact hlo p (by omega) (by omega)
          · rw [hxe]; exact hhi p (by omega) hp2
        have hRhi : ∀ x, x ∈ R → U x ∧ cmp (arr_at ord (N / 2)) x ≤ 0 := by
          intro x hx
          have hx1 := hRp.mem_iff.1 hx
          obtain ⟨p, hp0, hp1, hxe⟩ := mem_drop_arr_at ord1 _ x hx1
          exact ⟨hU1 x (List.mem_of_mem_drop hx1), by rw [hxe]; exact hhi p (by omega) hp1⟩
        rw [List.pairwise_append]
        refine ⟨hLs, ?_, ?_⟩
        · rw [List.pairwise_append]
          refine ⟨?_, hRs, ?_⟩
          · apply List.pairwise_of_forall_mem_list
            intro x hx y hy
            obtain ⟨hxU, hx1, _⟩ := hMboth x hx
            obtain ⟨hyU, _, hy2⟩ := hMboth y hy
            exact htrans x _ y hxU hpU hyU hx1 hy2
          · intro x hx y hy
            obtain ⟨hxU, hx1, _⟩ := hMboth x hx
            obtain ⟨hyU, hy2⟩ := hRhi y hy
            exact htrans x _ y hxU hpU hyU hx1 hy2
        · intro x hx y hy
          obtain ⟨hxU, hx1⟩ := hLlo x hx
          rcases List.mem_append.1 hy with hy | hy
          · obtain ⟨hyU, _, hy2⟩ := hMboth y hy
            exact htrans x _ y hxU hpU hyU hx1 hy2
          · obtain ⟨hyU, hy2⟩ := hRhi y hy
            exact htrans x _ y hxU hpU hyU hx1 hy2

/-- C17: for every `N >= 0`, every array `ord` of `N` ints and every comparator `cmp`
that is a total preorder on the values in `ord` (the signs of `cmp(a, b)` and `cmp(b, a)`
are opposite, and `cmp(a, b) <= 0` is transitive), `quicksort(N, ord, cmp)` terminates
(a recursion depth and an iteration bound of `N + 1` are never reached) without any
access outside `0..N-1` of the array it was given, and leaves `ord` a permutation of its
initial contents with `cmp(ord[i], ord[j]) <= 0` for all `i < j < N`. -/
theorem quicksort_sorts (cmp : Int → Int → Int) (N : Int) (ord : List Int) (fuel : Nat)
    (hN : (ord.length : Int) = N) (hf : N + 1 ≤ fuel)
    (hanti : ∀ a ∈ ord, ∀ b ∈ ord, (cmp a b < 0 ↔ 0 < cmp b a))
    (htrans : ∀ a ∈ ord, ∀ b ∈ ord, ∀ c ∈ ord, cmp a b ≤ 0 → cmp b c ≤ 0 → cmp a c ≤ 0) :
    ∃ res, quicksort cmp fuel N ord = some res ∧ res.Perm ord ∧
      ∀ i j : Nat, i < j → j < res.length → cmp (res.getD i 0) (res.getD j 0) ≤ 0 := by
  obtain ⟨res, h1, h2, h3⟩ := quicksort_spec cmp (fun x => x ∈ ord)
    (fun a b ha hb => hanti a ha b hb) (fun a b c ha hb hc => htrans a ha b hb c hc)
    fuel N ord hN hf (fun x hx => hx)
  refine ⟨res, h1, h2, fun i j hij hj => ?_⟩
  rw [List.getD_eq_getElem res 0 hj, List.getD_eq_getElem res 0 (by omega)]
  exact List.pairwise_iff_getElem.1 h3 i j (by omega) hj hij

/-- Witness of C17: sorting `[3, 1, 2]` with the comparator `a - b`. -/
theorem quicksort_sorts_witness :
    ((([3, 1, 2] : List Int).length : Int) = 3 ∧ (3 : Int) + 1 ≤ ((4 : Nat) : Int) ∧
      (∀ a ∈ ([3, 1, 2] : List Int), ∀ b ∈ ([3, 1, 2] : List Int),
        ((fun x y : Int => x - y) a b < 0 ↔ 0 < (fun x y : Int => x - y) b a)) ∧
      (∀ a ∈ ([3, 1, 2] : List Int), ∀ b ∈ ([3, 1, 2] : List Int),
        ∀ c ∈ ([3, 1, 2] : List Int), (fun x y : Int => x - y) a b ≤ 0 →
          (fun x y : Int => x - y) b c ≤ 0 → (fun x y : Int => x - y) a c ≤ 0)) ∧
    quicksort (fun x y => x - y) 4 3 [3, 1, 2] = some [1, 2, 3] ∧
    ∃ res, quicksort (fun x y => x - y) 4 3 [3, 1, 2] = some res ∧
      res.Perm [3, 1, 2] ∧
      ∀ i j : Nat, i < j → j < res.length →
        (fun x y : Int => x - y) (res.getD i 0) (res.getD j 0) ≤ 0 :=
  ⟨⟨by decide, by decide, by decide, by decide⟩, by decide,
    quicksort_sorts (fun x y => x - y) 3 [3, 1, 2] 4 (by decide) (by decide) (by decide)
      (by decide)⟩

/-! ## quickselect -/

theorem SWAP_of_lt (arr : List Int) (i j : Int) (hi0 : 0 ≤ i) (hi1 : i < arr.length)
    (hj0 : 0 ≤ j) (hj1 : j < arr.length) : SWAP arr i j = some (arr_swap arr i j) := by
  have hs1 : arr_set arr i (arr_at arr j) = some (arr.set i.toNat (arr_at arr j)) :=
    arr_set_of_lt arr i _ hi0 hi1
  have hs2 : arr_set (arr.set i.toNat (arr_at arr j)) j (arr_at arr i)
      = some (arr_swap arr i j) :=
    arr_set_of_lt _ j _ hj0 (by simpa using hj1)
  simp only [SWAP, arr_get_of_lt arr i hi0 hi1, arr_get_of_lt arr j hj0 hj1, hs1, hs2]

theorem rearranged_refl (arr : List Int) (lo hi : Int) : rearranged arr arr lo hi :=
  ⟨rfl, List.Perm.refl _, fun _ _ _ => rfl, fun p h1 h2 => ⟨p, h1, h2, rfl⟩⟩

theorem rearranged_trans (a b c : List Int) (lo hi : Int)
    (h1 : rearranged a b lo hi) (h2 : rearranged b c lo hi) : rearranged a c lo hi := by
  obtain ⟨l1, p1, o1, i1⟩ := h1
  obtain ⟨l2, p2, o2, i2⟩ := h2
  refine ⟨l2.trans l1, p2.trans p1, fun p hp ho => ?_, fun p hp1 hp2 => ?_⟩
  · rw [o2 p hp ho, o1 p hp ho]
  · obtain ⟨q, hq1, hq2, e⟩ := i2 p hp1 hp2
    obtain ⟨r, hr1, hr2, e2⟩ := i1 q hq1 hq2
    exact ⟨r, hr1, hr2, e.trans e2⟩

theorem rearranged_mono (a b : List Int) (lo hi lo2 hi2 : Int) (h : rearranged a b lo hi)
    (hlo0 : 0 ≤ lo2) (hlo : lo2 ≤ lo) (hhi : hi ≤ hi2) : rearranged a b lo2 hi2 := by
  obtain ⟨l1, p1, o1, i1⟩ := h
  refine ⟨l1, p1, fun p hp ho => o1 p hp (by omega), fun p hp1 hp2 => ?_⟩
  by_cases hin : lo ≤ p ∧ p ≤ hi
  · obtain ⟨q, hq1, hq2, e⟩ := i1 p hin.1 hin.2
    exact ⟨q, by omega, by omega, e⟩
  · exact ⟨p, hp1, hp2, o1 p (by omega) (by omega)⟩

theorem rearranged_swap (arr : List Int) (lo hi i j : Int) (hlo : 0 ≤ lo)
    (hhi : hi < arr.length) (hi1 : lo ≤ i) (hi2 : i ≤ hi) (hj1 : lo ≤ j) (hj2 : j ≤ hi) :
    rearranged arr (arr_swap arr i j) lo hi := by
  have hat : ∀ p, 0 ≤ p → arr_at (arr_swap arr i j) p
      = if p = j then arr_at arr i else if p = i then arr_at arr j else arr_at arr p :=
    fun p hp => arr_at_swap arr i j p (by omega) (by omega) (by omega) (by omega) hp
  refine ⟨arr_swap_length arr i j,
    arr_swap_perm arr i j (by omega) (by omega) (by omega) (by omega),
    fun p hp ho => ?_, fun p hp1 hp2 => ?_⟩
  · rw [hat p hp, if_neg (by omega), if_neg (by omega)]
  · rw [hat p (by omega)]
    by_cases e1 : p = j
    · exact ⟨i, hi1, hi2, by rw [if_pos e1]⟩
    · by_cases e2 : p = i
      · exact ⟨j, hj1, hj2, by rw [if_neg e1, if_pos e2]⟩
      · exact ⟨p, hp1, hp2, by rw [if_neg e1, if_neg e2]⟩

/-- The upward scan stops at the first index after `i` whose element is not larger than
`a`, provided such an index `t` exists inside the array. -/
theorem scan_up_spec (arr : List Int) (a : Int) (t : Int) (ht1 : t < arr.length)
    (hta : arr_at arr t ≤ a) (fuel : Nat) :
    ∀ i : Int, 0 ≤ i + 1 → i < t → t - i ≤ fuel →
      ∃ i1, scan_up arr a fuel i = some i1 ∧ i < i1 ∧ i1 ≤ t ∧ arr_at arr i1 ≤ a ∧
        ∀ p, i < p → p < i1 → a < arr_at arr p := by
  induction fuel with
  | zero => intro i _ h1 h2; omega
  | succ fuel ih =>
    intro i h0 h1 h2
    have hg := arr_get_of_lt arr (i + 1) h0 (by omega)
    by_cases hx : arr_at arr (i + 1) > a
    · have hne : i + 1 ≠ t := by
        intro e; rw [e] at hx; omega
      obtain ⟨i1, hr, h3, h4, h5, h6⟩ := ih (i + 1) (by omega) (by omega)
        (by push_cast at h2; omega)
      refine ⟨i1, ?_, by omega, h4, h5, fun p hp1 hp2 => ?_⟩
      · simp only [scan_up, hg, hx, if_true, hr]
      · by_cases e : p = i + 1
        · rw [e]; exact hx
        · exact h6 p (by omega) hp2
    · refine ⟨i + 1, ?_, by omega, by omega, by omega, fun p hp1 hp2 => by omega⟩
      simp only [scan_up, hg, hx, if_false]

/-- The downward scan stops at the first index before `j` whose element is not smaller
than `a`, provided such an index `t` exists inside the array. -/
theorem scan_down_spec (arr : List Int) (a : Int) (t : Int) (ht0 : 0 ≤ t)
    (hta : a ≤ arr_at arr t) (fuel : Nat) :
    ∀ j : Int, j - 1 < arr.length → t < j → j - t ≤ fuel →
      ∃ j1, scan_down arr a fuel j = some j1 ∧ j1 < j ∧ t ≤ j1 ∧ a ≤ arr_at arr j1 ∧
        ∀ p, j1 < p → p < j → arr_at arr p < a := by
  induction fuel with
  | zero => intro j _ h1 h2; omega
  | succ fuel ih =>
    intro j h0 h1 h2
    have hg := arr_get_of_lt arr (j - 1) (by omega) h0
    by_cases hx : arr_at arr (j - 1) < a
    · have hne : j - 1 ≠ t := by
        intro e; rw [e] at hx; omega
      obtain ⟨j1, hr, h3, h4, h5, h6⟩ := ih (j - 1) (by omega) (by omega)
        (by push_cast at h2; omega)
      refine ⟨j1, ?_, by omega, h4, h5, fun p hp1 hp2 => ?_⟩
      · simp only [scan_down, hg, hx, if_true, hr]
      · by_cases e : p = j - 1
        · rw [e]; exact hx
        · exact h6 p hp1 (by omega)
    · refine ⟨j - 1, ?_, by omega, by omega, by omega, fun p hp1 hp2 => by omega⟩
      simp only [scan_down, hg, hx, if_false]

/-- Postcondition of the inner loop of `quickselect`, started on the range `l .. ir` whose
element at `l + 1` is the partitioning element `a`. -/
theorem quickselect_partition_spec (a : Int) (sf : Nat) (l ir : Int) (arr0 : List Int)
    (hl : 0 ≤ l) (hir : ir < arr0.length) (hsf : (arr0.length : Int) ≤ sf) (fuel : Nat) :
    ∀ (arr : List Int) (i j : Int),
      rearranged arr0 arr (l + 2) (ir - 1) →
      l + 1 ≤ i → i ≤ j → j ≤ ir → j - i < fuel →
      arr_at arr (l + 1) = a →
      (∀ p, l + 1 ≤ p → p ≤ i → a ≤ arr_at arr p) →
      (∀ p, j ≤ p → p ≤ ir → arr_at arr p ≤ a) →
      (i < j ∨ (l + 1 < i ∧ j < ir)) →
      ∃ arr2 i2 j2, quickselect_partition a sf fuel arr i j = some (arr2, i2, j2) ∧
        rearranged arr0 arr2 (l + 2) (ir - 1) ∧
        l + 1 ≤ j2 ∧ j2 < i2 ∧ i2 ≤ ir ∧ l + 1 < i2 ∧ j2 < ir ∧
        arr_at arr2 (l + 1) = a ∧
        (∀ p, l + 1 ≤ p → p < i2 → a ≤ arr_at arr2 p) ∧
        (∀ p, j2 < p → p ≤ ir → arr_at arr2 p ≤ a) := by
  induction fuel with
  | zero => intro arr i j _ _ h1 _ h2; omega
  | succ fuel ih =>
    intro arr i j hre hi hij hj hf ha hlo hhi hprog
    have hlen : arr.length = arr0.length := hre.1
    -- the upward scan
    have hup : ∃ i1, scan_up arr a sf i = some i1 ∧ i < i1 ∧ i1 ≤ ir ∧ arr_at arr i1 ≤ a ∧
        ∀ p, i < p → p < i1 → a < arr_at arr p := by
      by_cases hlt : i < j
      · obtain ⟨i1, h1, h2, h3, h4, h5⟩ := scan_up_spec arr a j (by omega)
          (hhi j (le_refl _) hj) sf i (by omega) hlt (by omega)
        exact ⟨i1, h1, h2, by omega, h4, h5⟩
      · have hjr : j < ir := by omega
        obtain ⟨i1, h1, h2, h3, h4, h5⟩ := scan_up_spec arr a (j + 1) (by omega)
          (hhi (j + 1) (by omega) (by omega)) sf i (by omega) (by omega) (by omega)
        exact ⟨i1, h1, h2, by omega, h4, h5⟩
    obtain ⟨i1, hs1, hii, hi1r, hi1a, hi1p⟩ := hup
    -- the downward scan
    have hdown : ∃ j1, scan_down arr a sf j = some j1 ∧ j1 < j ∧ l + 1 ≤ j1 ∧
        a ≤ arr_at arr j1 ∧ ∀ p, j1 < p → p < j → arr_at arr p < a := by
      by_cases hlt : i < j
      · obtain ⟨j1, h1, h2, h3, h4, h5⟩ := scan_down_spec arr a i (by omega)
          (hlo i hi (le_refl _)) sf j (by omega) hlt (by omega)
        exact ⟨j1, h1, h2, by omega, h4, h5⟩
      · have hli : l + 1 < i := by omega
        obtain ⟨j1, h1, h2, h3, h4, h5⟩ := scan_down_spec arr a (i - 1) (by omega)
          (hlo (i - 1) (by omega) (by omega)) sf j (by omega) (by omega) (by omega)
        exact ⟨j1, h1, h2, by omega, h4, h5⟩
    obtain ⟨j1, hs2, hjj, hj1l, hj1a, hj1p⟩ := hdown
    by_cases hbreak : j1 < i1
    · refine ⟨arr, i1, j1, ?_, hre, hj1l, hbreak, hi1r, by omega, by omega, ha, ?_, ?_⟩
      · simp only [quickselect_partition, hs1, hs2, hbreak, if_true]
      · intro p hp1 hp2
        by_cases e : p ≤ i
        · exact hlo p hp1 e
        · exact le_of_lt (hi1p p (by omega) hp2)
      · intro p hp1 hp2
        by_cases e : j ≤ p
        · exact hhi p e hp2
        · exact le_of_lt (hj1p p hp1 (by omega))
    · have hswap : SWAP arr i1 j1 = some (arr_swap arr i1 j1) :=
        SWAP_of_lt arr i1 j1 (by omega) (by omega) (by omega) (by omega)
      have hat : ∀ p, 0 ≤ p → arr_at (arr_swap arr i1 j1) p
          = if p = j1 then arr_at arr i1 else if p = i1 then arr_at arr j1
            else arr_at arr p :=
        fun p hp => arr_at_swap arr i1 j1 p (by omega) (by omega) (by omega) (by omega) hp
      have hre2 : rearranged arr0 (arr_swap arr i1 j1) (l + 2) (ir - 1) :=
        rearranged_trans _ _ _ _ _ hre
          (rearranged_swap arr (l + 2) (ir - 1) i1 j1 (by omega) (by omega) (by omega)
            (by omega) (by omega) (by omega))
      obtain ⟨arr2, i2, j2, hr, hrest⟩ := ih (arr_swap arr i1 j1) i1 j1 hre2 (by omega)
        (by omega) (by omega) (by push_cast at hf ⊢; omega)
        (by rw [hat _ (by omega), if_neg (by omega), if_neg (by omega)]; exact ha)
        (fun p hp1 hp2 => by
          rw [hat p (by omega)]
          by_cases e1 : p = j1
          · rw [if_pos e1]
            have : i1 = j1 := by omega
            rw [this]; exact hj1a
          · rw [if_neg e1]
            by_cases e2 : p = i1
            · rw [if_pos e2]; exact hj1a
            · rw [if_neg e2]
              by_cases e : p ≤ i
              · exact hlo p hp1 e
              · exact le_of_lt (hi1p p (by omega) (by omega)))
        (fun p hp1 hp2 => by
          rw [hat p (by omega)]
          by_cases e1 : p = j1
          · rw [if_pos e1]; exact hi1a
          · rw [if_neg e1, if_neg (by omega)]
            by_cases e : j ≤ p
            · exact hhi p e hp2
            · exact le_of_lt (hj1p p (by omega) (by omega)))
        (Or.inr ⟨by omega, by omega⟩)
      refine ⟨arr2, i2, j2, ?_, hrest⟩
      simp only [quickselect_partition, hs1, hs2, hbreak, if_false, hswap, hr]

theorem rearranged_at (a b : List Int) (lo hi : Int) (h : rearranged a b lo hi) (p : Int)
    (hp : 0 ≤ p) :
    ∃ q, arr_at b p = arr_at a q ∧ ((p < lo ∨ hi < p) → q = p) ∧
      ((lo ≤ p ∧ p ≤ hi) → (lo ≤ q ∧ q ≤ hi)) := by
  by_cases hin : lo ≤ p ∧ p ≤ hi
  · obtain ⟨q, h1, h2, e⟩ := h.2.2.2 p hin.1 hin.2
    exact ⟨q, e, fun ho => by omega, fun _ => ⟨h1, h2⟩⟩
  · exact ⟨p, h.2.2.1 p hp (by omega), fun _ => rfl, fun hc => absurd hc hin⟩

/-- A split point outside the rearranged range stays a split point. -/
theorem split_at_rearranged (a b : List Int) (lo hi s : Int) (h : rearranged a b lo hi)
    (hlo : 0 ≤ lo) (hhi : hi < a.length) (hs : s ≤ lo ∨ hi < s) (hsp : split_at a s) :
    split_at b s := by
  intro p q hp0 hp1 hq0 hq1
  rw [h.1] at hq1
  obtain ⟨p2, ep, hpo, hpi⟩ := rearranged_at a b lo hi h p hp0
  obtain ⟨q2, eq, hqo, hqi⟩ := rearranged_at a b lo hi h q (by omega)
  rw [ep, eq]
  have hp2 : 0 ≤ p2 ∧ p2 < s := by
    by_cases hin : lo ≤ p ∧ p ≤ hi
    · have := hpi hin; omega
    · have := hpo (by omega); omega
  have hq2 : s ≤ q2 ∧ q2 < a.length := by
    by_cases hin : lo ≤ q ∧ q ≤ hi
    · have := hqi hin; omega
    · have := hqo (by omega); omega
  exact hsp p2 q2 hp2.1 hp2.2 hq2.1 hq2.2

/-- An element in its final place outside the rearranged range stays in its final place. -/
theorem settled_rearranged (a b : List Int) (lo hi k : Int) (h : rearranged a b lo hi)
    (hlo : 0 ≤ lo) (hhi : hi < a.length) (hk0 : 0 ≤ k) (hk : k < lo ∨ hi < k)
    (hs : settled a k) : settled b k := by
  have ek : arr_at b k = arr_at a k := h.2.2.1 k hk0 hk
  constructor
  · intro p hp0 hp1
    obtain ⟨p2, ep, hpo, hpi⟩ := rearranged_at a b lo hi h p hp0
    rw [ek, ep]
    have hp2 : 0 ≤ p2 ∧ p2 < k := by
      by_cases hin : lo ≤ p ∧ p ≤ hi
      · have := hpi hin; omega
      · have := hpo (by omega); omega
    exact hs.1 p2 hp2.1 hp2.2
  · intro q hq0 hq1
    rw [h.1] at hq1
    obtain ⟨q2, eq, hqo, hqi⟩ := rearranged_at a b lo hi h q (by omega)
    rw [ek, eq]
    have hq2 : k < q2 ∧ q2 < a.length := by
      by_cases hin : lo ≤ q ∧ q ≤ hi
      · have := hqi hin; omega
      · have := hqo (by omega); omega
    exact hs.2 q2 hq2.1 hq2.2

theorem swap_if_lt_spec (arr : List Int) (i j : Int) (hi0 : 0 ≤ i) (hi1 : i < arr.length)
    (hj0 : 0 ≤ j) (hj1 : j < arr.length) :
    ∃ arr2, swap_if_lt arr i j = some arr2 ∧
      ((arr_at arr j ≤ arr_at arr i ∧ arr2 = arr) ∨
        (arr_at arr i < arr_at arr j ∧ arr2 = arr_swap arr i j)) := by
  by_cases hlt : arr_at arr i < arr_at arr j
  · refine ⟨arr_swap arr i j, ?_, Or.inr ⟨hlt, rfl⟩⟩
    simp only [swap_if_lt, arr_get_of_lt arr i hi0 hi1, arr_get_of_lt arr j hj0 hj1, hlt,
      if_true, SWAP_of_lt arr i j hi0 hi1 hj0 hj1]
  · refine ⟨arr, ?_, Or.inl ⟨by omega, rfl⟩⟩
    simp only [swap_if_lt, arr_get_of_lt arr i hi0 hi1, arr_get_of_lt arr j hj0 hj1, hlt,
      if_false]

/-- The conditional exchange orders the two elements and rearranges inside any range that
contains both indices. -/
theorem swap_if_lt_rearranged (arr : List Int) (i j lo hi : Int) (hlo : 0 ≤ lo)
    (hhi : hi < arr.length) (hi1 : lo ≤ i) (hi2 : i ≤ hi) (hj1 : lo ≤ j) (hj2 : j ≤ hi)
    (hne : i ≠ j) :
    ∃ arr2, swap_if_lt arr i j = some arr2 ∧ rearranged arr arr2 lo hi ∧
      arr_at arr2 j ≤ arr_at arr2 i ∧
      (∀ p, 0 ≤ p → p ≠ i → p ≠ j → arr_at arr2 p = arr_at arr p) ∧
      ((arr_at arr2 i = arr_at arr i ∧ arr_at arr2 j = arr_at arr j) ∨
        (arr_at arr2 i = arr_at arr j ∧ arr_at arr2 j = arr_at arr i)) := by
  obtain ⟨arr2, h1, h2⟩ := swap_if_lt_spec arr i j (by omega) (by omega) (by omega) (by omega)
  have hat : ∀ p, 0 ≤ p → arr_at (arr_swap arr i j) p
      = if p = j then arr_at arr i else if p = i then arr_at arr j else arr_at arr p :=
    fun p hp => arr_at_swap arr i j p (by omega) (by omega) (by omega) (by omega) hp
  rcases h2 with ⟨hle, e⟩ | ⟨hlt, e⟩
  · subst e
    exact ⟨arr2, h1, rearranged_refl _ _ _, hle, fun _ _ _ _ => rfl, Or.inl ⟨rfl, rfl⟩⟩
  · subst e
    have ei : arr_at (arr_swap arr i j) i = arr_at arr j := by
      rw [hat i (by omega), if_neg hne, if_pos rfl]
    have ej : arr_at (arr_swap arr i j) j = arr_at arr i := by
      rw [hat j (by omega), if_pos rfl]
    refine ⟨_, h1, rearranged_swap arr lo hi i j hlo hhi hi1 hi2 hj1 hj2, ?_, ?_,
      Or.inr ⟨ei, ej⟩⟩
    · rw [ei, ej]; omega
    · intro p hp h3 h4
      rw [hat p hp, if_neg h4, if_neg h3]

/-- The median-of-three phase of `quickselect` (misc.c, lines 391-402). -/
theorem quickselect_median_spec (arr : List Int) (l ir : Int) (hl : 0 ≤ l)
    (hir : ir < arr.length) (hgap : l + 2 ≤ ir) :
    ∃ arr1 arr2 arr3 arr4, SWAP arr ((l + ir).tdiv 2) (l + 1) = some arr1 ∧
      swap_if_lt arr1 l ir = some arr2 ∧ swap_if_lt arr2 (l + 1) ir = some arr3 ∧
      swap_if_lt arr3 l (l + 1) = some arr4 ∧ rearranged arr arr4 l ir ∧
      arr_at arr4 (l + 1) ≤ arr_at arr4 l ∧ arr_at arr4 ir ≤ arr_at arr4 (l + 1) := by
  have hdiv : (l + ir).tdiv 2 = (l + ir) / 2 := Int.tdiv_eq_ediv (by omega) (by decide)
  have h1 : SWAP arr ((l + ir).tdiv 2) (l + 1) = some (arr_swap arr ((l + ir) / 2) (l + 1)) := by
    rw [hdiv]
    exact SWAP_of_lt arr _ _ (by omega) (by omega) (by omega) (by omega)
  have r1 : rearranged arr (arr_swap arr ((l + ir) / 2) (l + 1)) l ir :=
    rearranged_swap arr l ir _ _ hl hir (by omega) (by omega) (by omega) (by omega)
  have len1 := r1.1
  obtain ⟨arr2, h2, r2, o2, _, _⟩ := swap_if_lt_rearranged (arr_swap arr ((l + ir) / 2) (l + 1))
    l ir l ir hl (by omega) (le_refl _) (by omega) (by omega) (le_refl _) (by omega)
  have len2 := r2.1
  obtain ⟨arr3, h3, r3, o3, f3, c3⟩ := swap_if_lt_rearranged arr2 (l + 1) ir l ir hl
    (by omega) (by omega) (by omega) (by omega) (le_refl _) (by omega)
  have len3 := r3.1
  obtain ⟨arr4, h4, r4, o4, f4, c4⟩ := swap_if_lt_rearranged arr3 l (l + 1) l ir hl
    (by omega) (le_refl _) (by omega) (by omega) (by omega) (by omega)
  have e3l : arr_at arr3 l = arr_at arr2 l := f3 l hl (by omega) (by omega)
  have h3a : arr_at arr3 ir ≤ arr_at arr3 l := by
    rw [e3l]
    rcases c3 with ⟨_, e⟩ | ⟨e, _⟩
    · rw [e]; exact o2
    · rw [← e] at o2; omega
  have e4 : arr_at arr4 ir = arr_at arr3 ir := f4 ir (by omega) (by omega) (by omega)
  refine ⟨_, arr2, arr3, arr4, h1, h2, h3, h4, ?_, o4, ?_⟩
  · exact rearranged_trans _ _ _ _ _ (rearranged_trans _ _ _ _ _
      (rearranged_trans _ _ _ _ _ r1 r2) r3) r4
  · rw [e4]
    rcases c4 with ⟨_, e⟩ | ⟨_, e⟩
    · rw [e]; exact o3
    · rw [e]; exact h3a

theorem countP_le_of_drop (p : Int → Bool) (l : List Int) (K : Nat)
    (h : ∀ x, x ∈ l.drop K → p x = false) : l.countP p ≤ K := by
  have e : l.countP p = (l.take K).countP p + (l.drop K).countP p := by
    rw [← List.countP_append, List.take_append_drop]
  have h0 : (l.drop K).countP p = 0 :=
    List.countP_eq_zero.2 (fun x hx => by simp [h x hx])
  have h1 : (l.take K).countP p ≤ (l.take K).length := List.countP_le_length p
  rw [List.length_take] at h1
  omega

theorem le_countP_of_take (p : Int → Bool) (l : List Int) (K : Nat) (hK : K ≤ l.length)
    (h : ∀ x, x ∈ l.take K → p x = true) : K ≤ l.countP p := by
  have e : l.countP p = (l.take K).countP p + (l.drop K).countP p := by
    rw [← List.countP_append, List.take_append_drop]
  have h1 : (l.take K).countP p = (l.take K).length :=
    List.countP_eq_length.2 (fun x hx => h x hx)
  rw [List.length_take] at h1
  omega

/-- An element in its final place of the descending order is the element that stands at
the same index in every descending rearrangement. -/
theorem settled_eq_sorted (arr s : List Int) (k : Int) (hk0 : 0 ≤ k) (hk1 : k < arr.length)
    (hset : settled arr k) (hperm : s.Perm arr) (hsort : s.Pairwise (fun a b => b ≤ a)) :
    s.getD k.toNat 0 = arr_at arr k := by
  have hK : k.toNat < arr.length := by omega
  have hKs : k.toNat < s.length := by rw [hperm.length_eq]; exact hK
  have hkk : ((k.toNat : Nat) : Int) = k := Int.toNat_of_nonneg hk0
  rw [List.getD_eq_getElem s 0 hKs]
  have hsorted := List.pairwise_iff_getElem.1 hsort
  -- counting in arr
  have hc1 : arr.countP (fun x => decide (arr_at arr k < x)) ≤ k.toNat := by
    apply countP_le_of_drop
    intro x hx
    obtain ⟨p, hp0, hp1, e⟩ := mem_drop_arr_at arr _ x hx
    rw [e, decide_eq_false_iff_not]
    by_cases hpk : p = k
    · rw [hpk]; omega
    · have := hset.2 p (by omega) hp1
      omega
  have hc2 : k.toNat + 1 ≤ arr.countP (fun x => decide (arr_at arr k ≤ x)) := by
    apply le_countP_of_take _ _ _ (by omega)
    intro x hx
    obtain ⟨p, hp0, hp1, hp2, e⟩ := mem_take_arr_at arr _ x hx
    rw [e, decide_eq_true_iff]
    by_cases hpk : p = k
    · rw [hpk]
    · exact hset.1 p hp0 (by push_cast at hp1; omega)
  rw [← hperm.countP_eq] at hc1 hc2
  by_contra hne
  rcases lt_or_gt_of_ne hne with hlt | hgt
  · -- the element of s at k is smaller: too few elements at least as large
    have : s.countP (fun x => decide (arr_at arr k ≤ x)) ≤ k.toNat := by
      apply countP_le_of_drop
      intro x hx
      obtain ⟨n, hn, e⟩ := List.mem_iff_getElem.1 hx
      rw [List.getElem_drop] at e
      rw [List.length_drop] at hn
      rw [← e, decide_eq_false_iff_not]
      by_cases hn0 : n = 0
      · subst hn0; simp only [Nat.add_zero]; omega
      · have := hsorted k.toNat (k.toNat + n) hKs (by omega) (by omega)
        omega
    omega
  · -- the element of s at k is larger: too many larger elements
    have : k.toNat + 1 ≤ s.countP (fun x => decide (arr_at arr k < x)) := by
      apply le_countP_of_take _ _ _ (by omega)
      intro x hx
      obtain ⟨n, hn, e⟩ := List.mem_iff_getElem.1 hx
      rw [List.getElem_take] at e
      rw [List.length_take] at hn
      rw [← e, decide_eq_true_iff]
      by_cases hnk : n = k.toNat
      · subst hnk; exact hgt
      · have := hsorted n k.toNat (by omega) hKs (by omega)
        omega
    omega

/-- The outer loop of `quickselect` returns with the element at index `k` in its final
place of the descending order. -/
theorem quickselect_loop_spec (k : Int) (sf : Nat) (arr0 : List Int) (hk0 : 0 ≤ k)
    (hk1 : k < arr0.length) (hsf : (arr0.length : Int) ≤ sf) (fuel : Nat) :
    ∀ (arr : List Int) (l ir : Int),
      arr.length = arr0.length → arr.Perm arr0 → 0 ≤ l → l < arr0.length → 0 ≤ ir →
      ir < arr0.length → ir - l < fuel → 1 ≤ fuel →
      split_at arr l → split_at arr (ir + 1) →
      ((l ≤ k ∧ k ≤ ir) ∨ ((k < l ∨ ir < k) ∧ settled arr k)) →
      ∃ v arr2, quickselect_loop k sf fuel arr l ir = some (v, arr2) ∧ arr2.Perm arr0 ∧
        v = arr_at arr2 k ∧ settled arr2 k := by
  induction fuel with
  | zero => intro arr l ir _ _ _ _ _ _ _ h; omega
  | succ fuel ih =>
    intro arr l ir hlen hperm hl0 hl1 hir0 hir1 hf _ hs1 hs2 hK
    by_cases hret : ir ≤ l + 1
    · -- the return branch
      have hstep : ∃ arr1, (if ir = l + 1 then
            match arr_get arr ir, arr_get arr l with
            | some x, some y => if x > y then SWAP arr l ir else some arr
            | _, _ => none
          else some arr) = some arr1 ∧ rearranged arr arr1 l ir ∧
          (ir = l + 1 → arr_at arr1 ir ≤ arr_at arr1 l) := by
        by_cases e : ir = l + 1
        · by_cases hgt : arr_at arr ir > arr_at arr l
          · refine ⟨arr_swap arr l ir, ?_, ?_, fun _ => ?_⟩
            · simp only [e, if_true, arr_get_of_lt arr (l + 1) (by omega) (by omega),
                arr_get_of_lt arr l hl0 (by omega)]
              rw [e] at hgt
              simp only [hgt, if_true]
              exact SWAP_of_lt arr l (l + 1) hl0 (by omega) (by omega) (by omega)
            · exact rearranged_swap arr l ir l ir hl0 (by omega) (le_refl _) (by omega)
                (by omega) (le_refl _)
            · rw [arr_at_swap arr l ir ir hl0 (by omega) hir0 (by omega) hir0, if_pos rfl,
                arr_at_swap arr l ir l hl0 (by omega) hir0 (by omega) hl0,
                if_neg (by omega), if_pos rfl]
              omega
          · refine ⟨arr, ?_, rearranged_refl _ _ _, fun _ => by omega⟩
            simp only [e, if_true, arr_get_of_lt arr (l + 1) (by omega) (by omega),
              arr_get_of_lt arr l hl0 (by omega)]
            rw [e] at hgt
            simp only [hgt, if_false]
        · exact ⟨arr, by rw [if_neg e], rearranged_refl _ _ _, fun h => absurd h e⟩
      obtain ⟨arr1, hr1, hre1, hord⟩ := hstep
      have hlen1 : arr1.length = arr0.length := hre1.1.trans hlen
      have hset : settled arr1 k := by
        rcases hK with ⟨hk2, hk3⟩ | ⟨hout, hst⟩
        · have hs1b : split_at arr1 l :=
            split_at_rearranged arr arr1 l ir l hre1 hl0 (by omega) (Or.inl (le_refl _)) hs1
          have hs2b : split_at arr1 (ir + 1) :=
            split_at_rearranged arr arr1 l ir (ir + 1) hre1 hl0 (by omega)
              (Or.inr (by omega)) hs2
          constructor
          · intro p hp0 hp1
            by_cases hpl : p < l
            · exact hs1b p k hp0 hpl hk2 (by omega)
            · have e1 : p = l := by omega
              have e2 : k = ir := by omega
              have e3 : ir = l + 1 := by omega
              rw [e1, e2]; exact hord e3
          · intro q hq0 hq1
            by_cases hqi : ir < q
            · exact hs2b k q hk0 (by omega) (by omega) hq1
            · have e1 : q = ir := by omega
              have e2 : k = l := by omega
              have e3 : ir = l + 1 := by omega
              rw [e1, e2]; exact hord e3
        · exact settled_rearranged arr arr1 l ir k hre1 hl0 (by omega) hk0 hout hst
      refine ⟨arr_at arr1 k, arr1, ?_, hre1.2.1.trans hperm, rfl, hset⟩
      simp only [quickselect_loop, hret, if_true, hr1,
        arr_get_of_lt arr1 k hk0 (by omega)]
    · -- one partitioning step
      obtain ⟨a1, a2, a3, arr4, hm1, hm2, hm3, hm4, hre4, ho1, ho2⟩ :=
        quickselect_median_spec arr l ir hl0 (by omega) (by omega)
      have hlen4 : arr4.length = arr0.length := hre4.1.trans hlen
      obtain ⟨arr5, i, j, hpart, hre5, hj1, hji, hi2, hli, hjr, ha5, hlo5, hhi5⟩ :=
        quickselect_partition_spec (arr_at arr4 (l + 1)) sf l ir arr4 hl0 (by omega)
          (by omega) sf arr4 (l + 1) ir (rearranged_refl _ _ _) (le_refl _) (by omega)
          (le_refl _) (by omega) rfl
          (fun p h1 h2 => by
            have : p = l + 1 := by omega
            rw [this])
          (fun p h1 h2 => by
            have : p = ir := by omega
            rw [this]; exact ho2)
          (Or.inl (by omega))
      have hlen5 : arr5.length = arr0.length := hre5.1.trans hlen4
      have e5l : arr_at arr5 l = arr_at arr4 l := hre5.2.2.1 l hl0 (Or.inl (by omega))
      -- the two assignments that put the partitioning element at index j
      have hw1 : arr_set arr5 (l + 1) (arr_at arr5 j)
          = some (arr5.set (l + 1).toNat (arr_at arr5 j)) :=
        arr_set_of_lt arr5 (l + 1) _ (by omega) (by omega)
      have hw2 : arr_set (arr5.set (l + 1).toNat (arr_at arr5 j)) j (arr_at arr4 (l + 1))
          = some (arr_swap arr5 (l + 1) j) := by
        rw [← ha5]
        exact arr_set_of_lt _ j _ (by omega) (by simp; omega)
      have hat : ∀ p, 0 ≤ p → arr_at (arr_swap arr5 (l + 1) j) p
          = if p = j then arr_at arr5 (l + 1) else if p = l + 1 then arr_at arr5 j
            else arr_at arr5 p :=
        fun p hp => arr_at_swap arr5 (l + 1) j p (by omega) (by omega) (by omega)
          (by omega) hp
      have hre7 : rearranged arr (arr_swap arr5 (l + 1) j) l ir :=
        rearranged_trans _ _ _ _ _ (rearranged_trans _ _ _ _ _ hre4
          (rearranged_mono _ _ _ _ _ _ hre5 hl0 (by omega) (by omega)))
          (rearranged_swap arr5 l ir (l + 1) j hl0 (by omega) (by omega) (by omega)
            (by omega) (by omega))
      have hlen7 : (arr_swap arr5 (l + 1) j).length = arr0.length := hre7.1.trans hlen
      -- values around the partitioning element
      have f1 : ∀ p, l ≤ p → p < j →
          arr_at arr4 (l + 1) ≤ arr_at (arr_swap arr5 (l + 1) j) p := by
        intro p hp1 hp2
        rw [hat p (by omega), if_neg (by omega)]
        by_cases e : p = l + 1
        · rw [if_pos e]; exact hlo5 j hj1 hji
        · rw [if_neg e]
          by_cases e2 : p = l
          · rw [e2, e5l]; exact ho1
          · exact hlo5 p (by omega) (by omega)
      have f2 : arr_at (arr_swap arr5 (l + 1) j) j = arr_at arr4 (l + 1) := by
        rw [hat j (by omega), if_pos rfl, ha5]
      have f3 : ∀ p, j < p → p ≤ ir →
          arr_at (arr_swap arr5 (l + 1) j) p ≤ arr_at arr4 (l + 1) := by
        intro p hp1 hp2
        rw [hat p (by omega), if_neg (by omega), if_neg (by omega)]
        exact hhi5 p hp1 hp2
      have f4 : ∀ p, j < p → p < i →
          arr_at (arr_swap arr5 (l + 1) j) p = arr_at arr4 (l + 1) := by
        intro p hp1 hp2
        have h1 := f3 p hp1 (by omega)
        have h2 : arr_at arr4 (l + 1) ≤ arr_at (arr_swap arr5 (l + 1) j) p := by
          rw [hat p (by omega), if_neg (by omega), if_neg (by omega)]
          exact hlo5 p (by omega) hp2
        omega
      have f5 : ∀ p, l ≤ p → p < i →
          arr_at arr4 (l + 1) ≤ arr_at (arr_swap arr5 (l + 1) j) p := by
        intro p hp1 hp2
        by_cases e1 : p < j
        · exact f1 p hp1 e1
        · by_cases e2 : p = j
          · rw [e2, f2]
          · rw [f4 p (by omega) hp2]
      have f6 : ∀ p, j ≤ p → p ≤ ir →
          arr_at (arr_swap arr5 (l + 1) j) p ≤ arr_at arr4 (l + 1) := by
        intro p hp1 hp2
        by_cases e2 : p = j
        · rw [e2, f2]
        · exact f3 p (by omega) hp2
      have hs1b : split_at (arr_swap arr5 (l + 1) j) l :=
        split_at_rearranged arr _ l ir l hre7 hl0 (by omega) (Or.inl (le_refl _)) hs1
      have hs2b : split_at (arr_swap arr5 (l + 1) j) (ir + 1) :=
        split_at_rearranged arr _ l ir (ir + 1) hre7 hl0 (by omega) (Or.inr (by omega)) hs2
      have hsi : split_at (arr_swap arr5 (l + 1) j) i := by
        intro p q hp0 hp1 hq0 hq1
        rw [hlen7] at hq1
        by_cases hpl : p < l
        · exact hs1b p q hp0 hpl (by omega) (by rw [hlen7]; exact hq1)
        · by_cases hqi : q ≤ ir
          · have := f5 p (by omega) hp1
            have := f3 q (by omega) hqi
            omega
          · exact hs2b p q hp0 (by omega) (by omega) (by rw [hlen7]; exact hq1)
      have hsj : split_at (arr_swap arr5 (l + 1) j) j := by
        intro p q hp0 hp1 hq0 hq1
        rw [hlen7] at hq1
        by_cases hpl : p < l
        · exact hs1b p q hp0 hpl (by omega) (by rw [hlen7]; exact hq1)
        · by_cases hqi : q ≤ ir
          · have := f1 p (by omega) hp1
            have := f6 q hq0 hqi
            omega
          · exact hs2b p q hp0 (by omega) (by omega) (by rw [hlen7]; exact hq1)
      -- an index between j and i (or j itself) holds its final element
      have hsetk : j ≤ k → k < i → settled (arr_swap arr5 (l + 1) j) k := by
        intro hk2 hk3
        have ek : arr_at (arr_swap arr5 (l + 1) j) k = arr_at arr4 (l + 1) := by
          by_cases e : k = j
          · rw [e, f2]
          · exact f4 k (by omega) hk3
        constructor
        · intro p hp0 hp1
          by_cases hpl : p < l
          · exact hs1b p k hp0 hpl (by omega) (by rw [hlen7]; exact hk1)
          · rw [ek]; exact f5 p (by omega) (by omega)
        · intro q hq0 hq1
          rw [hlen7] at hq1
          by_cases hqi : q ≤ ir
          · rw [ek]; exact f3 q (by omega) hqi
          · exact hs2b k q hk0 (by omega) (by omega) (by rw [hlen7]; exact hq1)
      have hK2 : ((if j ≤ k then i else l) ≤ k ∧ k ≤ (if j ≥ k then j - 1 else ir)) ∨
          ((k < (if j ≤ k then i else l) ∨ (if j ≥ k then j - 1 else ir) < k) ∧
            settled (arr_swap arr5 (l + 1) j) k) := by
        rcases hK with ⟨hk2, hk3⟩ | ⟨hout, hst⟩
        · rcases lt_trichotomy j k with hjk | hjk | hjk
          · by_cases hki : k < i
            · right
              refine ⟨Or.inl ?_, hsetk (by omega) hki⟩
              rw [if_pos (by omega)]; exact hki
            · left
              rw [if_pos (by omega), if_neg (by omega)]
              omega
          · right
            refine ⟨Or.inr ?_, hsetk (by omega) (by omega)⟩
            rw [if_pos (by omega)]; omega
          · left
            rw [if_neg (by omega), if_pos (by omega)]
            omega
        · right
          refine ⟨?_, settled_rearranged arr _ l ir k hre7 hl0 (by omega) hk0 hout hst⟩
          rcases hout with h | h
          · left; split <;> omega
          · right; split <;> omega
      obtain ⟨v, arr2, hrec, hrest⟩ := ih (arr_swap arr5 (l + 1) j)
        (if j ≤ k then i else l) (if j ≥ k then j - 1 else ir) hlen7
        (hre7.2.1.trans hperm) (by split <;> omega) (by split <;> omega)
        (by split <;> omega) (by split <;> omega)
        (by push_cast at hf; split <;> split <;> omega)
        (by push_cast at hf; omega)
        (by split
            · exact hsi
            · exact hs1b)
        (by split
            · rw [show j - 1 + 1 = j by ring]; exact hsj
            · exact hs2b)
        hK2
      refine ⟨v, arr2, ?_, hrest⟩
      simp only [quickselect_loop, hret, if_false, hm1, hm2, hm3, hm4,
        arr_get_of_lt arr4 (l + 1) (by omega) (by omega), hpart,
        arr_get_of_lt arr5 j (by omega) (by omega), hw1, hw2, hrec]

/-- C15: for every array `arr` of `n >= 1` comparable values and every `k` with
`0 <= k < n`, `quickselect(arr, n, k)` terminates (an iteration bound of `n` is never
reached) without any access outside the array and returns the `k`-th largest element:
the value that stands at index `k` in every descending rearrangement of the initial
contents, in particular in the descending insertion sort. The array is left a permutation
of its initial contents. -/
theorem quickselect_kth_largest (arr : List Int) (n k : Int) (fuel : Nat)
    (hn : (arr.length : Int) = n) (hk0 : 0 ≤ k) (hk1 : k < n) (hf : n ≤ fuel) :
    ∃ v arr2, quickselect fuel arr n k = some (v, arr2) ∧ arr2.Perm arr ∧
      (∀ s : List Int, s.Perm arr → s.Pairwise (fun a b => b ≤ a) →
        v = s.getD k.toNat 0) ∧
      v = (arr.insertionSort (fun a b => b ≤ a)).getD k.toNat 0 := by
  obtain ⟨v, arr2, h1, h2, h3, h4⟩ := quickselect_loop_spec k fuel arr hk0 (by omega)
    (by omega) fuel arr 0 (n - 1) rfl (List.Perm.refl _) (le_refl _) (by omega) (by omega)
    (by omega) (by omega) (by omega)
    (fun p q hp0 hp1 _ _ => by omega)
    (fun p q _ _ hq0 hq1 => by omega)
    (Or.inl ⟨hk0, by omega⟩)
  have hall : ∀ s : List Int, s.Perm arr → s.Pairwise (fun a b => b ≤ a) →
      v = s.getD k.toNat 0 := by
    intro s hs1 hs2
    rw [h3]
    exact (settled_eq_sorted arr2 s k hk0 (by rw [h2.length_eq]; omega) h4
      (hs1.trans h2.symm) hs2).symm
  refine ⟨v, arr2, h1, h2, hall, ?_⟩
  apply hall
  · exact List.perm_insertionSort _ _
  · have := List.sorted_insertionSort (fun a b : Int => a ≥ b) arr
    exact this

/-- Witness of C15: the second largest element (`k = 1`) of `[3, 1, 4, 1, 5]` is `4`. -/
theorem quickselect_kth_largest_witness :
    ((([3, 1, 4, 1, 5] : List Int).length : Int) = 5 ∧ (0 : Int) ≤ 1 ∧ (1 : Int) < 5 ∧
      (5 : Int) ≤ ((5 : Nat) : Int)) ∧
    (quickselect 5 [3, 1, 4, 1, 5] 5 1).map Prod.fst = some 4 ∧
    ∃ v arr2, quickselect 5 [3, 1, 4, 1, 5] 5 1 = some (v, arr2) ∧
      arr2.Perm [3, 1, 4, 1, 5] ∧
      (∀ s : List Int, s.Perm [3, 1, 4, 1, 5] → s.Pairwise (fun a b => b ≤ a) →
        v = s.getD (1 : Int).toNat 0) ∧
      v = (([3, 1, 4, 1, 5] : List Int).insertionSort (fun a b => b ≤ a)).getD
        (1 : Int).toNat 0 :=
  ⟨⟨by decide, by decide, by decide, by decide⟩, by decide,
    quickselect_kth_largest [3, 1, 4, 1, 5] 5 1 5 (by decide) (by decide) (by decide)
      (by decide)⟩

end Bart
